import Mathlib

/-!
A verification development for the qd.db embedded key-value store.

The JavaScript source is shallowly embedded: JavaScript values are modelled by
the inductive type `JSValue` (numbers are idealised as rationals, so IEEE-754
rounding is outside the model; string lengths count code points where
JavaScript counts UTF-16 units — all concrete inputs used below are ASCII, for
which the two coincide), stateful classes become explicit state records with
pure transition functions, exceptions become `Except`, and `async` control
flow is sequentialised (the store is single-threaded and cooperative).

Platform built-ins that the repository calls but does not define
(`Date.prototype.toISOString` / `new Date(string)`, `Buffer` base64
conversion, `BigInt`/`toString` decimal conversion, `JSON.parse` on free-form
strings) are abstracted into a `Platform` record of conversion functions; the
properties the ECMAScript specification guarantees for them are collected in
`Platform.Faithful` and taken as hypotheses where needed.  `JSON.stringify`
followed by `JSON.parse` on a well-formed JSON document is the identity, so
the wire form of a serialized value is represented by its JSON tree (`Json`)
rather than by raw text; the concrete text of a tree is `Json.print`.
-/

namespace QDB

/-- Element kinds of the numeric JavaScript typed arrays
(`BigInt64Array`/`BigUint64Array` are modelled separately since their
elements are bigints, not numbers). -/
inductive TypedKind where
  | int8 | uint8 | uint8c | int16 | uint16 | int32 | uint32 | float32 | float64
deriving DecidableEq

/-- A JavaScript value.  `vnum` carries a rational (idealised IEEE double);
`vnan`, `vinf`, `vninf` are the non-finite numbers.  `vdate none` is an
invalid `Date` (one whose time value is NaN).  `vfunc` and `vsymbol` carry an
identity only: their behaviour never matters to the code under study.
`vbuf`/`vdataview` carry raw bytes.  Object identity is not modelled: two
structurally equal `vobj`s stand for two distinct JavaScript objects unless
stated otherwise, which is why the strict-equality model below never equates
objects. -/
inductive JSValue where
  | vnull
  | vundef
  | vbool (b : Bool)
  | vnum (q : ℚ)
  | vnan
  | vinf
  | vninf
  | vstr (s : String)
  | varr (elems : List JSValue)
  | vobj (fields : List (String × JSValue))
  | vdate (ms : Option Int)
  | vregex (source flags : String)
  | vset (elems : List JSValue)
  | vmap (entries : List (JSValue × JSValue))
  | vbuf (bytes : List Nat)
  | vtyped (kind : TypedKind) (elems : List ℚ)
  | vtypedBig (signed : Bool) (elems : List Int)
  | vdataview (bytes : List Nat)
  | vbigint (n : Int)
  | verror (name msg stack : String)
  | vfunc (id : Nat)
  | vsymbol (id : Nat)

namespace JSValue

/-- JavaScript truthiness (`Boolean(v)`), on the modelled value universe.
Falsy values: `null`, `undefined`, `false`, `0`, `NaN`, `""`, `0n`. -/
def truthy : JSValue → Bool
  | vnull => false
  | vundef => false
  | vbool b => b
  | vnum q => q ≠ 0
  | vnan => false
  | vinf => true
  | vninf => true
  | vstr s => s ≠ ""
  | vbigint n => n ≠ 0
  | _ => true

/-- `typeof v === 'number'`. -/
def isNumber : JSValue → Bool
  | vnum _ => true
  | vnan => true
  | vinf => true
  | vninf => true
  | _ => false

/-- `typeof v === 'number' && isFinite(v)` (the global `isFinite` coerces,
but the call sites below only ever reach it with a number). -/
def isFiniteNumber : JSValue → Bool
  | vnum _ => true
  | _ => false

/-- `Array.isArray(v)`. -/
def isArray : JSValue → Bool
  | varr _ => true
  | _ => false

/-- `a || b` (JavaScript logical or: `a` if truthy, else `b`). -/
def jsOr (a b : JSValue) : JSValue :=
  if a.truthy then a else b

/-- Strict equality `a === b` on the modelled fragment.  `NaN === NaN` is
false; objects (arrays, plain objects, dates, …) compare by reference and two
separately materialised objects are never identical, so every object
comparison here is `false`.  (The source only ever applies `===`/`!==` to
primitives in the paths verified below.) -/
def strictEq : JSValue → JSValue → Bool
  | vnull, vnull => true
  | vundef, vundef => true
  | vbool a, vbool b => a = b
  | vnum a, vnum b => a = b
  | vinf, vinf => true
  | vninf, vninf => true
  | vstr a, vstr b => a = b
  | vbigint a, vbigint b => a = b
  | _, _ => false

end JSValue

open JSValue

/-! ### The cache memory estimator (src/core/cache.js, `CacheNode`)

Constants from `memoryEstimationConstants`.  All sizes computed by the
estimator are sums and products of integers, so they are modelled as
integers (they are JavaScript numbers in the source).  `Object.keys` of an array, typed array or
`Buffer` yields its index strings; of a `Date`, `RegExp`, `Set`, `Map`,
`DataView` or `Error` it yields `[]` (no own enumerable properties). -/

/-- Own enumerable properties of a JavaScript object value, in order —
what `Object.keys`/property access sees.  Only object-typed values occur as
arguments (the estimator dispatches on `typeof` first). -/
def ownProps : JSValue → List (String × JSValue)
  | vobj fields => fields
  | varr l => (l.enum.map fun p => (toString p.1, p.2))
  | vtyped _ elems => (elems.enum.map fun p => (toString p.1, JSValue.vnum p.2))
  | vtypedBig _ elems => (elems.enum.map fun p => (toString p.1, JSValue.vbigint p.2))
  | vbuf bytes => (bytes.enum.map fun p => (toString p.1, JSValue.vnum (p.2 : ℚ)))
  | _ => []

mutual

/-- `CacheNode.estimateObjectSize(obj, depth)`. -/
def estimateObjectSize (v : JSValue) (depth : Nat) : ℤ :=
  if depth > 10 then 2048
  else
    let props := ownProps v
    let sampleSize := min props.length 50
    let sampled := props.take sampleSize
    let base : ℤ := (props.length : ℤ) * 32
    let body : ℤ := (sampled.attach.map (fun p =>
      ((p.1.1.length : ℤ) * 2) +
      (match p.1.2 with
       | JSValue.vstr s => (s.length : ℤ) * 2
       | JSValue.varr l => estimateArraySize l (depth + 1)
       | JSValue.vobj fields => estimateObjectSize (JSValue.vobj fields) (depth + 1)
       | JSValue.vdate m => estimateObjectSize (JSValue.vdate m) (depth + 1)
       | JSValue.vregex s f => estimateObjectSize (JSValue.vregex s f) (depth + 1)
       | JSValue.vset l => estimateObjectSize (JSValue.vset l) (depth + 1)
       | JSValue.vmap l => estimateObjectSize (JSValue.vmap l) (depth + 1)
       | JSValue.vbuf b => estimateObjectSize (JSValue.vbuf b) (depth + 1)
       | JSValue.vtyped k l => estimateObjectSize (JSValue.vtyped k l) (depth + 1)
       | JSValue.vtypedBig sg l => estimateObjectSize (JSValue.vtypedBig sg l) (depth + 1)
       | JSValue.vdataview b => estimateObjectSize (JSValue.vdataview b) (depth + 1)
       | JSValue.verror n m st => estimateObjectSize (JSValue.verror n m st) (depth + 1)
       | _ => 16))).sum
    let tail : ℤ := if props.length > 50 then ((props.length : ℤ) - 50) * 48 else 0
    base + body + tail
termination_by (11 - depth, 0)

/-- `CacheNode.estimateArraySize(arr, depth)`.  Note that object-typed items
(including nested arrays) are sized by `estimateObjectSize`, as in the
source. -/
def estimateArraySize (arr : List JSValue) (depth : Nat) : ℤ :=
  if depth > 10 then 2048
  else
    let base : ℤ := (arr.length : ℤ) * 16
    let sampleSize := min arr.length 100
    let sampled := arr.take sampleSize
    let body : ℤ := (sampled.attach.map (fun p =>
      (match p.1 with
       | JSValue.vstr s => (s.length : ℤ) * 2
       | JSValue.varr l => estimateObjectSize (JSValue.varr l) (depth + 1)
       | JSValue.vobj fields => estimateObjectSize (JSValue.vobj fields) (depth + 1)
       | JSValue.vdate m => estimateObjectSize (JSValue.vdate m) (depth + 1)
       | JSValue.vregex s f => estimateObjectSize (JSValue.vregex s f) (depth + 1)
       | JSValue.vset l => estimateObjectSize (JSValue.vset l) (depth + 1)
       | JSValue.vmap l => estimateObjectSize (JSValue.vmap l) (depth + 1)
       | JSValue.vbuf b => estimateObjectSize (JSValue.vbuf b) (depth + 1)
       | JSValue.vtyped k l => estimateObjectSize (JSValue.vtyped k l) (depth + 1)
       | JSValue.vtypedBig sg l => estimateObjectSize (JSValue.vtypedBig sg l) (depth + 1)
       | JSValue.vdataview b => estimateObjectSize (JSValue.vdataview b) (depth + 1)
       | JSValue.verror n m st => estimateObjectSize (JSValue.verror n m st) (depth + 1)
       | _ => 16))).sum
    let tail : ℤ := if arr.length > 100 then ((arr.length : ℤ) - 100) * 16 else 0
    base + body + tail
termination_by (11 - depth, 1)

end

/-- `CacheNode.estimateSize(key, value)`.  The key is `Option String`
because the sentinel nodes are constructed with a `null` key. -/
def estimateSize (key : Option String) (value : JSValue) : ℤ :=
  let keyPart : ℤ := match key with
    | some k => (k.length : ℤ) * 2 + 40
    | none => 0
  match value with
  | vbuf bytes => keyPart + (bytes.length : ℤ) + 48
  | vstr s => keyPart + (s.length : ℤ) * 2 + 48
  | varr l => keyPart + estimateArraySize l 0 + 64
  | vobj fields => keyPart + estimateObjectSize (vobj fields) 0 + 128
  | vdate m => keyPart + estimateObjectSize (vdate m) 0 + 128
  | vregex s f => keyPart + estimateObjectSize (vregex s f) 0 + 128
  | vset l => keyPart + estimateObjectSize (vset l) 0 + 128
  | vmap l => keyPart + estimateObjectSize (vmap l) 0 + 128
  | vtyped k l => keyPart + estimateObjectSize (vtyped k l) 0 + 128
  | vtypedBig sg l => keyPart + estimateObjectSize (vtypedBig sg l) 0 + 128
  | vdataview b => keyPart + estimateObjectSize (vdataview b) 0 + 128
  | verror n m st => keyPart + estimateObjectSize (verror n m st) 0 + 128
  | vnum _ => keyPart + 16
  | vnan => keyPart + 16
  | vinf => keyPart + 16
  | vninf => keyPart + 16
  | vbool _ => keyPart + 8
  | vnull => keyPart + 64
  | vundef => keyPart + 64
  | vbigint _ => keyPart + 64
  | vfunc _ => keyPart + 64
  | vsymbol _ => keyPart + 64

/-! ### The LRU+TTL cache (src/core/cache.js, `CacheManager`)

The hash map plus the sentinel-bracketed doubly-linked list is embedded as a
node heap (`store`, a finite association from node ids to node records, in
which unreferenced garbage may remain, as it does under a garbage collector),
a key-to-node-id association (`map`, insertion ordered like a JavaScript
`Map`) and the two sentinel ids `headId = 0`, `tailId = 1`.  `prev`/`next`
are `Option Nat` because the sentinels' outward pointers stay `null`.
`Date.now()` is passed in explicitly as `now`. -/

/-- One `CacheNode`. -/
structure NodeR where
  key : Option String
  value : JSValue
  expiresAt : Option ℤ
  prev : Option Nat
  next : Option Nat
  size : ℤ

/-- Association-list get (`Map.prototype.get`). -/
def aget {β : Type} (l : List (String × β)) (k : String) : Option β :=
  match l with
  | [] => none
  | (k', v) :: rest => if k' = k then some v else aget rest k

/-- Association-list set (`Map.prototype.set`): updates in place, keeping the
entry's original position, or appends. -/
def aset {β : Type} (l : List (String × β)) (k : String) (v : β) : List (String × β) :=
  match l with
  | [] => [(k, v)]
  | (k', v') :: rest => if k' = k then (k', v) :: rest else (k', v') :: aset rest k v

/-- Association-list delete (`Map.prototype.delete`). -/
def adel {β : Type} (l : List (String × β)) (k : String) : List (String × β) :=
  match l with
  | [] => []
  | (k', v') :: rest => if k' = k then rest else (k', v') :: adel rest k

/-- Node-heap get (dereference a node id). -/
def nget (l : List (Nat × NodeR)) (i : Nat) : Option NodeR :=
  match l with
  | [] => none
  | (j, nd) :: rest => if j = i then some nd else nget rest i

/-- Node-heap update-or-insert. -/
def nset (l : List (Nat × NodeR)) (i : Nat) (nd : NodeR) : List (Nat × NodeR) :=
  match l with
  | [] => [(i, nd)]
  | (j, nd') :: rest => if j = i then (j, nd) :: rest else (j, nd') :: nset rest i nd

/-- The `CacheManager` state.  `maxSize`, `ttl` and `maxMemoryBytes` are the
already-validated constructor results (`maxMemoryBytes` is
`options.maxMemoryMB * 1024 * 1024`; the byte budget is taken as an integer —
every configuration considered here has an integral product). -/
structure CacheMgr where
  maxSize : Nat
  ttl : ℤ
  maxMemoryBytes : ℤ
  store : List (Nat × NodeR)
  nextId : Nat
  map : List (String × Nat)
  currentMemoryBytes : ℤ
  hits : Nat
  misses : Nat
  evictions : Nat
  expirations : Nat

namespace CacheMgr

def headId : Nat := 0

def tailId : Nat := 1

/-- The sentinel `CacheNode(null, null)`: its `estimateSize(null, null)`
falls through to the fallback branch and returns 64. -/
def sentinel (p n : Option Nat) : NodeR :=
  { key := none, value := JSValue.vnull, expiresAt := none, prev := p, next := n,
    size := estimateSize none JSValue.vnull }

/-- The constructor body after option validation: `maxSize`, `ttl`,
`maxMemoryBytes` are given post-defaulting (`options.maxSize || 1000`, etc.),
`head.next = tail`, `tail.prev = head`. -/
def init (maxSize : Nat) (ttl : ℤ) (maxMemoryBytes : ℤ) : CacheMgr :=
  { maxSize := maxSize, ttl := ttl, maxMemoryBytes := maxMemoryBytes,
    store := [(headId, sentinel none (some tailId)), (tailId, sentinel (some headId) none)],
    nextId := 2, map := [], currentMemoryBytes := 0,
    hits := 0, misses := 0, evictions := 0, expirations := 0 }

/-- `node.isExpired()`. -/
def isExpired (now : ℤ) (nd : NodeR) : Bool :=
  match nd.expiresAt with
  | none => false
  | some e => now > e

/-- Replace node `i`'s record by `f` of it (no-op when the id dangles, which
never happens on well-formed states). -/
def withNode (s : CacheMgr) (i : Nat) (f : NodeR → NodeR) : CacheMgr :=
  match nget s.store i with
  | none => s
  | some nd => { s with store := nset s.store i (f nd) }

/-- `addToHead(node)`: the four pointer assignments, in source order. -/
def addToHead (s : CacheMgr) (i : Nat) : CacheMgr :=
  let hn := match nget s.store headId with
    | some h => h.next
    | none => none
  let s1 := withNode s i (fun nd => { nd with prev := some headId, next := hn })
  let s2 := match hn with
    | some j => withNode s1 j (fun nd => { nd with prev := some i })
    | none => s1
  withNode s2 headId (fun nd => { nd with next := some i })

/-- `removeNode(node)`: unlink `i` by rewiring its neighbours. -/
def removeNode (s : CacheMgr) (i : Nat) : CacheMgr :=
  match nget s.store i with
  | none => s
  | some nd =>
    let s1 := match nd.prev with
      | some p => withNode s p (fun pn => { pn with next := nd.next })
      | none => s
    match nd.next with
    | some n => withNode s1 n (fun nn => { nn with prev := nd.prev })
    | none => s1

/-- `moveToHead(node)`. -/
def moveToHead (s : CacheMgr) (i : Nat) : CacheMgr :=
  addToHead (removeNode s i) i

/-- `removeTail()`: returns the removed node's id and record, or `none` when
the list is empty. -/
def removeTail (s : CacheMgr) : Option (Nat × NodeR) × CacheMgr :=
  match nget s.store tailId with
  | none => (none, s)
  | some tl =>
    match tl.prev with
    | none => (none, s)
    | some i =>
      if i = headId then (none, s)
      else
        match nget s.store i with
        | none => (none, s)
        | some nd => (some (i, nd), removeNode s i)

/-- The body of `evictIfNeeded`'s `while` loop; `fuel` is the remaining
eviction attempts out of `maxEvictionAttempts = 1000`.  Returns the state
plus `true` when the loop was cut short by the attempt cap (the source then
logs a warning). -/
def evictLoop (s : CacheMgr) (fuel : Nat) : CacheMgr × Bool :=
  match fuel with
  | 0 => (s, true)
  | fuel + 1 =>
    if (s.map.length ≥ s.maxSize ∨ s.currentMemoryBytes ≥ s.maxMemoryBytes) ∧
        s.map.length > 0 then
      match removeTail s with
      | (none, _) => (s, false)
      | (some (_i, nd), s') =>
        let s'' := { s' with
          map := (match nd.key with
            | some k => adel s'.map k
            | none => s'.map),
          currentMemoryBytes := max 0 (s'.currentMemoryBytes - nd.size),
          evictions := s'.evictions + 1 }
        evictLoop s'' fuel
    else (s, false)

/-- `evictIfNeeded()`. -/
def evictIfNeeded (s : CacheMgr) : CacheMgr × Bool :=
  evictLoop s 1000

/-- `delete(key)`: unlink the node, drop the map entry, release the memory
accounting. -/
def delete (s : CacheMgr) (key : String) : CacheMgr :=
  match aget s.map key with
  | none => s
  | some i =>
    match nget s.store i with
    | none => s
    | some nd =>
      let s1 := removeNode s i
      { s1 with
        map := adel s1.map key,
        currentMemoryBytes := max 0 (s1.currentMemoryBytes - nd.size) }

/-- `get(key)`: expired entries are removed (via `delete`) and counted; hits
move the node to the MRU end. -/
def get (s : CacheMgr) (now : ℤ) (key : String) : Option JSValue × CacheMgr :=
  match aget s.map key with
  | none => (none, { s with misses := s.misses + 1 })
  | some i =>
    match nget s.store i with
    | none => (none, { s with misses := s.misses + 1 })
    | some nd =>
      if isExpired now nd then
        let s1 := delete s key
        (none, { s1 with misses := s1.misses + 1, expirations := s1.expirations + 1 })
      else
        let s1 := { s with hits := s.hits + 1 }
        (some nd.value, moveToHead s1 i)

/-- `set(key, value, ttl?)`. -/
def set (s : CacheMgr) (now : ℤ) (key : String) (value : JSValue)
    (ttlArg : Option ℤ := none) : CacheMgr :=
  let effectiveTTL := match ttlArg with
    | some t => t
    | none => s.ttl
  let expiresAt := if effectiveTTL > 0 then some (now + effectiveTTL) else none
  match aget s.map key with
  | some i =>
    (match nget s.store i with
     | none => s
     | some nd =>
       let s1 := { s with currentMemoryBytes := s.currentMemoryBytes - nd.size }
       let newSize := max 0 (estimateSize (some key) value)
       let nd' := { nd with value := value, expiresAt := expiresAt, size := newSize }
       let s2 := { s1 with store := nset s1.store i nd' }
       let s3 := { s2 with currentMemoryBytes := s2.currentMemoryBytes + newSize }
       moveToHead s3 i)
  | none =>
    let nd : NodeR := {
      key := some key,
      value := value,
      expiresAt := expiresAt,
      prev := none,
      next := none,
      size := estimateSize (some key) value }
    let i := s.nextId
    let s1 := { s with
      store := nset s.store i nd,
      nextId := s.nextId + 1,
      map := aset s.map key i }
    let s2 := addToHead s1 i
    let s3 := { s2 with currentMemoryBytes := s2.currentMemoryBytes + max 0 nd.size }
    (evictIfNeeded s3).1

/-- `has(key)`: no MRU move, no hit/miss accounting, but expired entries are
still removed and counted. -/
def has (s : CacheMgr) (now : ℤ) (key : String) : Bool × CacheMgr :=
  match aget s.map key with
  | none => (false, s)
  | some i =>
    match nget s.store i with
    | none => (false, s)
    | some nd =>
      if isExpired now nd then
        let s1 := delete s key
        (false, { s1 with expirations := s1.expirations + 1 })
      else (true, s)

/-- `clear()`: the map is emptied and the sentinels re-linked; orphaned nodes
stay in the heap as garbage. -/
def clear (s : CacheMgr) : CacheMgr :=
  let s1 := withNode s headId (fun nd => { nd with next := some tailId })
  let s2 := withNode s1 tailId (fun nd => { nd with prev := some headId })
  { s2 with map := [], currentMemoryBytes := 0 }

/-- The body of `cleanupExpired`'s backwards walk from the LRU end; `cur` is
the node the walk is at, `fuel` bounds the walk (chosen at entry as one more
than the map size, which suffices on well-formed states). -/
def cleanupLoop (s : CacheMgr) (cur : Nat) (now : ℤ) (fuel : Nat) : CacheMgr :=
  match fuel with
  | 0 => s
  | fuel + 1 =>
    if cur = headId then s
    else
      match nget s.store cur with
      | none => s
      | some nd =>
        let prevId := nd.prev
        let s1 :=
          if isExpired now nd then
            let sa := { s with map := (match nd.key with
              | some k => adel s.map k
              | none => s.map) }
            let sb := removeNode sa cur
            { sb with
              currentMemoryBytes := max 0 (sb.currentMemoryBytes - nd.size),
              expirations := sb.expirations + 1 }
          else s
        match prevId with
        | none => s1
        | some p => cleanupLoop s1 p now fuel

/-- `cleanupExpired()`. -/
def cleanupExpired (s : CacheMgr) (now : ℤ) : CacheMgr :=
  match nget s.store tailId with
  | none => s
  | some tl =>
    match tl.prev with
    | none => s
    | some start => cleanupLoop s start now (s.map.length + 1)

end CacheMgr

/-! ### Claim C4: the LRU trace (spec §8, scenario C)

The spec (and the repository's own unit tests, `tests/unit/cache.test.js`,
"LRU Eviction") expect a capacity-3 cache to retain 3 entries, evicting only
when a 4th is inserted, so that after
`set a; set b; set c; get a; set d` the cached keys are `{a, c, d}`.
`evictIfNeeded` however evicts while `cache.size >= maxSize` — `>=`, not
`>` — *after* the insertion, so a capacity-`N` cache retains at most `N - 1`
entries: inserting `c` already evicts `a`, the subsequent `get("a")` misses,
and inserting `d` evicts `b`, leaving `{c, d}`. -/

/-- Claim C4: evaluating the cache at the spec's scenario-C trace
(capacity 3, `set "a" 1; set "b" 2; set "c" 3; get "a"; set "d" 4`) shows the
code retains exactly the keys `c` and `d` — not `{a, c, d}` as the claim
states — because the `>=` comparison in `evictIfNeeded` fires on reaching
`maxSize`: the `get "a"` at step 4 already misses, and a final `get "b"`
misses as well. -/
theorem c4_lru_trace_eval :
    (let s0 := CacheMgr.init 3 0 104857600
     let s1 := CacheMgr.set s0 0 "a" (vnum 1)
     let s2 := CacheMgr.set s1 0 "b" (vnum 2)
     let s3 := CacheMgr.set s2 0 "c" (vnum 3)
     let r4 := CacheMgr.get s3 0 "a"
     let s5 := CacheMgr.set r4.2 0 "d" (vnum 4)
     let r6 := CacheMgr.get s5 0 "b"
     (s5.map.map Prod.fst, r4.1.isNone, r6.1.isNone, s5.evictions)) =
      (["c", "d"], true, true, 2) := by
  decide

/-! ### Structural well-formedness of the cache

`WF` below states the representation invariant of `CacheMgr`: the ids on the
doubly-linked list between the sentinels, read MRU→LRU, are exactly the ids
the key map points to, each mapped node carries its key, and
`currentMemoryBytes` is the sum of the mapped nodes' (nonnegative) sizes.
Claim C10 is the preservation of this invariant by every cache operation. -/

section AssocLemmas

variable {β : Type}

theorem aget_eq_none (l : List (String × β)) (k : String)
    (h : k ∉ l.map Prod.fst) : aget l k = none := by
  induction l with
  | nil => rfl
  | cons p rest ih =>
    simp only [List.map_cons, List.mem_cons, not_or] at h
    simp only [aget, if_neg (fun he : p.1 = k => h.1 he.symm)]
    exact ih h.2

theorem aget_aset_self (l : List (String × β)) (k : String) (v : β) :
    aget (aset l k v) k = some v := by
  induction l with
  | nil => simp [aset, aget]
  | cons p rest ih =>
    by_cases h : p.1 = k <;> simp [aset, aget, h, ih]

theorem aget_aset_ne (l : List (String × β)) (k k' : String) (v : β) (h : k ≠ k') :
    aget (aset l k v) k' = aget l k' := by
  induction l with
  | nil => simp [aset, aget, fun he : k = k' => h he]
  | cons p rest ih =>
    by_cases hp : p.1 = k
    · subst hp
      simp [aset, aget, h, ih]
    · simp only [aset, if_neg hp, aget]
      by_cases hp' : p.1 = k' <;> simp [hp', ih]

theorem aget_adel_self (l : List (String × β)) (k : String)
    (hnd : (l.map Prod.fst).Nodup) : aget (adel l k) k = none := by
  induction l with
  | nil => rfl
  | cons p rest ih =>
    simp only [List.map_cons, List.nodup_cons] at hnd
    by_cases hp : p.1 = k
    · subst hp
      simp only [adel, if_pos rfl]
      exact aget_eq_none rest p.1 hnd.1
    · simp only [adel, if_neg hp, aget, if_neg hp]
      exact ih hnd.2

theorem aget_adel_ne (l : List (String × β)) (k k' : String) (h : k ≠ k') :
    aget (adel l k) k' = aget l k' := by
  induction l with
  | nil => rfl
  | cons p rest ih =>
    by_cases hp : p.1 = k
    · subst hp
      simp [adel, aget, fun he : p.1 = k' => h he]
    · simp only [adel, if_neg hp, aget]
      by_cases hp' : p.1 = k' <;> simp [hp', ih]

theorem map_fst_aset (l : List (String × β)) (k : String) (v : β) :
    (aset l k v).map Prod.fst =
      if k ∈ l.map Prod.fst then l.map Prod.fst else l.map Prod.fst ++ [k] := by
  induction l with
  | nil => simp [aset]
  | cons p rest ih =>
    by_cases hp : p.1 = k
    · subst hp
      simp [aset]
    · have hne : ¬k = p.1 := fun he => hp he.symm
      simp only [aset, if_neg hp, List.map_cons, ih, List.mem_cons]
      by_cases hm : k ∈ rest.map Prod.fst <;> simp [hm, hne]

theorem map_snd_aset_not_mem (l : List (String × β)) (k : String) (v : β)
    (h : k ∉ l.map Prod.fst) :
    (aset l k v).map Prod.snd = l.map Prod.snd ++ [v] := by
  induction l with
  | nil => simp [aset]
  | cons p rest ih =>
    simp only [List.map_cons, List.mem_cons, not_or] at h
    simp only [aset, if_neg (fun he : p.1 = k => h.1 he.symm), List.map_cons,
      List.cons_append, List.cons.injEq, true_and]
    exact ih h.2

theorem adel_perm (l : List (String × β)) (k : String) (i : β)
    (hnd : (l.map Prod.fst).Nodup) (hget : aget l k = some i) :
    List.Perm ((k, i) :: adel l k) l := by
  induction l with
  | nil => simp [aget] at hget
  | cons p rest ih =>
    simp only [List.map_cons, List.nodup_cons] at hnd
    by_cases hp : p.1 = k
    · subst hp
      have hv : p.2 = i := by simpa [aget] using hget
      subst hv
      simp [adel]
    · simp only [aget, if_neg hp] at hget
      simp only [adel, if_neg hp]
      exact (List.Perm.swap p (k, i) (adel rest k)).trans ((ih hnd.2 hget).cons p)

theorem adel_length (l : List (String × β)) (k : String) (i : β)
    (hget : aget l k = some i) :
    (adel l k).length + 1 = l.length := by
  induction l with
  | nil => simp [aget] at hget
  | cons p rest ih =>
    by_cases hp : p.1 = k
    · simp [adel, hp]
    · simp only [aget, if_neg hp] at hget
      simp [adel, hp, ih hget]

theorem map_fst_adel_sub (l : List (String × β)) (k : String) :
    ∀ x ∈ (adel l k).map Prod.fst, x ∈ l.map Prod.fst := by
  induction l with
  | nil => simp [adel]
  | cons p rest ih =>
    by_cases hp : p.1 = k
    · simp only [adel, if_pos hp, List.map_cons, List.mem_cons]
      intro x hx
      exact Or.inr hx
    · simp only [adel, if_neg hp, List.map_cons, List.mem_cons]
      rintro x (h | h)
      · exact Or.inl h
      · exact Or.inr (ih x h)

theorem map_fst_adel_nodup (l : List (String × β)) (k : String)
    (hnd : (l.map Prod.fst).Nodup) : ((adel l k).map Prod.fst).Nodup := by
  induction l with
  | nil => simp [adel]
  | cons p rest ih =>
    simp only [List.map_cons, List.nodup_cons] at hnd
    by_cases hp : p.1 = k
    · simp only [adel, if_pos hp]
      exact hnd.2
    · simp only [adel, if_neg hp, List.map_cons, List.nodup_cons]
      exact ⟨fun hm => hnd.1 (map_fst_adel_sub rest k p.1 hm), ih hnd.2⟩

end AssocLemmas

section NodeHeap

theorem nget_nset_self (l : List (Nat × NodeR)) (i : Nat) (nd : NodeR) :
    nget (nset l i nd) i = some nd := by
  induction l with
  | nil => simp [nset, nget]
  | cons p rest ih =>
    by_cases h : p.1 = i <;> simp [nset, nget, h, ih]

theorem nget_nset_ne (l : List (Nat × NodeR)) (i j : Nat) (nd : NodeR) (h : j ≠ i) :
    nget (nset l i nd) j = nget l j := by
  induction l with
  | nil =>
    simp only [nset, nget]
    exact if_neg (fun he => h he.symm)
  | cons p rest ih =>
    by_cases hp : p.1 = i
    · subst hp
      have hne : ¬p.1 = j := fun he => h he.symm
      simp [nset, nget, hne]
    · simp only [nset, if_neg hp, nget]
      by_cases hp' : p.1 = j <;> simp [hp', ih]

end NodeHeap

namespace CacheMgr

theorem nget_withNode_self (s : CacheMgr) (i : Nat) (f : NodeR → NodeR) :
    nget (withNode s i f).store i = (nget s.store i).map f := by
  unfold withNode
  cases h : nget s.store i with
  | none => simp [h]
  | some nd => simp [nget_nset_self]

theorem nget_withNode_ne (s : CacheMgr) (i : Nat) (f : NodeR → NodeR) (j : Nat)
    (h : j ≠ i) : nget (withNode s i f).store j = nget s.store j := by
  unfold withNode
  cases hh : nget s.store i with
  | none => rfl
  | some nd => simp [nget_nset_ne _ _ _ _ h]

/-- The successor pointer of the node at id `x`. -/
def nnext (s : CacheMgr) (x : Nat) : Option Nat :=
  (nget s.store x).bind fun nd => nd.next

/-- The predecessor pointer of the node at id `x`. -/
def nprev (s : CacheMgr) (x : Nat) : Option Nat :=
  (nget s.store x).bind fun nd => nd.prev

/-- The non-pointer payload of the node at id `x` (key, value, expiry,
size): the fields the list surgery never touches. -/
def ndata (s : CacheMgr) (x : Nat) : Option (Option String × JSValue × Option ℤ × ℤ) :=
  (nget s.store x).map fun nd => (nd.key, nd.value, nd.expiresAt, nd.size)

/-- The size recorded for the node at id `x` (0 when dangling — never on
well-formed states). -/
def nsize (s : CacheMgr) (x : Nat) : ℤ :=
  match nget s.store x with
  | some nd => nd.size
  | none => 0

/-- The key recorded for the node at id `x`. -/
def nkey (s : CacheMgr) (x : Nat) : Option String :=
  match nget s.store x with
  | some nd => nd.key
  | none => none

theorem nsize_of_nget {s : CacheMgr} {x : Nat} {nd : NodeR}
    (h : nget s.store x = some nd) : nsize s x = nd.size := by
  unfold nsize
  rw [h]

theorem nkey_of_nget {s : CacheMgr} {x : Nat} {nd : NodeR}
    (h : nget s.store x = some nd) : nkey s x = nd.key := by
  unfold nkey
  rw [h]

/-- `x`'s node points forward to `y`'s and `y`'s back to `x`'s. -/
def adj (s : CacheMgr) (a b : Nat) : Prop :=
  nnext s a = some b ∧ nprev s b = some a

theorem chain_adj_transfer (s s' : CacheMgr) :
    ∀ (l : List Nat),
    (∀ x ∈ l.dropLast, nnext s' x = nnext s x) →
    (∀ x ∈ l.tail, nprev s' x = nprev s x) →
    l.Chain' (adj s) → l.Chain' (adj s')
  | [] => fun _ _ _ => List.chain'_nil
  | [_] => fun _ _ _ => List.chain'_singleton _
  | a :: b :: t => by
    intro hnext hprev hch
    rw [List.chain'_cons] at hch ⊢
    refine ⟨⟨?_, ?_⟩, ?_⟩
    · rw [hnext a (by rw [List.dropLast_cons₂]; exact List.mem_cons_self _ _)]
      exact hch.1.1
    · rw [hprev b (by simp)]
      exact hch.1.2
    · refine chain_adj_transfer s s' (b :: t) ?_ ?_ hch.2
      · intro x hx
        refine hnext x ?_
        rw [List.dropLast_cons₂]
        exact List.mem_cons_of_mem _ hx
      · intro x hx
        rw [List.tail_cons] at hx
        exact hprev x (by simp [hx])

end CacheMgr

namespace CacheMgr

@[simp] theorem withNode_map (s : CacheMgr) (i : Nat) (g : NodeR → NodeR) :
    (withNode s i g).map = s.map := by
  unfold withNode
  cases nget s.store i <;> rfl

@[simp] theorem withNode_maxSize (s : CacheMgr) (i : Nat) (g : NodeR → NodeR) :
    (withNode s i g).maxSize = s.maxSize := by
  unfold withNode
  cases nget s.store i <;> rfl

@[simp] theorem withNode_ttl (s : CacheMgr) (i : Nat) (g : NodeR → NodeR) :
    (withNode s i g).ttl = s.ttl := by
  unfold withNode
  cases nget s.store i <;> rfl

@[simp] theorem withNode_maxMemoryBytes (s : CacheMgr) (i : Nat) (g : NodeR → NodeR) :
    (withNode s i g).maxMemoryBytes = s.maxMemoryBytes := by
  unfold withNode
  cases nget s.store i <;> rfl

@[simp] theorem withNode_nextId (s : CacheMgr) (i : Nat) (g : NodeR → NodeR) :
    (withNode s i g).nextId = s.nextId := by
  unfold withNode
  cases nget s.store i <;> rfl

@[simp] theorem withNode_currentMemoryBytes (s : CacheMgr) (i : Nat) (g : NodeR → NodeR) :
    (withNode s i g).currentMemoryBytes = s.currentMemoryBytes := by
  unfold withNode
  cases nget s.store i <;> rfl

@[simp] theorem withNode_hits (s : CacheMgr) (i : Nat) (g : NodeR → NodeR) :
    (withNode s i g).hits = s.hits := by
  unfold withNode
  cases nget s.store i <;> rfl

@[simp] theorem withNode_misses (s : CacheMgr) (i : Nat) (g : NodeR → NodeR) :
    (withNode s i g).misses = s.misses := by
  unfold withNode
  cases nget s.store i <;> rfl

@[simp] theorem withNode_evictions (s : CacheMgr) (i : Nat) (g : NodeR → NodeR) :
    (withNode s i g).evictions = s.evictions := by
  unfold withNode
  cases nget s.store i <;> rfl

@[simp] theorem withNode_expirations (s : CacheMgr) (i : Nat) (g : NodeR → NodeR) :
    (withNode s i g).expirations = s.expirations := by
  unfold withNode
  cases nget s.store i <;> rfl

@[simp] theorem addToHead_map (s : CacheMgr) (i : Nat) :
    (addToHead s i).map = s.map := by
  unfold addToHead
  cases h0 : nget s.store headId with
  | none => simp
  | some h0nd => cases hn : h0nd.next <;> simp [hn]

@[simp] theorem addToHead_maxSize (s : CacheMgr) (i : Nat) :
    (addToHead s i).maxSize = s.maxSize := by
  unfold addToHead
  cases h0 : nget s.store headId with
  | none => simp
  | some h0nd => cases hn : h0nd.next <;> simp [hn]

@[simp] theorem addToHead_ttl (s : CacheMgr) (i : Nat) :
    (addToHead s i).ttl = s.ttl := by
  unfold addToHead
  cases h0 : nget s.store headId with
  | none => simp
  | some h0nd => cases hn : h0nd.next <;> simp [hn]

@[simp] theorem addToHead_maxMemoryBytes (s : CacheMgr) (i : Nat) :
    (addToHead s i).maxMemoryBytes = s.maxMemoryBytes := by
  unfold addToHead
  cases h0 : nget s.store headId with
  | none => simp
  | some h0nd => cases hn : h0nd.next <;> simp [hn]

@[simp] theorem addToHead_nextId (s : CacheMgr) (i : Nat) :
    (addToHead s i).nextId = s.nextId := by
  unfold addToHead
  cases h0 : nget s.store headId with
  | none => simp
  | some h0nd => cases hn : h0nd.next <;> simp [hn]

@[simp] theorem addToHead_currentMemoryBytes (s : CacheMgr) (i : Nat) :
    (addToHead s i).currentMemoryBytes = s.currentMemoryBytes := by
  unfold addToHead
  cases h0 : nget s.store headId with
  | none => simp
  | some h0nd => cases hn : h0nd.next <;> simp [hn]

@[simp] theorem addToHead_hits (s : CacheMgr) (i : Nat) :
    (addToHead s i).hits = s.hits := by
  unfold addToHead
  cases h0 : nget s.store headId with
  | none => simp
  | some h0nd => cases hn : h0nd.next <;> simp [hn]

@[simp] theorem addToHead_misses (s : CacheMgr) (i : Nat) :
    (addToHead s i).misses = s.misses := by
  unfold addToHead
  cases h0 : nget s.store headId with
  | none => simp
  | some h0nd => cases hn : h0nd.next <;> simp [hn]

@[simp] theorem addToHead_evictions (s : CacheMgr) (i : Nat) :
    (addToHead s i).evictions = s.evictions := by
  unfold addToHead
  cases h0 : nget s.store headId with
  | none => simp
  | some h0nd => cases hn : h0nd.next <;> simp [hn]

@[simp] theorem addToHead_expirations (s : CacheMgr) (i : Nat) :
    (addToHead s i).expirations = s.expirations := by
  unfold addToHead
  cases h0 : nget s.store headId with
  | none => simp
  | some h0nd => cases hn : h0nd.next <;> simp [hn]

@[simp] theorem removeNode_map (s : CacheMgr) (i : Nat) :
    (removeNode s i).map = s.map := by
  unfold removeNode
  cases hnd : nget s.store i with
  | none => rfl
  | some nd => cases hp : nd.prev <;> cases hn : nd.next <;> simp [hp, hn]

@[simp] theorem removeNode_maxSize (s : CacheMgr) (i : Nat) :
    (removeNode s i).maxSize = s.maxSize := by
  unfold removeNode
  cases hnd : nget s.store i with
  | none => rfl
  | some nd => cases hp : nd.prev <;> cases hn : nd.next <;> simp [hp, hn]

@[simp] theorem removeNode_ttl (s : CacheMgr) (i : Nat) :
    (removeNode s i).ttl = s.ttl := by
  unfold removeNode
  cases hnd : nget s.store i with
  | none => rfl
  | some nd => cases hp : nd.prev <;> cases hn : nd.next <;> simp [hp, hn]

@[simp] theorem removeNode_maxMemoryBytes (s : CacheMgr) (i : Nat) :
    (removeNode s i).maxMemoryBytes = s.maxMemoryBytes := by
  unfold removeNode
  cases hnd : nget s.store i with
  | none => rfl
  | some nd => cases hp : nd.prev <;> cases hn : nd.next <;> simp [hp, hn]

@[simp] theorem removeNode_nextId (s : CacheMgr) (i : Nat) :
    (removeNode s i).nextId = s.nextId := by
  unfold removeNode
  cases hnd : nget s.store i with
  | none => rfl
  | some nd => cases hp : nd.prev <;> cases hn : nd.next <;> simp [hp, hn]

@[simp] theorem removeNode_currentMemoryBytes (s : CacheMgr) (i : Nat) :
    (removeNode s i).currentMemoryBytes = s.currentMemoryBytes := by
  unfold removeNode
  cases hnd : nget s.store i with
  | none => rfl
  | some nd => cases hp : nd.prev <;> cases hn : nd.next <;> simp [hp, hn]

@[simp] theorem removeNode_hits (s : CacheMgr) (i : Nat) :
    (removeNode s i).hits = s.hits := by
  unfold removeNode
  cases hnd : nget s.store i with
  | none => rfl
  | some nd => cases hp : nd.prev <;> cases hn : nd.next <;> simp [hp, hn]

@[simp] theorem removeNode_misses (s : CacheMgr) (i : Nat) :
    (removeNode s i).misses = s.misses := by
  unfold removeNode
  cases hnd : nget s.store i with
  | none => rfl
  | some nd => cases hp : nd.prev <;> cases hn : nd.next <;> simp [hp, hn]

@[simp] theorem removeNode_evictions (s : CacheMgr) (i : Nat) :
    (removeNode s i).evictions = s.evictions := by
  unfold removeNode
  cases hnd : nget s.store i with
  | none => rfl
  | some nd => cases hp : nd.prev <;> cases hn : nd.next <;> simp [hp, hn]

@[simp] theorem removeNode_expirations (s : CacheMgr) (i : Nat) :
    (removeNode s i).expirations = s.expirations := by
  unfold removeNode
  cases hnd : nget s.store i with
  | none => rfl
  | some nd => cases hp : nd.prev <;> cases hn : nd.next <;> simp [hp, hn]

@[simp] theorem moveToHead_map (s : CacheMgr) (i : Nat) :
    (moveToHead s i).map = s.map := by
  unfold moveToHead
  simp

@[simp] theorem moveToHead_maxSize (s : CacheMgr) (i : Nat) :
    (moveToHead s i).maxSize = s.maxSize := by
  unfold moveToHead
  simp

@[simp] theorem moveToHead_ttl (s : CacheMgr) (i : Nat) :
    (moveToHead s i).ttl = s.ttl := by
  unfold moveToHead
  simp

@[simp] theorem moveToHead_maxMemoryBytes (s : CacheMgr) (i : Nat) :
    (moveToHead s i).maxMemoryBytes = s.maxMemoryBytes := by
  unfold moveToHead
  simp

@[simp] theorem moveToHead_nextId (s : CacheMgr) (i : Nat) :
    (moveToHead s i).nextId = s.nextId := by
  unfold moveToHead
  simp

@[simp] theorem moveToHead_currentMemoryBytes (s : CacheMgr) (i : Nat) :
    (moveToHead s i).currentMemoryBytes = s.currentMemoryBytes := by
  unfold moveToHead
  simp

@[simp] theorem moveToHead_hits (s : CacheMgr) (i : Nat) :
    (moveToHead s i).hits = s.hits := by
  unfold moveToHead
  simp

@[simp] theorem moveToHead_misses (s : CacheMgr) (i : Nat) :
    (moveToHead s i).misses = s.misses := by
  unfold moveToHead
  simp

@[simp] theorem moveToHead_evictions (s : CacheMgr) (i : Nat) :
    (moveToHead s i).evictions = s.evictions := by
  unfold moveToHead
  simp

@[simp] theorem moveToHead_expirations (s : CacheMgr) (i : Nat) :
    (moveToHead s i).expirations = s.expirations := by
  unfold moveToHead
  simp

theorem ndata_withNode_setPtrs (s : CacheMgr) (i : Nat) (a b : Option Nat) (x : Nat) :
    ndata (withNode s i (fun nd => { nd with prev := a, next := b })) x = ndata s x := by
  unfold ndata
  by_cases hx : x = i
  · subst hx
    rw [nget_withNode_self]
    cases nget s.store x <;> simp
  · rw [nget_withNode_ne _ _ _ _ hx]

theorem ndata_withNode_setPrev (s : CacheMgr) (i : Nat) (a : Option Nat) (x : Nat) :
    ndata (withNode s i (fun nd => { nd with prev := a })) x = ndata s x := by
  unfold ndata
  by_cases hx : x = i
  · subst hx
    rw [nget_withNode_self]
    cases nget s.store x <;> simp
  · rw [nget_withNode_ne _ _ _ _ hx]

theorem ndata_withNode_setNext (s : CacheMgr) (i : Nat) (b : Option Nat) (x : Nat) :
    ndata (withNode s i (fun nd => { nd with next := b })) x = ndata s x := by
  unfold ndata
  by_cases hx : x = i
  · subst hx
    rw [nget_withNode_self]
    cases nget s.store x <;> simp
  · rw [nget_withNode_ne _ _ _ _ hx]

theorem ndata_addToHead (s : CacheMgr) (i : Nat) (x : Nat) :
    ndata (addToHead s i) x = ndata s x := by
  unfold addToHead
  cases h0 : nget s.store headId with
  | none =>
    simp only [h0, ndata_withNode_setPtrs, ndata_withNode_setPrev, ndata_withNode_setNext]
  | some h0nd =>
    simp only [h0]
    cases hn : h0nd.next <;>
      simp only [ndata_withNode_setPtrs, ndata_withNode_setPrev, ndata_withNode_setNext]

theorem ndata_removeNode (s : CacheMgr) (i : Nat) (x : Nat) :
    ndata (removeNode s i) x = ndata s x := by
  unfold removeNode
  cases hnd : nget s.store i with
  | none => rfl
  | some nd =>
    simp only
    cases hp : nd.prev <;> cases hn : nd.next <;>
      simp only [ndata_withNode_setPtrs, ndata_withNode_setPrev, ndata_withNode_setNext]

theorem ndata_moveToHead (s : CacheMgr) (i : Nat) (x : Nat) :
    ndata (moveToHead s i) x = ndata s x := by
  unfold moveToHead
  rw [ndata_addToHead, ndata_removeNode]

theorem nsize_eq_of_ndata {s s' : CacheMgr} {x : Nat}
    (h : ndata s' x = ndata s x) : nsize s' x = nsize s x := by
  unfold ndata at h
  unfold nsize
  cases h1 : nget s'.store x <;> cases h2 : nget s.store x <;>
    simp [h1, h2] at h ⊢
  exact h.2.2.2

theorem nkey_eq_of_ndata {s s' : CacheMgr} {x : Nat}
    (h : ndata s' x = ndata s x) : nkey s' x = nkey s x := by
  unfold ndata at h
  unfold nkey
  cases h1 : nget s'.store x <;> cases h2 : nget s.store x <;>
    simp [h1, h2] at h ⊢
  exact h.1

end CacheMgr

namespace CacheMgr

theorem nget_addToHead (s : CacheMgr) (i f : Nat) (h0nd : NodeR)
    (h0 : nget s.store headId = some h0nd) (hf : h0nd.next = some f)
    (hi0 : i ≠ headId) (hif : i ≠ f) (hf0 : f ≠ headId) (x : Nat) :
    nget (addToHead s i).store x =
      if x = headId then some { h0nd with next := some i }
      else if x = i then
        (nget s.store i).map (fun nd => { nd with prev := some headId, next := some f })
      else if x = f then (nget s.store f).map (fun nd => { nd with prev := some i })
      else nget s.store x := by
  unfold addToHead
  rw [h0]
  dsimp only
  rw [hf]
  dsimp only
  by_cases hx0 : x = headId
  · subst hx0
    rw [if_pos rfl, nget_withNode_self,
      nget_withNode_ne _ _ _ _ (fun he => hf0 he.symm),
      nget_withNode_ne _ _ _ _ (fun he => hi0 he.symm), h0]
    rfl
  · rw [if_neg hx0, nget_withNode_ne _ _ _ _ hx0]
    by_cases hxi : x = i
    · subst hxi
      rw [if_pos rfl, nget_withNode_ne _ _ _ _ hif, nget_withNode_self]
    · rw [if_neg hxi]
      by_cases hxf : x = f
      · subst hxf
        rw [if_pos rfl, nget_withNode_self, nget_withNode_ne _ _ _ _ hxi]
      · rw [if_neg hxf, nget_withNode_ne _ _ _ _ hxf, nget_withNode_ne _ _ _ _ hxi]

theorem nget_removeNode (s : CacheMgr) (i p n : Nat) (ndi : NodeR)
    (hnd : nget s.store i = some ndi) (hp : ndi.prev = some p) (hn : ndi.next = some n)
    (hpn : p ≠ n) (x : Nat) :
    nget (removeNode s i).store x =
      if x = p then (nget s.store p).map (fun nd => { nd with next := some n })
      else if x = n then (nget s.store n).map (fun nd => { nd with prev := some p })
      else nget s.store x := by
  unfold removeNode
  rw [hnd]
  dsimp only
  rw [hp, hn]
  dsimp only
  by_cases hxp : x = p
  · subst hxp
    rw [if_pos rfl, nget_withNode_ne _ _ _ _ hpn, nget_withNode_self]
  · rw [if_neg hxp]
    by_cases hxn : x = n
    · subst hxn
      rw [if_pos rfl, nget_withNode_self, nget_withNode_ne _ _ _ _ (fun he => hpn he.symm)]
    · rw [if_neg hxn, nget_withNode_ne _ _ _ _ hxn, nget_withNode_ne _ _ _ _ hxp]

end CacheMgr

namespace CacheMgr

theorem nnext_some {s : CacheMgr} {a b : Nat} (h : nnext s a = some b) :
    ∃ nd, nget s.store a = some nd ∧ nd.next = some b := by
  unfold nnext at h
  cases hg : nget s.store a with
  | none => rw [hg] at h; exact absurd h (by simp)
  | some nd => rw [hg] at h; exact ⟨nd, rfl, h⟩

theorem nprev_some {s : CacheMgr} {a b : Nat} (h : nprev s b = some a) :
    ∃ nd, nget s.store b = some nd ∧ nd.prev = some a := by
  unfold nprev at h
  cases hg : nget s.store b with
  | none => rw [hg] at h; exact absurd h (by simp)
  | some nd => rw [hg] at h; exact ⟨nd, rfl, h⟩

theorem addToHead_chain (s : CacheMgr) (ids : List Nat) (i : Nat)
    (hch : List.Chain' (adj s) (headId :: ids ++ [tailId]))
    (hnd : (headId :: ids ++ [tailId]).Nodup)
    (hi : i ∉ headId :: ids ++ [tailId])
    (hex : (nget s.store i).isSome) :
    List.Chain' (adj (addToHead s i)) (headId :: i :: ids ++ [tailId]) := by
  obtain ⟨f, rtail, hsplit⟩ : ∃ f rtail, ids ++ [tailId] = f :: rtail := by
    cases ids <;> exact ⟨_, _, rfl⟩
  simp only [List.cons_append] at hch hnd hi ⊢
  rw [hsplit] at hch hnd hi ⊢
  rw [List.chain'_cons] at hch
  obtain ⟨hadj0f, hchtail⟩ := hch
  obtain ⟨h0nd, h0, h0next⟩ := nnext_some hadj0f.1
  obtain ⟨fnd, hfget, hfprev⟩ := nprev_some hadj0f.2
  simp only [List.mem_cons, not_or] at hi
  have hi0 : i ≠ headId := hi.1
  have hif : i ≠ f := hi.2.1
  have hirt : i ∉ rtail := fun hm => hi.2.2 hm
  simp only [List.nodup_cons, List.mem_cons, not_or] at hnd
  have hf0 : f ≠ headId := fun he => hnd.1.1 he.symm
  have h0rt : headId ∉ rtail := hnd.1.2
  have hfrt : f ∉ rtail := hnd.2.1
  have N := nget_addToHead s i f h0nd h0 h0next hi0 hif hf0
  obtain ⟨ndi, hndi⟩ := Option.isSome_iff_exists.mp hex
  rw [List.chain'_cons, List.chain'_cons]
  refine ⟨⟨?_, ?_⟩, ⟨?_, ?_⟩, ?_⟩
  · unfold nnext
    rw [N headId, if_pos rfl]
    rfl
  · unfold nprev
    rw [N i, if_neg hi0, if_pos rfl, hndi]
    rfl
  · unfold nnext
    rw [N i, if_neg hi0, if_pos rfl, hndi]
    rfl
  · unfold nprev
    rw [N f, if_neg hf0, if_neg (fun he => hif he.symm), if_pos rfl, hfget]
    rfl
  · refine chain_adj_transfer s _ (f :: rtail) ?_ ?_ hchtail
    · intro x hx
      have hxmem : x ∈ f :: rtail := (List.dropLast_sublist (f :: rtail)).subset hx
      have hx0 : x ≠ headId := by
        rintro rfl
        rcases List.mem_cons.mp hxmem with h | h
        · exact hf0 h.symm
        · exact h0rt h
      have hxi : x ≠ i := by
        rintro rfl
        rcases List.mem_cons.mp hxmem with h | h
        · exact hif h
        · exact hirt h
      unfold nnext
      rw [N x, if_neg hx0, if_neg hxi]
      by_cases hxf : x = f
      · subst hxf
        rw [if_pos rfl, hfget]
        rfl
      · rw [if_neg hxf]
    · intro x hx
      rw [List.tail_cons] at hx
      have hx0 : x ≠ headId := fun he => h0rt (he ▸ hx)
      have hxi : x ≠ i := fun he => hirt (he ▸ hx)
      have hxf : x ≠ f := fun he => hfrt (he ▸ hx)
      unfold nprev
      rw [N x, if_neg hx0, if_neg hxi, if_neg hxf]

end CacheMgr

namespace CacheMgr

theorem removeNode_chain (s : CacheMgr) (pre post : List Nat) (i : Nat)
    (hch : List.Chain' (adj s) (pre ++ i :: post))
    (hnd : (pre ++ i :: post).Nodup)
    (hpre : pre ≠ []) (hpost : post ≠ []) :
    List.Chain' (adj (removeNode s i)) (pre ++ post) := by
  obtain ⟨pre', p, rfl⟩ : ∃ pre' p, pre = pre' ++ [p] := by
    rcases pre.eq_nil_or_concat with h | ⟨l, a, h⟩
    · exact absurd h hpre
    · exact ⟨l, a, by simpa [List.concat_eq_append] using h⟩
  obtain ⟨n, post', rfl⟩ : ∃ n post', post = n :: post' := by
    cases post with
    | nil => exact absurd rfl hpost
    | cons a l => exact ⟨a, l, rfl⟩
  rw [List.chain'_append] at hch
  obtain ⟨hchpre, hchipost, hbound⟩ := hch
  have hadjpi : adj s p i := by
    refine hbound p ?_ i rfl
    rw [List.getLast?_concat]
    rfl
  rw [List.chain'_cons] at hchipost
  obtain ⟨hadjin, hchpost⟩ := hchipost
  obtain ⟨ndp, hpget, hpnext⟩ := nnext_some hadjpi.1
  obtain ⟨ndi, higet, hiprev⟩ := nprev_some hadjpi.2
  obtain ⟨ndi2, higet2, hinext⟩ := nnext_some hadjin.1
  obtain ⟨ndn, hnget, hnprev⟩ := nprev_some hadjin.2
  rw [higet] at higet2
  obtain rfl : ndi = ndi2 := by injection higet2
  have hndall := hnd
  rw [List.nodup_append] at hndall
  have hpn : p ≠ n := by
    intro he
    refine hndall.2.2 (show p ∈ pre' ++ [p] by simp) ?_
    rw [he]
    simp
  have hpi : p ≠ i := by
    intro he
    exact hndall.2.2 (show p ∈ pre' ++ [p] by simp) (by rw [he]; simp)
  have hni : n ≠ i := by
    have := hndall.2.1
    rw [List.nodup_cons] at this
    intro he
    rw [List.nodup_cons] at this
    exact absurd rfl (by simpa [he] using this.1 : ¬n = n)
  have N := nget_removeNode s i p n ndi higet hiprev hinext hpn
  rw [List.chain'_append]
  refine ⟨?_, ?_, ?_⟩
  · refine chain_adj_transfer s _ (pre' ++ [p]) ?_ ?_ hchpre
    · intro x hx
      rw [List.dropLast_concat] at hx
      have hxp : x ≠ p := by
        intro he
        have hnp : (pre' ++ [p]).Nodup := hndall.1
        rw [List.nodup_append] at hnp
        exact hnp.2.2 (show x ∈ pre' by exact hx) (by rw [he]; simp)
      have hxn : x ≠ n := by
        intro he
        exact hndall.2.2 (show x ∈ pre' ++ [p] by simp [hx]) (by rw [he]; simp)
      unfold nnext
      rw [N x, if_neg hxp, if_neg hxn]
    · intro x hx
      have hxmem : x ∈ pre' ++ [p] := (List.tail_sublist _).subset hx
      have hxn : x ≠ n := by
        intro he
        exact hndall.2.2 hxmem (by rw [he]; simp)
      unfold nprev
      rw [N x]
      by_cases hxp : x = p
      · subst hxp
        rw [if_pos rfl, hpget]
        rfl
      · rw [if_neg hxp, if_neg hxn]
  · refine chain_adj_transfer s _ (n :: post') ?_ ?_ hchpost
    · intro x hx
      have hxmem : x ∈ n :: post' := (List.dropLast_sublist _).subset hx
      have hxp : x ≠ p := by
        intro he
        exact hndall.2.2 (show p ∈ pre' ++ [p] by simp)
          (by rw [← he]; exact List.mem_cons_of_mem _ hxmem)
      unfold nnext
      rw [N x, if_neg hxp]
      by_cases hxn : x = n
      · subst hxn
        rw [if_pos rfl, hnget]
        rfl
      · rw [if_neg hxn]
    · intro x hx
      rw [List.tail_cons] at hx
      have hnodpost : (n :: post').Nodup := by
        have := hndall.2.1
        rw [List.nodup_cons] at this
        exact this.2
      have hxn : x ≠ n := by
        intro he
        rw [List.nodup_cons] at hnodpost
        exact hnodpost.1 (he ▸ hx)
      have hxp : x ≠ p := by
        intro he
        exact hndall.2.2 (show p ∈ pre' ++ [p] by simp) (by rw [← he]; simp [hx])
      unfold nprev
      rw [N x, if_neg hxp, if_neg hxn]
  · intro a ha b hb
    rw [List.getLast?_concat] at ha
    have hap : p = a := by simpa [Option.mem_def] using ha
    simp only [List.head?_cons] at hb
    have hbn : n = b := by simpa [Option.mem_def] using hb
    subst hap
    subst hbn
    constructor
    · unfold nnext
      rw [N p, if_pos rfl, hpget]
      rfl
    · unfold nprev
      rw [N n, if_neg (fun he => hpn he.symm), if_pos rfl, hnget]
      rfl

end CacheMgr

namespace CacheMgr

/-- The representation invariant of the cache tying the hash map, the
doubly-linked list and the memory accounting together; `ids` is the list of
node ids read off the linked list MRU→LRU. -/
structure WFC (s : CacheMgr) (ids : List Nat) : Prop where
  chain : List.Chain' (adj s) (headId :: (ids ++ [tailId]))
  nodup : (headId :: (ids ++ [tailId])).Nodup
  ids_ge : ∀ i ∈ ids, 2 ≤ i
  ids_lt : ∀ i ∈ ids, i < s.nextId
  nextId_ge : 2 ≤ s.nextId
  map_ids : List.Perm (s.map.map Prod.snd) ids
  keys_nodup : (s.map.map Prod.fst).Nodup
  key_match : ∀ p ∈ s.map, nkey s p.2 = some p.1
  mem_eq : s.currentMemoryBytes = (s.map.map (fun p => nsize s p.2)).sum
  sizes_nonneg : ∀ p ∈ s.map, 0 ≤ nsize s p.2

/-- The hash map's entries are exactly the nodes linked between the
sentinels, each key naming its node, with consistent nonnegative memory
accounting. -/
def WF (s : CacheMgr) : Prop := ∃ ids, WFC s ids

theorem aget_mem {β : Type} {l : List (String × β)} {k : String} {v : β}
    (h : aget l k = some v) : (k, v) ∈ l := by
  induction l with
  | nil => simp [aget] at h
  | cons p rest ih =>
    by_cases hp : p.1 = k
    · rw [aget, if_pos hp] at h
      obtain rfl : p.2 = v := by injection h
      have : (k, p.2) = p := by
        rw [← hp]
      rw [this]
      exact List.mem_cons_self _ _
    · rw [aget, if_neg hp] at h
      exact List.mem_cons_of_mem _ (ih h)

theorem aget_none_not_mem {β : Type} {l : List (String × β)} {k : String}
    (h : aget l k = none) : k ∉ l.map Prod.fst := by
  induction l with
  | nil => simp
  | cons p rest ih =>
    by_cases hp : p.1 = k
    · rw [aget, if_pos hp] at h
      simp at h
    · rw [aget, if_neg hp] at h
      simp only [List.map_cons, List.mem_cons, not_or]
      exact ⟨fun he => hp he.symm, ih h⟩

theorem mem_adel {β : Type} {l : List (String × β)} {k : String} :
    ∀ p ∈ adel l k, p ∈ l := by
  induction l with
  | nil => simp [adel]
  | cons q rest ih =>
    by_cases hq : q.1 = k
    · rw [adel, if_pos hq]
      intro p hp
      exact List.mem_cons_of_mem _ hp
    · rw [adel, if_neg hq]
      intro p hp
      rcases List.mem_cons.mp hp with h | h
      · exact h ▸ List.mem_cons_self _ _
      · exact List.mem_cons_of_mem _ (ih p h)

theorem sum_nonneg_int {l : List ℤ} (h : ∀ x ∈ l, 0 ≤ x) : 0 ≤ l.sum := by
  induction l with
  | nil => simp
  | cons a t ih =>
    rw [List.sum_cons]
    have h1 := h a (by simp)
    have h2 := ih (fun x hx => h x (List.mem_cons_of_mem _ hx))
    omega

/-- Unlinking a mapped node, dropping its map entry and releasing its memory
accounting preserves well-formedness; the common core of `delete`, eviction
and the expiry sweep (which perform these three updates in different
orders). -/
theorem remove_entry_WFC {s : CacheMgr} {ids xs ys : List Nat} {i : Nat} {k : String}
    (h : WFC s ids) (hids : ids = xs ++ i :: ys)
    (hget : aget s.map k = some i)
    (s' : CacheMgr)
    (hstore : s'.store = (removeNode s i).store)
    (hmap : s'.map = adel s.map k)
    (hmem : s'.currentMemoryBytes = max 0 (s.currentMemoryBytes - nsize s i))
    (hnext : s'.nextId = s.nextId) :
    WFC s' (xs ++ ys) := by
  subst hids
  have hmem_ki : (k, i) ∈ s.map := aget_mem hget
  have hperm := adel_perm s.map k i h.keys_nodup hget
  -- snd-projection: i :: (adel s.map k).map snd ~ xs ++ i :: ys
  have hpermsnd : List.Perm (i :: (adel s.map k).map Prod.snd) (xs ++ i :: ys) :=
    (List.Perm.map Prod.snd hperm).trans h.map_ids
  have hpermmid : List.Perm (xs ++ i :: ys) (i :: (xs ++ ys)) :=
    List.perm_middle
  have hrest : List.Perm ((adel s.map k).map Prod.snd) (xs ++ ys) :=
    (hpermsnd.trans hpermmid).cons_inv
  -- node-level equalities carried over by removeNode
  have hnd : ∀ x, ndata s' x = ndata s x := by
    intro x
    unfold ndata
    rw [hstore]
    have := ndata_removeNode s i x
    unfold ndata at this
    exact this
  have hnsize : ∀ x, nsize s' x = nsize s x :=
    fun x => nsize_eq_of_ndata (hnd x)
  have hnkey : ∀ x, nkey s' x = nkey s x :=
    fun x => nkey_eq_of_ndata (hnd x)
  have hchain' : List.Chain' (adj s') (headId :: ((xs ++ ys) ++ [tailId])) := by
    have hc := removeNode_chain s (headId :: xs) (ys ++ [tailId]) i
      (by simpa [List.cons_append, List.append_assoc] using h.chain)
      (by simpa [List.cons_append, List.append_assoc] using h.nodup)
      (by simp) (by simp)
    have heq : (headId :: xs) ++ (ys ++ [tailId]) = headId :: ((xs ++ ys) ++ [tailId]) := by
      simp [List.cons_append, List.append_assoc]
    rw [heq] at hc
    refine chain_adj_transfer _ _ _ ?_ ?_ hc
    · intro x _
      unfold nnext
      rw [hstore]
    · intro x _
      unfold nprev
      rw [hstore]
  refine ⟨hchain', ?_, ?_, ?_, ?_, ?_, ?_, ?_, ?_, ?_⟩
  · refine h.nodup.sublist ?_
    refine List.Sublist.cons₂ headId ?_
    refine List.Sublist.append ?_ (List.Sublist.refl [tailId])
    exact List.Sublist.append_left (List.sublist_cons_self i ys) xs
  · intro j hj
    exact h.ids_ge j (by
      rcases List.mem_append.mp hj with hh | hh
      · exact List.mem_append.mpr (Or.inl hh)
      · exact List.mem_append.mpr (Or.inr (List.mem_cons_of_mem _ hh)))
  · intro j hj
    rw [hnext]
    exact h.ids_lt j (by
      rcases List.mem_append.mp hj with hh | hh
      · exact List.mem_append.mpr (Or.inl hh)
      · exact List.mem_append.mpr (Or.inr (List.mem_cons_of_mem _ hh)))
  · rw [hnext]
    exact h.nextId_ge
  · rw [hmap]
    exact hrest
  · rw [hmap]
    exact map_fst_adel_nodup _ _ h.keys_nodup
  · intro p hp
    rw [hmap] at hp
    rw [hnkey]
    exact h.key_match p (mem_adel p hp)
  · have hmapstep : (((adel s.map k).map fun p => nsize s' p.2)) =
        ((adel s.map k).map fun p => nsize s p.2) :=
      List.map_congr_left (fun p _ => hnsize p.2)
    rw [hmap, hmapstep, hmem, h.mem_eq]
    have hsum : ((s.map.map fun p => nsize s p.2)).sum =
        nsize s i + (((adel s.map k).map fun p => nsize s p.2)).sum := by
      have hp2 := (List.Perm.map (fun p => nsize s p.2) hperm).sum_eq
      simpa using hp2.symm
    have hnn : 0 ≤ (((adel s.map k).map fun p => nsize s p.2)).sum := by
      refine sum_nonneg_int ?_
      intro x hx
      rcases List.mem_map.mp hx with ⟨p, hp, rfl⟩
      exact h.sizes_nonneg p (mem_adel p hp)
    rw [hsum]
    have hcancel : nsize s i + (((adel s.map k).map fun p => nsize s p.2)).sum - nsize s i =
        (((adel s.map k).map fun p => nsize s p.2)).sum := by ring
    rw [hcancel, max_eq_right hnn]
  · intro p hp
    rw [hmap] at hp
    rw [hnsize]
    exact h.sizes_nonneg p (mem_adel p hp)

end CacheMgr

namespace CacheMgr

theorem mem_aget {β : Type} {l : List (String × β)} {k : String} {v : β}
    (hnd : (l.map Prod.fst).Nodup) (hm : (k, v) ∈ l) : aget l k = some v := by
  induction l with
  | nil => simp at hm
  | cons p rest ih =>
    simp only [List.map_cons, List.nodup_cons] at hnd
    rcases List.mem_cons.mp hm with h | h
    · rw [← h, aget, if_pos rfl]
    · rw [aget]
      have hne : p.1 ≠ k := by
        intro he
        exact hnd.1 (List.mem_map.mpr ⟨(k, v), h, by rw [he]⟩)
      rw [if_neg hne]
      exact ih hnd.2 h

theorem WFC_mapped {s : CacheMgr} {ids : List Nat} (h : WFC s ids) {i : Nat}
    (hi : i ∈ ids) :
    ∃ k ndi, aget s.map k = some i ∧ nget s.store i = some ndi ∧ ndi.key = some k := by
  have : i ∈ s.map.map Prod.snd := (h.map_ids.mem_iff).mpr hi
  rcases List.mem_map.mp this with ⟨p, hp, hpi⟩
  have hkm := h.key_match p hp
  unfold nkey at hkm
  cases hnd : nget s.store p.2 with
  | none => rw [hnd] at hkm; simp at hkm
  | some ndi =>
    rw [hnd] at hkm
    refine ⟨p.1, ndi, ?_, ?_, hkm⟩
    · rw [← hpi]
      exact mem_aget h.keys_nodup (by rw [show (p.1, p.2) = p from rfl]; exact hp)
    · rw [← hpi]
      exact hnd

theorem WFC_init (maxSize : Nat) (ttl maxMemoryBytes : ℤ) :
    WFC (init maxSize ttl maxMemoryBytes) [] := by
  refine ⟨?_, ?_, ?_, ?_, ?_, ?_, ?_, ?_, ?_, ?_⟩
  · simp only [List.nil_append]
    refine List.chain'_cons.mpr ⟨⟨?_, ?_⟩, List.chain'_singleton _⟩
    · rfl
    · rfl
  · simp [init, headId, tailId]
  · simp
  · simp
  · exact le_refl 2
  · simp [init]
  · simp [init]
  · simp [init]
  · simp [init]
  · simp [init]

theorem moveToHead_WFC {s : CacheMgr} {xs ys : List Nat} {i : Nat}
    (h : WFC s (xs ++ i :: ys)) :
    WFC (moveToHead s i) (i :: (xs ++ ys)) := by
  have hmem : i ∈ xs ++ i :: ys := by simp
  obtain ⟨k, ndi, hgk, hgi, hki⟩ := WFC_mapped h hmem
  have hch1 : List.Chain' (adj (removeNode s i)) (headId :: ((xs ++ ys) ++ [tailId])) := by
    have hc := removeNode_chain s (headId :: xs) (ys ++ [tailId]) i
      (by simpa [List.cons_append, List.append_assoc] using h.chain)
      (by simpa [List.cons_append, List.append_assoc] using h.nodup)
      (by simp) (by simp)
    simpa [List.cons_append, List.append_assoc] using hc
  have hnd1 : (headId :: ((xs ++ ys) ++ [tailId])).Nodup := by
    refine h.nodup.sublist ?_
    refine List.Sublist.cons₂ headId ?_
    refine List.Sublist.append ?_ (List.Sublist.refl [tailId])
    exact List.Sublist.append_left (List.sublist_cons_self i ys) xs
  have hpermids : List.Perm (xs ++ i :: ys) (i :: (xs ++ ys)) := List.perm_middle
  have hpath : List.Perm (headId :: ((xs ++ i :: ys) ++ [tailId]))
      (headId :: ((i :: (xs ++ ys)) ++ [tailId])) :=
    List.Perm.cons headId (List.Perm.append_right [tailId] hpermids)
  have hii : i ∉ headId :: ((xs ++ ys) ++ [tailId]) := by
    have hp2 : List.Perm (headId :: ((xs ++ i :: ys) ++ [tailId]))
        (i :: headId :: ((xs ++ ys) ++ [tailId])) :=
      hpath.trans (List.Perm.swap i headId ((xs ++ ys) ++ [tailId]))
    have hnodup2 := (hp2.nodup_iff).mp h.nodup
    rw [List.nodup_cons] at hnodup2
    exact hnodup2.1
  have hex : (nget (removeNode s i).store i).isSome := by
    have := ndata_removeNode s i i
    unfold ndata at this
    rw [hgi] at this
    cases hgg : nget (removeNode s i).store i with
    | none => rw [hgg] at this; simp at this
    | some _ => simp
  have hch2 := addToHead_chain (removeNode s i) (xs ++ ys) i hch1 hnd1 hii hex
  refine ⟨?_, ?_, ?_, ?_, ?_, ?_, ?_, ?_, ?_, ?_⟩
  · unfold moveToHead
    simpa [List.cons_append] using hch2
  · exact (hpath.nodup_iff).mp h.nodup
  · intro j hj
    exact h.ids_ge j (hpermids.symm.subset (by simpa using hj))
  · intro j hj
    simp only [moveToHead_nextId]
    exact h.ids_lt j (hpermids.symm.subset (by simpa using hj))
  · simp only [moveToHead_nextId]
    exact h.nextId_ge
  · simp only [moveToHead_map]
    exact h.map_ids.trans hpermids
  · simp only [moveToHead_map]
    exact h.keys_nodup
  · intro p hp
    simp only [moveToHead_map] at hp
    rw [nkey_eq_of_ndata (ndata_moveToHead s i p.2)]
    exact h.key_match p hp
  · simp only [moveToHead_map, moveToHead_currentMemoryBytes]
    rw [h.mem_eq]
    exact (congrArg List.sum
      (List.map_congr_left (fun p _ => nsize_eq_of_ndata (ndata_moveToHead s i p.2)))).symm
  · intro p hp
    simp only [moveToHead_map] at hp
    rw [nsize_eq_of_ndata (ndata_moveToHead s i p.2)]
    exact h.sizes_nonneg p hp

end CacheMgr

namespace CacheMgr

/-- Well-formedness only mentions `store`, `map`, `currentMemoryBytes` and
`nextId`; any state agreeing on those inherits it. -/
theorem WFC_transfer {s : CacheMgr} {ids : List Nat} (h : WFC s ids)
    (s' : CacheMgr) (hstore : s'.store = s.store) (hmap : s'.map = s.map)
    (hmem : s'.currentMemoryBytes = s.currentMemoryBytes)
    (hnext : s'.nextId = s.nextId) : WFC s' ids := by
  have hnd : ∀ x, ndata s' x = ndata s x := by
    intro x
    unfold ndata
    rw [hstore]
  refine ⟨?_, h.nodup, h.ids_ge, ?_, ?_, ?_, ?_, ?_, ?_, ?_⟩
  · refine chain_adj_transfer s s' _ ?_ ?_ h.chain
    · intro x _
      unfold nnext
      rw [hstore]
    · intro x _
      unfold nprev
      rw [hstore]
  · intro j hj
    rw [hnext]
    exact h.ids_lt j hj
  · rw [hnext]
    exact h.nextId_ge
  · rw [hmap]
    exact h.map_ids
  · rw [hmap]
    exact h.keys_nodup
  · intro p hp
    rw [hmap] at hp
    rw [nkey_eq_of_ndata (hnd p.2)]
    exact h.key_match p hp
  · rw [hmap, hmem, h.mem_eq]
    exact (congrArg List.sum
      (List.map_congr_left (fun p _ => nsize_eq_of_ndata (hnd p.2)))).symm
  · intro p hp
    rw [hmap] at hp
    rw [nsize_eq_of_ndata (hnd p.2)]
    exact h.sizes_nonneg p hp

/-- An id found through the map carries a node whose key points back;
moreover the id is on the chain, so the chain splits around it. -/
theorem WFC_split_of_aget {s : CacheMgr} {ids : List Nat} (h : WFC s ids)
    {key : String} {i : Nat} (hget : aget s.map key = some i) :
    ∃ xs ys ndi, ids = xs ++ i :: ys ∧ nget s.store i = some ndi ∧
      ndi.key = some key := by
  have hmem : (key, i) ∈ s.map := aget_mem hget
  have hin : i ∈ ids := (h.map_ids.mem_iff).mp (List.mem_map.mpr ⟨(key, i), hmem, rfl⟩)
  obtain ⟨xs, ys, hsplit⟩ := List.append_of_mem hin
  have hkm := h.key_match (key, i) hmem
  unfold nkey at hkm
  cases hnd : nget s.store i with
  | none => rw [hnd] at hkm; simp at hkm
  | some ndi =>
    rw [hnd] at hkm
    exact ⟨xs, ys, ndi, hsplit, rfl, hkm⟩

theorem delete_WFC {s : CacheMgr} {ids : List Nat} (h : WFC s ids) (key : String) :
    ∃ ids', WFC (delete s key) ids' := by
  unfold delete
  cases hget : aget s.map key with
  | none => exact ⟨ids, h⟩
  | some i =>
    obtain ⟨xs, ys, ndi, hsplit, hndi, _⟩ := WFC_split_of_aget h hget
    dsimp only
    rw [hndi]
    dsimp only
    refine ⟨xs ++ ys, remove_entry_WFC h hsplit hget _ rfl
      (by rw [removeNode_map]) ?_ (by rw [removeNode_nextId])⟩
    show (0 : ℤ) ⊔ ((removeNode s i).currentMemoryBytes - ndi.size) =
      max 0 (s.currentMemoryBytes - nsize s i)
    rw [removeNode_currentMemoryBytes]
    unfold nsize
    rw [hndi]

theorem get_WF {s : CacheMgr} (h : WF s) (now : ℤ) (key : String) :
    WF (get s now key).2 := by
  obtain ⟨ids, h⟩ := h
  unfold get
  cases hget : aget s.map key with
  | none => exact ⟨ids, WFC_transfer h _ rfl rfl rfl rfl⟩
  | some i =>
    obtain ⟨xs, ys, ndi, hsplit, hndi, _⟩ := WFC_split_of_aget h hget
    dsimp only
    rw [hndi]
    dsimp only
    by_cases hexp : isExpired now ndi
    · rw [if_pos hexp]
      obtain ⟨ids', h'⟩ := delete_WFC h key
      exact ⟨ids', WFC_transfer h' _ rfl rfl rfl rfl⟩
    · rw [if_neg hexp]
      refine ⟨i :: (xs ++ ys), ?_⟩
      have hstats : WFC { s with hits := s.hits + 1 } (xs ++ i :: ys) :=
        hsplit ▸ WFC_transfer h _ rfl rfl rfl rfl
      exact moveToHead_WFC hstats

theorem has_WF {s : CacheMgr} (h : WF s) (now : ℤ) (key : String) :
    WF (has s now key).2 := by
  obtain ⟨ids, h⟩ := h
  unfold has
  cases hget : aget s.map key with
  | none => exact ⟨ids, h⟩
  | some i =>
    dsimp only
    cases hndi : nget s.store i with
    | none => exact ⟨ids, h⟩
    | some ndi =>
      dsimp only
      by_cases hexp : isExpired now ndi
      · rw [if_pos hexp]
        obtain ⟨ids', h'⟩ := delete_WFC h key
        exact ⟨ids', WFC_transfer h' _ rfl rfl rfl rfl⟩
      · rw [if_neg hexp]
        exact ⟨ids, h⟩

theorem clear_WFC {s : CacheMgr} {ids : List Nat} (h : WFC s ids) :
    WFC (clear s) [] := by
  have hc := h.chain
  simp only [List.cons_append] at hc
  obtain ⟨f, rtail, hsplit⟩ : ∃ f rtail, ids ++ [tailId] = f :: rtail := by
    cases ids <;> exact ⟨_, _, rfl⟩
  rw [hsplit, List.chain'_cons] at hc
  obtain ⟨h0nd, h0, _⟩ := nnext_some hc.1.1
  have htl : ∃ tnd, nget s.store tailId = some tnd := by
    -- the last adjacency of the chain enters the tail sentinel
    have : ∃ a, adj s a tailId := by
      have hch := h.chain
      rw [← List.cons_append, List.chain'_append] at hch
      refine ⟨(headId :: ids).getLast (by simp), hch.2.2 _ ?_ tailId rfl⟩
      rw [List.getLast?_eq_getLast _ (by simp)]
      rfl
    obtain ⟨a, ha⟩ := this
    obtain ⟨tnd, htnd, _⟩ := nprev_some ha.2
    exact ⟨tnd, htnd⟩
  obtain ⟨tnd, htnd⟩ := htl
  have h01 : (headId : Nat) ≠ tailId := by
    unfold headId tailId
    omega
  refine ⟨?_, ?_, ?_, ?_, ?_, ?_, ?_, ?_, ?_, ?_⟩
  · simp only [List.nil_append]
    refine List.chain'_cons.mpr ⟨⟨?_, ?_⟩, List.chain'_singleton _⟩
    · unfold clear nnext
      simp only
      rw [nget_withNode_ne _ _ _ _ h01, nget_withNode_self, h0]
      rfl
    · unfold clear nprev
      simp only
      rw [nget_withNode_self, nget_withNode_ne _ _ _ _ (fun he => h01 he.symm), htnd]
      rfl
  · simp [headId, tailId]
  · simp
  · simp
  · have hcfg : (clear s).nextId = s.nextId := by
      unfold clear
      simp
    rw [hcfg]
    exact h.nextId_ge
  · show List.Perm (List.map Prod.snd []) []
    rfl
  · exact List.nodup_nil
  · intro p hp
    simp [clear] at hp
  · rfl
  · intro p hp
    simp [clear] at hp

end CacheMgr

theorem estimate_nonneg_aux :
    ∀ fuel depth, 11 - depth ≤ fuel →
      (∀ v, 0 ≤ estimateObjectSize v depth) ∧
      (∀ arr, 0 ≤ estimateArraySize arr depth) := by
  intro fuel
  induction fuel with
  | zero =>
    intro depth hd
    have hdepth : depth > 10 := by omega
    constructor
    · intro v
      rw [estimateObjectSize, if_pos hdepth]
      norm_num
    · intro arr
      rw [estimateArraySize, if_pos hdepth]
      norm_num
  | succ fuel ih =>
    intro depth hd
    by_cases hdepth : depth > 10
    · constructor
      · intro v
        rw [estimateObjectSize, if_pos hdepth]
        norm_num
      · intro arr
        rw [estimateArraySize, if_pos hdepth]
        norm_num
    · have hih := ih (depth + 1) (by omega)
      constructor
      · intro v
        rw [estimateObjectSize, if_neg hdepth]
        dsimp only
        refine add_nonneg (add_nonneg ?_ ?_) ?_
        · positivity
        · refine CacheMgr.sum_nonneg_int ?_
          intro x hx
          rcases List.mem_map.mp hx with ⟨p, _, rfl⟩
          refine add_nonneg (by positivity) ?_
          cases p.1.2 <;> dsimp only <;>
            first
              | exact hih.1 _
              | exact hih.2 _
              | positivity
              | norm_num
        · by_cases hl : (ownProps v).length > 50
          · rw [if_pos hl]
            have h50 : (50 : ℤ) ≤ ((ownProps v).length : ℤ) := by
              exact_mod_cast le_of_lt hl
            nlinarith
          · rw [if_neg hl]
      · intro arr
        rw [estimateArraySize, if_neg hdepth]
        dsimp only
        refine add_nonneg (add_nonneg ?_ ?_) ?_
        · positivity
        · refine CacheMgr.sum_nonneg_int ?_
          intro x hx
          rcases List.mem_map.mp hx with ⟨p, _, rfl⟩
          cases p.1 <;> dsimp only <;>
            first
              | exact hih.1 _
              | exact hih.2 _
              | positivity
              | norm_num
        · by_cases hl : arr.length > 100
          · rw [if_pos hl]
            have h100 : (100 : ℤ) ≤ (arr.length : ℤ) := by
              exact_mod_cast le_of_lt hl
            nlinarith
          · rw [if_neg hl]

/-- The memory estimator never reports a negative size. -/
theorem estimateSize_nonneg (key : Option String) (value : JSValue) :
    0 ≤ estimateSize key value := by
  have hobj := (estimate_nonneg_aux 11 0 (by omega)).1
  have harr := (estimate_nonneg_aux 11 0 (by omega)).2
  unfold estimateSize
  have hkey : (0 : ℤ) ≤ (match key with
      | some k => ((k.length : ℤ) * 2 + 40 : ℤ)
      | none => 0) := by
    cases key
    · norm_num
    · positivity
  cases value with
  | vbuf bytes => dsimp only; omega
  | vstr s => dsimp only; omega
  | varr l => have h1 := harr l; dsimp only; omega
  | vobj fields => have h1 := hobj (JSValue.vobj fields); dsimp only; omega
  | vdate m => have h1 := hobj (JSValue.vdate m); dsimp only; omega
  | vregex s f => have h1 := hobj (JSValue.vregex s f); dsimp only; omega
  | vset l => have h1 := hobj (JSValue.vset l); dsimp only; omega
  | vmap l => have h1 := hobj (JSValue.vmap l); dsimp only; omega
  | vtyped k l => have h1 := hobj (JSValue.vtyped k l); dsimp only; omega
  | vtypedBig sg l => have h1 := hobj (JSValue.vtypedBig sg l); dsimp only; omega
  | vdataview b => have h1 := hobj (JSValue.vdataview b); dsimp only; omega
  | verror n m st => have h1 := hobj (JSValue.verror n m st); dsimp only; omega
  | vnum q => dsimp only; omega
  | vnan => dsimp only; omega
  | vinf => dsimp only; omega
  | vninf => dsimp only; omega
  | vbool b => dsimp only; omega
  | vnull => dsimp only; omega
  | vundef => dsimp only; omega
  | vbigint n => dsimp only; omega
  | vfunc id => dsimp only; omega
  | vsymbol id => dsimp only; omega

namespace CacheMgr

theorem aset_append_of_not_mem {β : Type} (l : List (String × β)) (k : String) (v : β)
    (h : k ∉ l.map Prod.fst) : aset l k v = l ++ [(k, v)] := by
  induction l with
  | nil => rfl
  | cons p rest ih =>
    simp only [List.map_cons, List.mem_cons, not_or] at h
    rw [aset, if_neg (fun he : p.1 = k => h.1 he.symm), List.cons_append,
      ih h.2]

theorem removeTail_spec {s : CacheMgr} {ids : List Nat} (h : WFC s ids) :
    (ids = [] → removeTail s = (none, s)) ∧
    (∀ zs j, ids = zs ++ [j] → ∃ ndj, nget s.store j = some ndj ∧
      removeTail s = (some (j, ndj), removeNode s j)) := by
  constructor
  · rintro rfl
    have hc := h.chain
    simp only [List.nil_append] at hc
    rw [List.chain'_cons] at hc
    obtain ⟨tnd, htnd, htprev⟩ := nprev_some hc.1.2
    unfold removeTail
    rw [htnd]
    dsimp only
    rw [htprev]
    dsimp only
    rw [if_pos rfl]
  · rintro zs j rfl
    have hc := h.chain
    rw [← List.cons_append, List.chain'_append] at hc
    have hadj : adj s j tailId := by
      refine hc.2.2 j ?_ tailId rfl
      rw [show headId :: (zs ++ [j]) = (headId :: zs) ++ [j] from rfl, List.getLast?_concat]
      rfl
    obtain ⟨ndj, hndj, _⟩ := nnext_some hadj.1
    obtain ⟨tnd, htnd, htprev⟩ := nprev_some hadj.2
    have hj0 : j ≠ headId := by
      have := h.ids_ge j (by simp)
      unfold headId
      omega
    refine ⟨ndj, hndj, ?_⟩
    unfold removeTail
    rw [htnd]
    dsimp only
    rw [htprev]
    dsimp only
    rw [if_neg hj0, hndj]

theorem evictLoop_WF : ∀ (fuel : Nat) (s : CacheMgr), WF s → WF (evictLoop s fuel).1 := by
  intro fuel
  induction fuel with
  | zero =>
    intro s hs
    exact hs
  | succ fuel ih =>
    intro s hs
    obtain ⟨ids, h⟩ := hs
    rw [evictLoop]
    by_cases hcond : (s.map.length ≥ s.maxSize ∨ s.currentMemoryBytes ≥ s.maxMemoryBytes) ∧
        s.map.length > 0
    · rw [if_pos hcond]
      have hidsne : ids ≠ [] := by
        intro he
        have := h.map_ids.length_eq
        rw [he] at this
        simp only [List.length_nil, List.length_map] at this
        omega
      obtain ⟨zs, j, rfl⟩ : ∃ zs j, ids = zs ++ [j] := by
        rcases ids.eq_nil_or_concat with he | ⟨l, a, he⟩
        · exact absurd he hidsne
        · exact ⟨l, a, by simpa [List.concat_eq_append] using he⟩
      obtain ⟨ndj, hndj, hrt⟩ := (removeTail_spec h).2 zs j rfl
      rw [hrt]
      dsimp only
      have hjmem : j ∈ zs ++ [j] := by simp
      obtain ⟨k, ndj', hgk, hndj', hkey⟩ := WFC_mapped h hjmem
      obtain rfl : ndj' = ndj := by
        rw [hndj] at hndj'
        injection hndj' with hh
        exact hh.symm
      rw [hkey]
      dsimp only
      refine ih _ ⟨zs ++ [], remove_entry_WFC h rfl hgk _ rfl ?_ ?_ ?_⟩
      · rw [removeNode_map]
      · show (0 : ℤ) ⊔ ((removeNode s j).currentMemoryBytes - ndj'.size) =
          max 0 (s.currentMemoryBytes - nsize s j)
        rw [removeNode_currentMemoryBytes, nsize_of_nget hndj]
      · rw [removeNode_nextId]
    · rw [if_neg hcond]
      exact ⟨_, h⟩

/-- Replacing a mapped node's payload in place (the `set` update path: new
value, expiry and size, pointers untouched) preserves well-formedness. -/
theorem update_entry_WFC {s : CacheMgr} {xs ys : List Nat} {i : Nat} {ndi : NodeR}
    {key : String}
    (h : WFC s (xs ++ i :: ys)) (hget : aget s.map key = some i)
    (hndi : nget s.store i = some ndi)
    (value' : JSValue) (expiry : Option ℤ) (size' : ℤ) (hsz : 0 ≤ size')
    (s' : CacheMgr)
    (hstore : s'.store = nset s.store i
      { ndi with value := value', expiresAt := expiry, size := size' })
    (hmap : s'.map = s.map)
    (hmem : s'.currentMemoryBytes = s.currentMemoryBytes - ndi.size + size')
    (hnext : s'.nextId = s.nextId) : WFC s' (xs ++ i :: ys) := by
  set nd' : NodeR := { ndi with value := value', expiresAt := expiry, size := size' }
    with hnd'
  have hsndnodup : (s.map.map Prod.snd).Nodup := h.map_ids.nodup_iff.mpr
    (by
      have hnd0 := h.nodup
      rw [List.nodup_cons, List.nodup_append] at hnd0
      exact hnd0.2.1)
  have hperm := adel_perm s.map key i h.keys_nodup hget
  have hadelsnd : ∀ p ∈ adel s.map key, p.2 ≠ i := by
    intro p hpm hpi
    have hcons : List.Perm (s.map.map Prod.snd) (i :: (adel s.map key).map Prod.snd) :=
      (List.Perm.map Prod.snd hperm.symm)
    have hnodup2 := (hcons.nodup_iff).mp hsndnodup
    rw [List.nodup_cons] at hnodup2
    exact hnodup2.1 (List.mem_map.mpr ⟨p, hpm, hpi⟩)
  have hngets' : ∀ x, nget s'.store x = if x = i then some nd' else nget s.store x := by
    intro x
    by_cases hx : x = i
    · subst hx
      rw [hstore, nget_nset_self, if_pos rfl]
    · rw [hstore, nget_nset_ne _ _ _ _ hx, if_neg hx]
  refine ⟨?_, h.nodup, h.ids_ge, ?_, ?_, ?_, ?_, ?_, ?_, ?_⟩
  · refine chain_adj_transfer s _ _ ?_ ?_ h.chain
    · intro x _
      unfold nnext
      rw [hngets' x]
      by_cases hx : x = i
      · subst hx
        rw [if_pos rfl, hndi]
        rfl
      · rw [if_neg hx]
    · intro x _
      unfold nprev
      rw [hngets' x]
      by_cases hx : x = i
      · subst hx
        rw [if_pos rfl, hndi]
        rfl
      · rw [if_neg hx]
  · intro j hj
    rw [hnext]
    exact h.ids_lt j hj
  · rw [hnext]
    exact h.nextId_ge
  · rw [hmap]
    exact h.map_ids
  · rw [hmap]
    exact h.keys_nodup
  · intro p hpm
    rw [hmap] at hpm
    unfold nkey
    rw [hngets' p.2]
    by_cases hx : p.2 = i
    · rw [if_pos hx]
      have hkm := h.key_match p hpm
      rw [hx, nkey_of_nget hndi] at hkm
      exact hkm
    · rw [if_neg hx]
      exact h.key_match p hpm
  · rw [hmap, hmem]
    have hsum0 : ((s.map.map fun p => nsize s p.2)).sum =
        nsize s i + (((adel s.map key).map fun p => nsize s p.2)).sum := by
      have hp2 := (List.Perm.map (fun p => nsize s p.2) hperm).sum_eq
      simpa using hp2.symm
    have hsum1 : ((s.map.map fun p => nsize s' p.2)).sum =
        nsize s' i + (((adel s.map key).map fun p => nsize s' p.2)).sum := by
      have hp2 := (List.Perm.map (fun p => nsize s' p.2) hperm).sum_eq
      simpa using hp2.symm
    have hadel_same : (((adel s.map key).map fun p => nsize s' p.2)) =
        ((adel s.map key).map fun p => nsize s p.2) := by
      refine List.map_congr_left ?_
      intro p hpm
      unfold nsize
      rw [hngets' p.2, if_neg (hadelsnd p hpm)]
    have hni : nsize s' i = size' := by
      unfold nsize
      rw [hngets' i, if_pos rfl]
    rw [hsum1, hadel_same, hni, h.mem_eq, hsum0, nsize_of_nget hndi]
    ring
  · intro p hpm
    rw [hmap] at hpm
    unfold nsize
    rw [hngets' p.2]
    by_cases hx : p.2 = i
    · rw [if_pos hx]
      exact hsz
    · rw [if_neg hx]
      exact h.sizes_nonneg p hpm

/-- Inserting a fresh node at the MRU end (the `set` insert path before
eviction) preserves well-formedness, with the new id joining the chain. -/
theorem insert_entry_WFC {s : CacheMgr} {ids : List Nat} {key : String}
    (h : WFC s ids) (hget : aget s.map key = none) (nd : NodeR)
    (hndk : nd.key = some key) (hsz : 0 ≤ nd.size)
    (s' : CacheMgr)
    (hstore : s'.store = (addToHead { s with
      store := nset s.store s.nextId nd,
      nextId := s.nextId + 1,
      map := aset s.map key s.nextId } s.nextId).store)
    (hmap : s'.map = aset s.map key s.nextId)
    (hmem : s'.currentMemoryBytes = s.currentMemoryBytes + max 0 nd.size)
    (hnext : s'.nextId = s.nextId + 1) : WFC s' (s.nextId :: ids) := by
  set i := s.nextId with hi
  set s1 : CacheMgr := { s with
    store := nset s.store i nd,
    nextId := s.nextId + 1,
    map := aset s.map key i } with hs1
  have hkeynot : key ∉ s.map.map Prod.fst := aget_none_not_mem hget
  have hi2 : 2 ≤ i := h.nextId_ge
  have hinotin : i ∉ headId :: (ids ++ [tailId]) := by
    intro hm
    rcases List.mem_cons.mp hm with he | hm'
    · rw [he] at hi2
      unfold headId at hi2
      omega
    · rcases List.mem_append.mp hm' with hh | hh
      · have := h.ids_lt i hh
        omega
      · have hieq : i = tailId := by simpa using hh
        rw [hieq] at hi2
        unfold tailId at hi2
        omega
  have hngets1 : ∀ x, x ≠ i → nget s1.store x = nget s.store x := by
    intro x hx
    exact nget_nset_ne _ _ _ _ hx
  have hch1 : List.Chain' (adj s1) (headId :: (ids ++ [tailId])) := by
    refine chain_adj_transfer s _ _ ?_ ?_ h.chain
    · intro x hx
      unfold nnext
      rw [hngets1 x ?_]
      intro he
      exact hinotin (he ▸ (List.dropLast_sublist _).subset hx)
    · intro x hx
      unfold nprev
      rw [hngets1 x ?_]
      intro he
      exact hinotin (he ▸ (List.tail_sublist _).subset (by simpa using hx))
  have hexi : (nget s1.store i).isSome := by
    show (nget (nset s.store i nd) i).isSome
    rw [nget_nset_self]
    rfl
  have hch2 := addToHead_chain s1 ids i hch1 h.nodup hinotin hexi
  have hchs' : List.Chain' (adj s') (headId :: ((i :: ids) ++ [tailId])) := by
    refine chain_adj_transfer (addToHead s1 i) s' _ ?_ ?_
      (by simpa [List.cons_append] using hch2)
    · intro x _
      unfold nnext
      rw [hstore]
    · intro x _
      unfold nprev
      rw [hstore]
  have hold : ∀ x, x ≠ i → ndata s' x = ndata s x := by
    intro x hx
    have h2 := ndata_addToHead s1 i x
    have h3 : ndata s1 x = ndata s x := by
      unfold ndata
      rw [hngets1 x hx]
    calc ndata s' x = ndata (addToHead s1 i) x := by
          unfold ndata
          rw [hstore]
      _ = ndata s x := by rw [h2, h3]
  have hnewdata : ndata s' i = some (nd.key, nd.value, nd.expiresAt, nd.size) := by
    have h2 := ndata_addToHead s1 i i
    have h3 : ndata s1 i = some (nd.key, nd.value, nd.expiresAt, nd.size) := by
      unfold ndata
      show ((nget (nset s.store i nd) i).map _) = _
      rw [nget_nset_self]
      rfl
    calc ndata s' i = ndata (addToHead s1 i) i := by
          unfold ndata
          rw [hstore]
      _ = _ := by rw [h2, h3]
  have holdsnd : ∀ p ∈ s.map, p.2 ≠ i := by
    intro p hpm hpi
    have hmm : p.2 ∈ s.map.map Prod.snd := List.mem_map.mpr ⟨p, hpm, rfl⟩
    have hin : p.2 ∈ ids := (h.map_ids.mem_iff).mp hmm
    have := h.ids_lt p.2 hin
    omega
  have hmap3 : s'.map = s.map ++ [(key, i)] := by
    rw [hmap]
    exact aset_append_of_not_mem s.map key i hkeynot
  have hsz3 : nsize s' i = nd.size := by
    unfold nsize
    unfold ndata at hnewdata
    cases hg : nget s'.store i with
    | none => rw [hg] at hnewdata; simp at hnewdata
    | some x =>
      rw [hg] at hnewdata
      injection hnewdata with hnewdata
      have hnd4 : (x.key, x.value, x.expiresAt, x.size)
          = (nd.key, nd.value, nd.expiresAt, nd.size) := hnewdata
      dsimp only
      rw [show x.size = (x.key, x.value, x.expiresAt, x.size).2.2.2 from rfl, hnd4]
  refine ⟨?_, ?_, ?_, ?_, ?_, ?_, ?_, ?_, ?_, ?_⟩
  · exact hchs'
  · have hperm2 : List.Perm (i :: (headId :: (ids ++ [tailId])))
        (headId :: ((i :: ids) ++ [tailId])) := List.Perm.swap headId i _
    refine (hperm2.nodup_iff).mp ?_
    rw [List.nodup_cons]
    exact ⟨hinotin, h.nodup⟩
  · intro j hj
    rcases List.mem_cons.mp hj with he | hm
    · rw [he]
      exact hi2
    · exact h.ids_ge j hm
  · intro j hj
    rw [hnext]
    rcases List.mem_cons.mp hj with he | hm
    · omega
    · have := h.ids_lt j hm
      omega
  · rw [hnext]
    omega
  · rw [hmap3, List.map_append]
    refine List.Perm.trans (List.perm_append_singleton _ _) ?_
    exact List.Perm.cons i h.map_ids
  · rw [hmap3, List.map_append, List.nodup_append]
    refine ⟨h.keys_nodup, List.nodup_singleton _, ?_⟩
    intro a ha hb
    simp only [List.map_cons, List.map_nil, List.mem_singleton] at hb
    rw [hb] at ha
    exact hkeynot ha
  · intro p hpm
    rw [hmap3] at hpm
    rcases List.mem_append.mp hpm with hm | hm
    · rw [nkey_eq_of_ndata (hold p.2 (holdsnd p hm))]
      exact h.key_match p hm
    · have hpe : p = (key, i) := by simpa using hm
      rw [hpe]
      unfold nkey
      unfold ndata at hnewdata
      cases hg : nget s'.store i with
      | none => rw [hg] at hnewdata; simp at hnewdata
      | some x =>
        rw [hg] at hnewdata
        injection hnewdata with hnewdata
        have hnd4 : (x.key, x.value, x.expiresAt, x.size)
            = (nd.key, nd.value, nd.expiresAt, nd.size) := hnewdata
        dsimp only
        rw [show x.key = (x.key, x.value, x.expiresAt, x.size).1 from rfl, hnd4]
        exact hndk
  · rw [hmap3, List.map_append, List.sum_append, hmem, h.mem_eq]
    simp only [List.map_cons, List.map_nil, List.sum_cons, List.sum_nil]
    rw [hsz3]
    have hmax : max 0 nd.size = nd.size := max_eq_right hsz
    have hcong : (s.map.map fun p => nsize s' p.2) = s.map.map fun p => nsize s p.2 := by
      refine List.map_congr_left ?_
      intro p hpm
      exact nsize_eq_of_ndata (hold p.2 (holdsnd p hpm))
    rw [hcong, hmax]
    ring
  · intro p hpm
    rw [hmap3] at hpm
    rcases List.mem_append.mp hpm with hm | hm
    · rw [nsize_eq_of_ndata (hold p.2 (holdsnd p hm))]
      exact h.sizes_nonneg p hm
    · have hpe : p = (key, i) := by simpa using hm
      rw [hpe]
      show 0 ≤ nsize s' i
      rw [hsz3]
      exact hsz

theorem set_WF {s : CacheMgr} (hs : WF s) (now : ℤ) (key : String) (value : JSValue)
    (ttlArg : Option ℤ) : WF (set s now key value ttlArg) := by
  obtain ⟨ids, h⟩ := hs
  unfold set
  cases hget : aget s.map key with
  | some i =>
    obtain ⟨xs, ys, ndi, hsplit, hndi, _⟩ := WFC_split_of_aget h hget
    dsimp only
    rw [hndi]
    dsimp only
    subst hsplit
    refine ⟨i :: (xs ++ ys), moveToHead_WFC
      (update_entry_WFC h hget hndi value _ _ (le_max_left _ _) _ rfl rfl rfl rfl)⟩
  | none =>
    dsimp only
    refine evictLoop_WF 1000 _ ⟨s.nextId :: ids, insert_entry_WFC h hget
      { key := some key, value := value,
        expiresAt := if (show ℤ from match ttlArg with | some t => t | none => s.ttl) > 0
          then some (now + show ℤ from match ttlArg with | some t => t | none => s.ttl)
          else none,
        prev := none, next := none, size := estimateSize (some key) value }
      rfl (estimateSize_nonneg (some key) value) _ rfl ?_ ?_ ?_⟩
    · rw [addToHead_map]
    · show (addToHead _ _).currentMemoryBytes + max 0 (estimateSize (some key) value) = _
      rw [addToHead_currentMemoryBytes]
    · rw [addToHead_nextId]

theorem withNode_store_congr {s t : CacheMgr} (i : Nat) (f : NodeR → NodeR)
    (hst : s.store = t.store) : (withNode s i f).store = (withNode t i f).store := by
  unfold withNode
  rw [hst]
  cases nget t.store i with
  | none => exact hst
  | some nd => rfl

theorem removeNode_store_congr {s t : CacheMgr} (i : Nat)
    (hst : s.store = t.store) : (removeNode s i).store = (removeNode t i).store := by
  unfold removeNode
  rw [hst]
  cases nget t.store i with
  | none => exact hst
  | some nd =>
    dsimp only
    cases nd.prev with
    | none =>
      cases nd.next with
      | none => exact hst
      | some n => exact withNode_store_congr n _ hst
    | some p =>
      cases nd.next with
      | none => exact withNode_store_congr p _ hst
      | some n => exact withNode_store_congr n _ (withNode_store_congr p _ hst)

/-- The expiry sweep's backward walk preserves well-formedness: at every step
the walk sits at the last id of `headId :: as` with `cs` the survivors
already visited, and each expired node it drops is removed exactly as
`remove_entry_WFC` describes. -/
theorem cleanupLoop_WF (now : ℤ) : ∀ (fuel : Nat) (as cs : List Nat) (s : CacheMgr),
    WFC s (as ++ cs) → ∀ cur, (headId :: as).getLast? = some cur →
    WF (cleanupLoop s cur now fuel) := by
  intro fuel
  induction fuel with
  | zero =>
    intro as cs s h cur _
    exact ⟨as ++ cs, h⟩
  | succ fuel ih =>
    intro as cs s h cur hcur
    rcases as.eq_nil_or_concat with rfl | ⟨as', i, rfl⟩
    all_goals try rw [List.concat_eq_append] at h hcur
    · have hch : cur = headId := by
        simp only [List.getLast?_singleton, Option.some.injEq] at hcur
        exact hcur.symm
      rw [cleanupLoop, if_pos hch]
      exact ⟨[] ++ cs, h⟩
    · rw [show headId :: (as' ++ [i]) = (headId :: as') ++ [i] from rfl,
        List.getLast?_concat] at hcur
      obtain rfl : cur = i := by
        injection hcur with h2
        exact h2.symm
      have himem : cur ∈ (as' ++ [cur]) ++ cs := by simp
      have hi2 : 2 ≤ cur := h.ids_ge cur himem
      have hi0 : cur ≠ headId := by
        unfold headId
        omega
      obtain ⟨k, nd, hget, hnd, hkey⟩ := WFC_mapped h himem
      have hchain := h.chain
      have hll : headId :: (((as' ++ [cur]) ++ cs) ++ [tailId])
          = (headId :: as') ++ (cur :: (cs ++ [tailId])) := by simp
      rw [hll, List.chain'_append] at hchain
      obtain ⟨a, ha⟩ : ∃ a, (headId :: as').getLast? = some a := by
        cases hl : (headId :: as').getLast? with
        | none =>
          rw [List.getLast?_eq_none_iff] at hl
          exact absurd hl (by simp)
        | some a => exact ⟨a, rfl⟩
      have hadj : adj s a cur := hchain.2.2 a ha cur rfl
      have hprev : nd.prev = some a := by
        have h2 := hadj.2
        unfold nprev at h2
        rw [hnd] at h2
        simpa using h2
      rw [cleanupLoop, if_neg hi0, hnd]
      dsimp only
      rw [hprev]
      dsimp only
      by_cases hexp : isExpired now nd = true
      · rw [if_pos hexp, hkey]
        dsimp only
        have hremw : WFC { removeNode { s with map := adel s.map k } cur with
            currentMemoryBytes := max 0
              ((removeNode { s with map := adel s.map k } cur).currentMemoryBytes - nd.size),
            expirations := (removeNode { s with map := adel s.map k } cur).expirations + 1 }
            (as' ++ cs) := by
          refine remove_entry_WFC h (by simp) hget _ ?_ ?_ ?_ ?_
          · exact removeNode_store_congr cur rfl
          · rw [removeNode_map]
          · show (0 : ℤ) ⊔ ((removeNode { s with map := adel s.map k }
              cur).currentMemoryBytes - nd.size) = max 0 (s.currentMemoryBytes - nsize s cur)
            rw [removeNode_currentMemoryBytes, nsize_of_nget hnd]
          · rw [removeNode_nextId]
        exact ih as' cs _ hremw a ha
      · rw [if_neg hexp]
        have h' : WFC s (as' ++ cur :: cs) := by
          have he : (as' ++ [cur]) ++ cs = as' ++ cur :: cs := by simp
          exact he ▸ h
        exact ih as' (cur :: cs) s h' a ha

/-- `cleanupExpired` preserves well-formedness. -/
theorem cleanupExpired_WF {s : CacheMgr} (hs : WF s) (now : ℤ) :
    WF (cleanupExpired s now) := by
  obtain ⟨ids, h⟩ := hs
  unfold cleanupExpired
  cases htl : nget s.store tailId with
  | none => exact ⟨ids, h⟩
  | some tl =>
    dsimp only
    cases hp : tl.prev with
    | none => exact ⟨ids, h⟩
    | some start =>
      dsimp only
      have hchain := h.chain
      rw [← List.cons_append, List.chain'_append] at hchain
      obtain ⟨a, ha⟩ : ∃ a, (headId :: ids).getLast? = some a := by
        cases hl : (headId :: ids).getLast? with
        | none =>
          rw [List.getLast?_eq_none_iff] at hl
          exact absurd hl (by simp)
        | some a => exact ⟨a, rfl⟩
      have hadj : adj s a tailId := hchain.2.2 a ha tailId rfl
      have hpa : tl.prev = some a := by
        have h2 := hadj.2
        unfold nprev at h2
        rw [htl] at h2
        simpa using h2
      obtain rfl : start = a := by
        rw [hp] at hpa
        injection hpa
      refine cleanupLoop_WF now (s.map.length + 1) ids [] s ?_ start ha
      exact (List.append_nil ids).symm ▸ h

/-- On a well-formed cache the memory accounting field is the sum of the
nonnegative recorded sizes, hence nonnegative. -/
theorem WF_mem_nonneg {s : CacheMgr} (h : WF s) : 0 ≤ s.currentMemoryBytes := by
  obtain ⟨ids, hw⟩ := h
  rw [hw.mem_eq]
  refine sum_nonneg_int ?_
  intro x hx
  rcases List.mem_map.mp hx with ⟨p, hp, rfl⟩
  exact hw.sizes_nonneg p hp

/-- Claim C10: every cache operation — `get`, `set`, `delete`, `has`,
`clear`, `cleanupExpired` — preserves the structural invariant `WF` (the
hash map's entries are exactly the nodes linked between the head and tail
sentinels, each key naming the unique node holding it, with consistent
memory accounting), and on a well-formed cache `currentMemoryBytes` is never
negative. -/
theorem c10_invariant_preserved (s : CacheMgr) (now : ℤ) (key : String)
    (value : JSValue) (ttlArg : Option ℤ) (h : WF s) :
    WF (get s now key).2 ∧ WF (set s now key value ttlArg) ∧
    WF (delete s key) ∧ WF (has s now key).2 ∧ WF (clear s) ∧
    WF (cleanupExpired s now) ∧ 0 ≤ s.currentMemoryBytes := by
  refine ⟨get_WF h now key, set_WF h now key value ttlArg, ?_, has_WF h now key,
    ?_, cleanupExpired_WF h now, WF_mem_nonneg h⟩
  · obtain ⟨ids, hw⟩ := h
    exact delete_WFC hw key
  · obtain ⟨ids, hw⟩ := h
    exact ⟨[], clear_WFC hw⟩

theorem c10_invariant_preserved_witness :
    WF (set (init 3 0 1024) 5 "a" (JSValue.vnum 1) none) ∧
    0 ≤ (init 3 0 1024).currentMemoryBytes :=
  ⟨(c10_invariant_preserved (init 3 0 1024) 5 "a" (JSValue.vnum 1) none
      ⟨[], WFC_init 3 0 1024⟩).2.1,
   (c10_invariant_preserved (init 3 0 1024) 5 "a" (JSValue.vnum 1) none
      ⟨[], WFC_init 3 0 1024⟩).2.2.2.2.2.2⟩

theorem removeTail_maxSize (s : CacheMgr) : (removeTail s).2.maxSize = s.maxSize := by
  unfold removeTail
  cases nget s.store tailId with
  | none => rfl
  | some tl =>
    dsimp only
    cases tl.prev with
    | none => rfl
    | some i =>
      dsimp only
      by_cases hi : i = headId
      · rw [if_pos hi]
      · rw [if_neg hi]
        cases nget s.store i with
        | none => rfl
        | some nd => exact removeNode_maxSize s i

theorem removeTail_maxMemoryBytes (s : CacheMgr) :
    (removeTail s).2.maxMemoryBytes = s.maxMemoryBytes := by
  unfold removeTail
  cases nget s.store tailId with
  | none => rfl
  | some tl =>
    dsimp only
    cases tl.prev with
    | none => rfl
    | some i =>
      dsimp only
      by_cases hi : i = headId
      · rw [if_pos hi]
      · rw [if_neg hi]
        cases nget s.store i with
        | none => rfl
        | some nd => exact removeNode_maxMemoryBytes s i

theorem removeTail_evictions (s : CacheMgr) :
    (removeTail s).2.evictions = s.evictions := by
  unfold removeTail
  cases nget s.store tailId with
  | none => rfl
  | some tl =>
    dsimp only
    cases tl.prev with
    | none => rfl
    | some i =>
      dsimp only
      by_cases hi : i = headId
      · rw [if_pos hi]
      · rw [if_neg hi]
        cases nget s.store i with
        | none => rfl
        | some nd => exact removeNode_evictions s i

theorem evictLoop_maxSize : ∀ (fuel : Nat) (s : CacheMgr),
    (evictLoop s fuel).1.maxSize = s.maxSize := by
  intro fuel
  induction fuel with
  | zero => intro s; rfl
  | succ fuel ih =>
    intro s
    rw [evictLoop]
    by_cases hcond : (s.map.length ≥ s.maxSize ∨ s.currentMemoryBytes ≥ s.maxMemoryBytes) ∧
        s.map.length > 0
    · rw [if_pos hcond]
      cases hrt : removeTail s with
      | mk r s' =>
        cases r with
        | none => rfl
        | some p =>
          cases p with
          | mk i nd =>
            dsimp only
            rw [ih]
            show s'.maxSize = s.maxSize
            have hmx := removeTail_maxSize s
            rw [hrt] at hmx
            exact hmx
    · rw [if_neg hcond]

theorem evictLoop_maxMemoryBytes : ∀ (fuel : Nat) (s : CacheMgr),
    (evictLoop s fuel).1.maxMemoryBytes = s.maxMemoryBytes := by
  intro fuel
  induction fuel with
  | zero => intro s; rfl
  | succ fuel ih =>
    intro s
    rw [evictLoop]
    by_cases hcond : (s.map.length ≥ s.maxSize ∨ s.currentMemoryBytes ≥ s.maxMemoryBytes) ∧
        s.map.length > 0
    · rw [if_pos hcond]
      cases hrt : removeTail s with
      | mk r s' =>
        cases r with
        | none => rfl
        | some p =>
          cases p with
          | mk i nd =>
            dsimp only
            rw [ih]
            show s'.maxMemoryBytes = s.maxMemoryBytes
            have hmx := removeTail_maxMemoryBytes s
            rw [hrt] at hmx
            exact hmx
    · rw [if_neg hcond]

/-- Each pass of the eviction loop bumps `evictions` once, so one call adds
at most `fuel`. -/
theorem evictLoop_evictions : ∀ (fuel : Nat) (s : CacheMgr),
    (evictLoop s fuel).1.evictions ≤ s.evictions + fuel := by
  intro fuel
  induction fuel with
  | zero => intro s; exact le_of_eq rfl
  | succ fuel ih =>
    intro s
    rw [evictLoop]
    by_cases hcond : (s.map.length ≥ s.maxSize ∨ s.currentMemoryBytes ≥ s.maxMemoryBytes) ∧
        s.map.length > 0
    · rw [if_pos hcond]
      cases hrt : removeTail s with
      | mk r s' =>
        cases r with
        | none =>
          dsimp only
          omega
        | some p =>
          cases p with
          | mk i nd =>
            dsimp only
            have hev := removeTail_evictions s
            rw [hrt] at hev
            dsimp only at hev
            have hih := ih { s' with
              map := (match nd.key with
                | some k => adel s'.map k
                | none => s'.map),
              currentMemoryBytes := max 0 (s'.currentMemoryBytes - nd.size),
              evictions := s'.evictions + 1 }
            dsimp only at hih ⊢
            omega
    · rw [if_neg hcond]
      dsimp only
      omega

/-- With enough fuel — at least the entry count, the source grants 1000 — the
eviction loop runs until the cache is empty or both bounds hold strictly
(`>=` in the loop condition makes the post-state strict). -/
theorem evictLoop_bound : ∀ (fuel : Nat) (s : CacheMgr), WF s →
    s.map.length ≤ fuel →
    (evictLoop s fuel).1.map.length = 0 ∨
    ((evictLoop s fuel).1.map.length < s.maxSize ∧
     (evictLoop s fuel).1.currentMemoryBytes < s.maxMemoryBytes) := by
  intro fuel
  induction fuel with
  | zero =>
    intro s _ hlen
    left
    rw [evictLoop]
    dsimp only
    omega
  | succ fuel ih =>
    intro s hs hlen
    obtain ⟨ids, h⟩ := hs
    rw [evictLoop]
    by_cases hcond : (s.map.length ≥ s.maxSize ∨ s.currentMemoryBytes ≥ s.maxMemoryBytes) ∧
        s.map.length > 0
    · rw [if_pos hcond]
      have hidsne : ids ≠ [] := by
        intro he
        have hle := h.map_ids.length_eq
        rw [he] at hle
        simp only [List.length_nil, List.length_map] at hle
        omega
      obtain ⟨zs, j, rfl⟩ : ∃ zs j, ids = zs ++ [j] := by
        rcases ids.eq_nil_or_concat with he | ⟨l, a, he⟩
        · exact absurd he hidsne
        · exact ⟨l, a, by simpa [List.concat_eq_append] using he⟩
      obtain ⟨ndj, hndj, hrt⟩ := (removeTail_spec h).2 zs j rfl
      rw [hrt]
      dsimp only
      have hjmem : j ∈ zs ++ [j] := by simp
      obtain ⟨k, ndj', hgk, hndj', hkey⟩ := WFC_mapped h hjmem
      obtain rfl : ndj' = ndj := by
        rw [hndj] at hndj'
        injection hndj' with hh
        exact hh.symm
      rw [hkey]
      dsimp only
      have hwfc : WFC { removeNode s j with
          map := adel (removeNode s j).map k,
          currentMemoryBytes := max 0 ((removeNode s j).currentMemoryBytes - ndj'.size),
          evictions := (removeNode s j).evictions + 1 } (zs ++ []) := by
        refine remove_entry_WFC h rfl hgk _ rfl ?_ ?_ ?_
        · rw [removeNode_map]
        · show (0 : ℤ) ⊔ ((removeNode s j).currentMemoryBytes - ndj'.size) =
            max 0 (s.currentMemoryBytes - nsize s j)
          rw [removeNode_currentMemoryBytes, nsize_of_nget hndj]
        · rw [removeNode_nextId]
      have hlen' : (adel (removeNode s j).map k).length + 1 = s.map.length := by
        rw [removeNode_map]
        exact adel_length s.map k j hgk
      have hres := ih _ ⟨zs ++ [], hwfc⟩ (by
        show (adel (removeNode s j).map k).length ≤ fuel
        omega)
      rcases hres with hres | hres
      · exact Or.inl hres
      · refine Or.inr ⟨?_, ?_⟩
        · have := hres.1
          rw [removeNode_maxSize] at this
          exact this
        · have := hres.2
          rw [removeNode_maxMemoryBytes] at this
          exact this
    · rw [if_neg hcond]
      dsimp only
      rw [not_and_or] at hcond
      rcases hcond with hcond | hcond
      · rw [not_or] at hcond
        exact Or.inr ⟨by omega, by omega⟩
      · left
        omega

/-- Claim C3, counterexample: the claim is false on the in-place update path
of `set`, which performs no eviction at all.  With `maxMemoryBytes = 300`:
`set "a" (10-char string)` (entry size 110) and `set "b" (10-char string)`
(memory 220), then `set "a" (60-char string)` updates the entry in place to
size 210, bringing memory to 320 > 300 — yet no entry exceeds the budget on
its own, `evictions` stays 0 and the entry count stays within `maxSize`. -/
theorem c3_update_overflow_cex :
    (let s1 := CacheMgr.set (CacheMgr.init 1000 0 300) 0 "a"
       (JSValue.vstr "0123456789")
     let s2 := CacheMgr.set s1 0 "b" (JSValue.vstr "0123456789")
     let s3 := CacheMgr.set s2 0 "a"
       (JSValue.vstr "012345678901234567890123456789012345678901234567890123456789")
     s3.currentMemoryBytes > s3.maxMemoryBytes ∧ s3.evictions = 0 ∧
       s3.map.length ≤ s3.maxSize ∧
       ∀ p ∈ s3.map, nsize s3 p.2 < s3.maxMemoryBytes) := by
  decide

theorem insert_set_bounds_aux {s : CacheMgr} {ids : List Nat} (h : WFC s ids)
    (key : String) (value : JSValue) (expiry : Option ℤ)
    (hins : aget s.map key = none)
    (s3 : CacheMgr)
    (hstore : s3.store = (addToHead { s with
      store := nset s.store s.nextId
        { key := some key, value := value, expiresAt := expiry,
          prev := none, next := none, size := estimateSize (some key) value },
      nextId := s.nextId + 1,
      map := aset s.map key s.nextId } s.nextId).store)
    (hmap : s3.map = aset s.map key s.nextId)
    (hmem : s3.currentMemoryBytes =
      s.currentMemoryBytes + max 0 (estimateSize (some key) value))
    (hnext : s3.nextId = s.nextId + 1)
    (hmaxS : s3.maxSize = s.maxSize)
    (hmaxM : s3.maxMemoryBytes = s.maxMemoryBytes)
    (hev : s3.evictions = s.evictions)
    (hlen : s.map.length < 1000) :
    ((evictLoop s3 1000).1.map.length = 0 ∨
     ((evictLoop s3 1000).1.map.length < s.maxSize ∧
      (evictLoop s3 1000).1.currentMemoryBytes < s.maxMemoryBytes)) ∧
    (evictLoop s3 1000).1.evictions ≤ s.evictions + 1000 := by
  have hwf : WF s3 := ⟨s.nextId :: ids, insert_entry_WFC h hins
    { key := some key, value := value, expiresAt := expiry, prev := none, next := none,
      size := estimateSize (some key) value } rfl
    (estimateSize_nonneg (some key) value) s3 hstore hmap hmem hnext⟩
  have hlen3 : s3.map.length = s.map.length + 1 := by
    rw [hmap, aset_append_of_not_mem s.map key s.nextId (aget_none_not_mem hins)]
    simp
  constructor
  · have hb := evictLoop_bound 1000 s3 hwf (by omega)
    rw [hmaxS, hmaxM] at hb
    exact hb
  · have he := evictLoop_evictions 1000 s3
    rw [hev] at he
    omega

/-- Claim C3 (amended): in-place updates never evict (see
`c3_update_overflow_cex`), but on the *insert* path of `set` the bounds do
hold: provided the cache held fewer than 1000 entries (so the 1000-attempt
cap cannot cut the loop short), after `set` returns the cache is either
empty or strictly within both `maxSize` and `maxMemoryBytes`, and one call
adds at most 1000 evictions. -/
theorem c3_insert_set_bounds {s : CacheMgr} (hs : WF s) (now : ℤ) (key : String)
    (value : JSValue) (ttlArg : Option ℤ) (hins : aget s.map key = none)
    (hlen : s.map.length < 1000) :
    ((set s now key value ttlArg).map.length = 0 ∨
     ((set s now key value ttlArg).map.length < s.maxSize ∧
      (set s now key value ttlArg).currentMemoryBytes < s.maxMemoryBytes)) ∧
    (set s now key value ttlArg).evictions ≤ s.evictions + 1000 := by
  obtain ⟨ids, h⟩ := hs
  unfold set
  rw [hins]
  dsimp only
  unfold evictIfNeeded
  refine insert_set_bounds_aux h key value
    (if (show ℤ from match ttlArg with | some t => t | none => s.ttl) > 0
      then some (now + show ℤ from match ttlArg with | some t => t | none => s.ttl)
      else none)
    hins _ rfl ?_ ?_ ?_ ?_ ?_ ?_ hlen
  · rw [addToHead_map]
  · show (addToHead _ _).currentMemoryBytes + max 0 (estimateSize (some key) value) = _
    rw [addToHead_currentMemoryBytes]
  · rw [addToHead_nextId]
  · rw [addToHead_maxSize]
  · rw [addToHead_maxMemoryBytes]
  · rw [addToHead_evictions]

theorem c3_insert_set_bounds_witness :
    ((set (init 5 0 1000000) 0 "a" (JSValue.vnum 1) none).map.length = 0 ∨
     ((set (init 5 0 1000000) 0 "a" (JSValue.vnum 1) none).map.length
        < (init 5 0 1000000).maxSize ∧
      (set (init 5 0 1000000) 0 "a" (JSValue.vnum 1) none).currentMemoryBytes
        < (init 5 0 1000000).maxMemoryBytes)) ∧
    (set (init 5 0 1000000) 0 "a" (JSValue.vnum 1) none).evictions
      ≤ (init 5 0 1000000).evictions + 1000 :=
  c3_insert_set_bounds ⟨[], WFC_init 5 0 1000000⟩ 0 "a" (JSValue.vnum 1) none rfl
    (by decide)

end CacheMgr

/-! ### The write batcher (src/core/batch.js, `BatchManager`)

`flush` detaches a slice of up to `maxBatchSize` queued operations, races the
user executor against the `operationTimeout` timer and then settles every
detached slot.  A queue slot is `(id, operation)` where `id` identifies the
promise `add` returned; the executor's outcome (resolve, throw, or the timer
winning the race) is an input, and the settlement signals are returned as an
ordered list of `(id, Except)` pairs exactly as `batch.forEach` fires
them. -/

/-- How the race of the executor against the timeout timer ends. -/
inductive ExecOutcome where
  | success
  | failure (msg : String)
  | timeout
deriving DecidableEq

structure BatchState (α : Type) where
  queue : List (Nat × α)
  maxBatchSize : Nat

/-- One `flush` pass over the queue (`src/core/batch.js` lines 65–119),
returning the new state and the settlement signals in the order they fire. -/
def BatchState.flushStep {α : Type} (s : BatchState α) (outcome : ExecOutcome) :
    BatchState α × List (Nat × Except String Unit) :=
  if s.queue.length = 0 then (s, [])
  else
    let batchSize := min s.queue.length s.maxBatchSize
    let batch := s.queue.take batchSize
    let rest := s.queue.drop batchSize
    let completions := match outcome with
      | .success => batch.map fun p => (p.1, Except.ok ())
      | .failure msg => batch.map fun p => (p.1, Except.error msg)
      | .timeout => batch.map fun p => (p.1, Except.error "Batch operation timeout")
    ({ s with queue := rest }, completions)

/-- Claim C5: a `flush` detaches the FIFO prefix of up to `maxBatchSize`
operations (the remainder keeps its order), settles exactly the detached
slots in submission order, and the settlement is all-or-nothing: all resolve
on executor success, all reject with the executor's error on failure, all
reject with the timeout error when the timer wins. -/
theorem c5_flush_partition {α : Type} (s : BatchState α) (outcome : ExecOutcome) :
    (s.flushStep outcome).1.queue = s.queue.drop (min s.queue.length s.maxBatchSize) ∧
    ((s.flushStep outcome).2.map Prod.fst) =
      (s.queue.take (min s.queue.length s.maxBatchSize)).map Prod.fst ∧
    (outcome = .success → ∀ c ∈ (s.flushStep outcome).2, c.2 = Except.ok ()) ∧
    (∀ msg, outcome = .failure msg →
      ∀ c ∈ (s.flushStep outcome).2, c.2 = Except.error msg) ∧
    (outcome = .timeout →
      ∀ c ∈ (s.flushStep outcome).2, c.2 = Except.error "Batch operation timeout") := by
  unfold BatchState.flushStep
  by_cases hq : s.queue.length = 0
  · rw [if_pos hq]
    have hnil : s.queue = [] := List.length_eq_zero.mp hq
    refine ⟨by rw [hnil]; simp, by rw [hnil]; simp, ?_, ?_, ?_⟩
    · intro _ c hc
      simp at hc
    · intro msg _ c hc
      simp at hc
    · intro _ c hc
      simp at hc
  · rw [if_neg hq]
    dsimp only
    refine ⟨rfl, ?_, ?_, ?_, ?_⟩
    · cases outcome <;>
      · dsimp only
        rw [List.map_map]
        exact List.map_congr_left fun p _ => rfl
    · rintro rfl c hc
      dsimp only at hc
      rcases List.mem_map.mp hc with ⟨p, _, rfl⟩
      rfl
    · rintro msg rfl c hc
      dsimp only at hc
      rcases List.mem_map.mp hc with ⟨p, _, rfl⟩
      rfl
    · rintro rfl c hc
      dsimp only at hc
      rcases List.mem_map.mp hc with ⟨p, _, rfl⟩
      rfl

/-! ### The watcher fan-out (src/core/watcher.js, `WatcherManager.notify`)

`watchers` is a `Map` id → `{pattern, matcher, callback}` iterated in
insertion order; the stored matcher is a closure, embedded as the function it
is, and whether a callback invocation throws is an input (`crash`).  `notify`
returns the new manager state, the invoked watcher ids and the `'error'`
events, each in program order.  `watcherErrors` is cumulative: nothing in the
code ever resets it on a successful invocation. -/

/-- Nat-keyed association lookup (`Map.get`). -/
def ilook {β : Type} : List (Nat × β) → Nat → Option β
  | [], _ => none
  | p :: rest, i => if p.1 = i then some p.2 else ilook rest i

/-- Nat-keyed association update (`Map.set`): in place when present,
appended when new, as a JavaScript `Map` keeps insertion order. -/
def iset {β : Type} : List (Nat × β) → Nat → β → List (Nat × β)
  | [], i, v => [(i, v)]
  | p :: rest, i, v => if p.1 = i then (i, v) :: rest else p :: iset rest i v

/-- The per-watcher rate-limit record `watcherCallCounts.get(id)`. -/
structure CallInfo where
  calls : List ℤ
  windowStart : ℤ
deriving DecidableEq

structure WMgr where
  watchers : List (Nat × (String → Bool))
  watcherErrors : List (Nat × Nat)
  watcherCallCounts : List (Nat × CallInfo)
  maxErrorsBeforeDisable : Nat
  rateLimitWindow : ℤ
  maxCallsPerWindow : Nat

/-- An `'error'` event as `notify` emits it. -/
structure ErrEvent where
  watcherId : Nat
  key : String
  errorCount : Nat
  disabled : Bool
deriving DecidableEq

/-- The error count the fan-out reads for a watcher
(`this.watcherErrors.get(id) || 0`). -/
def WMgr.errCount (s : WMgr) (id : Nat) : Nat :=
  (ilook s.watcherErrors id).getD 0

/-- The body of `notify`'s `for (const [id, watcher] of this.watchers)` loop
(`src/core/watcher.js` lines 206–258): `l` is the part of the iteration
still ahead.  Returns the final state, the invoked ids and the error events,
each in program order. -/
def notifyGo (now : ℤ) (key : String) (crash : Nat → Bool) :
    List (Nat × (String → Bool)) → WMgr → WMgr × List Nat × List ErrEvent
  | [], s => (s, [], [])
  | (id, matcher) :: rest, s =>
    if matcher key then
      let errorCount := s.errCount id
      if errorCount ≥ s.maxErrorsBeforeDisable then
        notifyGo now key crash rest s
      else
        let s1 := if (ilook s.watcherCallCounts id).isSome then s
          else { s with watcherCallCounts := iset s.watcherCallCounts id ⟨[], now⟩ }
        let ci := (ilook s1.watcherCallCounts id).getD ⟨[], now⟩
        let filtered := ci.calls.filter fun t => now - t < s1.rateLimitWindow
        let s2 := { s1 with
          watcherCallCounts := iset s1.watcherCallCounts id ⟨filtered, ci.windowStart⟩ }
        if filtered.length ≥ s2.maxCallsPerWindow then
          notifyGo now key crash rest s2
        else
          let s3 := { s2 with
            watcherCallCounts :=
              iset s2.watcherCallCounts id ⟨filtered ++ [now], ci.windowStart⟩ }
          if crash id then
            let newCount := errorCount + 1
            let s4 := { s3 with watcherErrors := iset s3.watcherErrors id newCount }
            let ev : ErrEvent := ⟨id, key, newCount, newCount ≥ s4.maxErrorsBeforeDisable⟩
            let r := notifyGo now key crash rest s4
            (r.1, id :: r.2.1, ev :: r.2.2)
          else
            let r := notifyGo now key crash rest s3
            (r.1, id :: r.2.1, r.2.2)
    else notifyGo now key crash rest s

/-- `notify(event, key, ...)`: the fan-out over all registered watchers (the
trailing re-emit of the data event carries no watcher logic). -/
def WMgr.notify (s : WMgr) (now : ℤ) (key : String) (crash : Nat → Bool) :
    WMgr × List Nat × List ErrEvent :=
  notifyGo now key crash s.watchers s

theorem ilook_iset_self {β : Type} (l : List (Nat × β)) (i : Nat) (v : β) :
    ilook (iset l i v) i = some v := by
  induction l with
  | nil => simp [iset, ilook]
  | cons p rest ih =>
    by_cases hp : p.1 = i
    · rw [iset, if_pos hp, ilook, if_pos rfl]
    · rw [iset, if_neg hp, ilook, if_neg hp]
      exact ih

theorem ilook_iset_ne {β : Type} (l : List (Nat × β)) (i j : Nat) (v : β)
    (h : j ≠ i) : ilook (iset l i v) j = ilook l j := by
  induction l with
  | nil =>
    show (if i = j then some v else ilook [] j) = none
    rw [if_neg (fun he => h he.symm)]
    rfl
  | cons p rest ih =>
    by_cases hp : p.1 = i
    · rw [iset, if_pos hp, ilook, if_neg (fun he => h he.symm), ilook,
        if_neg (by rw [hp]; exact fun he => h he.symm)]
    · rw [iset, if_neg hp, ilook, ilook]
      by_cases hpj : p.1 = j
      · rw [if_pos hpj, if_pos hpj]
      · rw [if_neg hpj, if_neg hpj]
        exact ih

/-- The fan-out never touches the configuration fields. -/
theorem notifyGo_config (now : ℤ) (key : String) (crash : Nat → Bool) :
    ∀ (l : List (Nat × (String → Bool))) (s : WMgr),
    (notifyGo now key crash l s).1.maxErrorsBeforeDisable = s.maxErrorsBeforeDisable ∧
    (notifyGo now key crash l s).1.rateLimitWindow = s.rateLimitWindow ∧
    (notifyGo now key crash l s).1.maxCallsPerWindow = s.maxCallsPerWindow := by
  intro l
  induction l with
  | nil => intro s; exact ⟨rfl, rfl, rfl⟩
  | cons p rest ih =>
    intro s
    obtain ⟨id, matcher⟩ := p
    rw [notifyGo]
    repeat first
    | exact ih _
    | split
    | dsimp only

/-- A fan-out step never changes the error count of a watcher that is not on
the part of the iteration still ahead. -/
theorem notifyGo_errCount_frame (now : ℤ) (key : String) (crash : Nat → Bool) :
    ∀ (l : List (Nat × (String → Bool))) (s : WMgr) (j : Nat),
    j ∉ l.map Prod.fst →
    WMgr.errCount (notifyGo now key crash l s).1 j = s.errCount j := by
  intro l
  induction l with
  | nil =>
    intro s j _
    rfl
  | cons p rest ih =>
    intro s j hj
    obtain ⟨id, matcher⟩ := p
    simp only [List.map_cons, List.mem_cons, not_or] at hj
    obtain ⟨hjid, hjrest⟩ := hj
    rw [notifyGo]
    repeat first
    | exact ih _ j hjrest
    | exact (ih _ j hjrest).trans (by
        unfold WMgr.errCount
        dsimp only
        first
        | rfl
        | rw [ilook_iset_ne _ _ _ _ hjid])
    | split
    | dsimp only

/-- `watcherErrors` is cumulative: a fan-out never lowers any error count
(nothing in the code resets it on a successful invocation). -/
theorem notifyGo_errCount_mono (now : ℤ) (key : String) (crash : Nat → Bool) :
    ∀ (l : List (Nat × (String → Bool))) (s : WMgr) (j : Nat),
    s.errCount j ≤ WMgr.errCount (notifyGo now key crash l s).1 j := by
  intro l
  induction l with
  | nil =>
    intro s j
    exact le_refl _
  | cons p rest ih =>
    intro s j
    obtain ⟨id, matcher⟩ := p
    rw [notifyGo]
    repeat first
    | exact ih _ j
    | exact le_trans
        (by
          unfold WMgr.errCount
          dsimp only
          by_cases hjid : j = id
          · subst hjid
            first
            | exact le_refl _
            | (rw [ilook_iset_self]
               exact Nat.le_succ _)
          · first
            | exact le_refl _
            | rw [ilook_iset_ne _ _ _ _ hjid])
        (ih _ j)
    | split
    | dsimp only

/-- Only watchers on the remaining iteration can be invoked. -/
theorem notifyGo_inv_subset (now : ℤ) (key : String) (crash : Nat → Bool) :
    ∀ (l : List (Nat × (String → Bool))) (s : WMgr) (x : Nat),
    x ∈ (notifyGo now key crash l s).2.1 → x ∈ l.map Prod.fst := by
  intro l
  induction l with
  | nil =>
    intro s x hx
    exact absurd hx (List.not_mem_nil x)
  | cons p rest ih =>
    intro s
    obtain ⟨id, matcher⟩ := p
    rw [notifyGo]
    repeat first
    | exact fun x hx => by
        simp only [List.map_cons, List.mem_cons]
        first
        | exact Or.inr (ih _ x hx)
        | (rcases List.mem_cons.mp hx with rfl | hx2
           · exact Or.inl rfl
           · exact Or.inr (ih _ x hx2))
    | split
    | dsimp only

/-- A watcher whose recorded error count has reached the disable threshold is
silently skipped: it is neither invoked nor the subject of an error event. -/
theorem notifyGo_disabled_skip (now : ℤ) (key : String) (crash : Nat → Bool) :
    ∀ (l : List (Nat × (String → Bool))) (s : WMgr) (j : Nat),
    s.maxErrorsBeforeDisable ≤ s.errCount j →
    j ∉ (notifyGo now key crash l s).2.1 ∧
    ∀ ev ∈ (notifyGo now key crash l s).2.2, ev.watcherId ≠ j := by
  intro l
  induction l with
  | nil =>
    intro s j _
    exact ⟨List.not_mem_nil j, fun ev hev => absurd hev (List.not_mem_nil ev)⟩
  | cons p rest ih =>
    intro s j hdis
    obtain ⟨id, matcher⟩ := p
    rw [notifyGo]
    split
    case isFalse => exact ih _ j hdis
    case isTrue =>
      split
      all_goals
        split
        case isTrue =>
          dsimp only
          split
          case isTrue => exact ih _ j hdis
          case isFalse =>
            split
            case isTrue => exact ih _ j hdis
            case isFalse =>
              dsimp only
              have hjid : j ≠ id := by
                intro he2
                rw [he2] at hdis
                exact absurd hdis (by assumption)
              refine ⟨?_, ?_⟩
              · intro hmem
                rcases List.mem_cons.mp hmem with he3 | hmem2
                · exact hjid he3
                · refine (ih _ j ?_).1 hmem2
                  unfold WMgr.errCount
                  dsimp only
                  first
                  | exact hdis
                  | (rw [ilook_iset_ne _ _ _ _ hjid]
                     exact hdis)
              · intro ev hev
                first
                | (rcases List.mem_cons.mp hev with he4 | hev2
                   · rw [he4]
                     exact fun hevj => hjid hevj.symm
                   · refine (ih _ j ?_).2 ev hev2
                     unfold WMgr.errCount
                     dsimp only
                     first
                     | exact hdis
                     | (rw [ilook_iset_ne _ _ _ _ hjid]
                        exact hdis))
                | (refine (ih _ j ?_).2 ev hev
                   unfold WMgr.errCount
                   dsimp only
                   first
                   | exact hdis
                   | (rw [ilook_iset_ne _ _ _ _ hjid]
                      exact hdis))
        case isFalse =>
          dsimp only
          split
          case isTrue => exact ih _ j hdis
          case isFalse =>
            split
            case isTrue => exact ih _ j hdis
            case isFalse =>
              dsimp only
              have hjid : j ≠ id := by
                intro he2
                rw [he2] at hdis
                exact absurd hdis (by assumption)
              refine ⟨?_, ?_⟩
              · intro hmem
                rcases List.mem_cons.mp hmem with he3 | hmem2
                · exact hjid he3
                · refine (ih _ j ?_).1 hmem2
                  unfold WMgr.errCount
                  dsimp only
                  first
                  | exact hdis
                  | (rw [ilook_iset_ne _ _ _ _ hjid]
                     exact hdis)
              · intro ev hev
                first
                | (rcases List.mem_cons.mp hev with he4 | hev2
                   · rw [he4]
                     exact fun hevj => hjid hevj.symm
                   · refine (ih _ j ?_).2 ev hev2
                     unfold WMgr.errCount
                     dsimp only
                     first
                     | exact hdis
                     | (rw [ilook_iset_ne _ _ _ _ hjid]
                        exact hdis))
                | (refine (ih _ j ?_).2 ev hev
                   unfold WMgr.errCount
                   dsimp only
                   first
                   | exact hdis
                   | (rw [ilook_iset_ne _ _ _ _ hjid]
                      exact hdis))

/-- The `'error'` events of one fan-out are exactly the throwing invocations,
in invocation order: each caught exception is reported, nothing else is. -/
theorem notifyGo_events (now : ℤ) (key : String) (crash : Nat → Bool) :
    ∀ (l : List (Nat × (String → Bool))) (s : WMgr),
    ((notifyGo now key crash l s).2.2).map ErrEvent.watcherId =
      ((notifyGo now key crash l s).2.1).filter (fun id => crash id) := by
  intro l
  induction l with
  | nil =>
    intro s
    rfl
  | cons p rest ih =>
    intro s
    obtain ⟨id, matcher⟩ := p
    rw [notifyGo]
    split
    case isFalse => exact ih _
    case isTrue =>
      split
      all_goals
        split
        case isTrue hcr =>
          dsimp only
          split
          case isTrue => exact ih _
          case isFalse =>
            split
            case isTrue => exact ih _
            case isFalse =>
              dsimp only
              rw [List.map_cons, List.filter_cons_of_pos (by exact hcr)]
              exact congrArg (List.cons id) (ih _)
        case isFalse hcr =>
          dsimp only
          split
          case isTrue => exact ih _
          case isFalse =>
            split
            case isTrue => exact ih _
            case isFalse =>
              dsimp only
              rw [List.filter_cons_of_neg (by exact hcr)]
              exact ih _

/-- One fan-out's effect on the error counters, in closed form: a watcher's
count is bumped by one exactly when it was invoked and threw, and everything
else is untouched. -/
theorem notifyGo_errCount_eq (now : ℤ) (key : String) (crash : Nat → Bool) :
    ∀ (l : List (Nat × (String → Bool))) (s : WMgr) (j : Nat),
    (l.map Prod.fst).Nodup →
    WMgr.errCount (notifyGo now key crash l s).1 j =
      (if j ∈ (notifyGo now key crash l s).2.1 ∧ crash j = true
       then s.errCount j + 1 else s.errCount j) := by
  intro l
  induction l with
  | nil =>
    intro s j _
    rw [if_neg (fun h => absurd h.1 (List.not_mem_nil j))]
    rfl
  | cons p rest ih =>
    intro s j hnd
    obtain ⟨id, matcher⟩ := p
    simp only [List.map_cons, List.nodup_cons] at hnd
    obtain ⟨hidnotin, hnd2⟩ := hnd
    rw [notifyGo]
    first
    | dsimp only
    | skip
    split
    case isFalse h1 => exact ih _ j hnd2
    case isTrue h1 =>
      split
      case isTrue h2 => exact ih _ j hnd2
      case isFalse h2 =>
        split
        all_goals
          split
          case isTrue h4 => exact ih _ j hnd2
          case isFalse h4 =>
            split
            case isTrue h5 =>
              dsimp only
              rw [ih _ j hnd2]
              by_cases hj : j = id
              case pos =>
                subst hj
                rw [if_neg (fun hc => hidnotin
                  (notifyGo_inv_subset now key crash rest _ j hc.1))]
                rw [if_pos ⟨List.mem_cons_self _ _, h5⟩]
                unfold WMgr.errCount
                dsimp only
                rw [ilook_iset_self]
                rfl
              case neg =>
                refine if_congr ?_ ?_ ?_
                · constructor
                  · rintro ⟨hm2, hcj⟩
                    exact ⟨List.mem_cons_of_mem _ hm2, hcj⟩
                  · rintro ⟨hm2, hcj⟩
                    rcases List.mem_cons.mp hm2 with he | hm3
                    · exact absurd he hj
                    · exact ⟨hm3, hcj⟩
                · refine congrArg (fun n => n + 1) ?_
                  unfold WMgr.errCount
                  dsimp only
                  rw [ilook_iset_ne _ _ _ _ hj]
                · unfold WMgr.errCount
                  dsimp only
                  rw [ilook_iset_ne _ _ _ _ hj]
            case isFalse h5 =>
              dsimp only
              rw [ih _ j hnd2]
              refine if_congr ?_ rfl rfl
              constructor
              · rintro ⟨hm2, hcj⟩
                exact ⟨List.mem_cons_of_mem _ hm2, hcj⟩
              · rintro ⟨hm2, hcj⟩
                rcases List.mem_cons.mp hm2 with he | hm3
                · rw [he] at hcj
                  exact absurd hcj h5
                · exact ⟨hm3, hcj⟩

/-- The invoked-watcher list in closed form: a watcher is invoked exactly
when its matcher accepts the key, its error count is below the disable
threshold and its rate window has room — all read off the starting state,
and none of it depending on which callbacks throw (`crash` does not occur on
the right-hand side: one watcher throwing cannot affect another's
invocation, and the exception never escapes the fan-out). -/
theorem notifyGo_invocations_closed (now : ℤ) (key : String) (crash : Nat → Bool) :
    ∀ (l : List (Nat × (String → Bool))) (s s₀ : WMgr),
    (l.map Prod.fst).Nodup →
    (∀ i ∈ l.map Prod.fst, ilook s.watcherErrors i = ilook s₀.watcherErrors i) →
    (∀ i ∈ l.map Prod.fst, ilook s.watcherCallCounts i = ilook s₀.watcherCallCounts i) →
    s.maxErrorsBeforeDisable = s₀.maxErrorsBeforeDisable →
    s.rateLimitWindow = s₀.rateLimitWindow →
    s.maxCallsPerWindow = s₀.maxCallsPerWindow →
    (notifyGo now key crash l s).2.1 =
      (l.filter fun p => p.2 key &&
        !(decide (WMgr.errCount s₀ p.1 ≥ s₀.maxErrorsBeforeDisable)) &&
        !(decide ((((ilook s₀.watcherCallCounts p.1).getD ⟨[], now⟩).calls.filter
            (fun t => decide (now - t < s₀.rateLimitWindow))).length
              ≥ s₀.maxCallsPerWindow))).map Prod.fst := by
  intro l
  induction l with
  | nil =>
    intro s s₀ _ _ _ _ _ _
    rfl
  | cons p rest ih =>
    intro s s₀ hnd herr hcall hmax hwin hmaxc
    obtain ⟨id, matcher⟩ := p
    simp only [List.map_cons, List.nodup_cons] at hnd
    obtain ⟨hidnotin, hnd2⟩ := hnd
    have herr2 : ∀ i ∈ rest.map Prod.fst,
        ilook s.watcherErrors i = ilook s₀.watcherErrors i :=
      fun i hi => herr i (List.mem_cons_of_mem _ hi)
    have hcall2 : ∀ i ∈ rest.map Prod.fst,
        ilook s.watcherCallCounts i = ilook s₀.watcherCallCounts i :=
      fun i hi => hcall i (List.mem_cons_of_mem _ hi)
    have hne : ∀ i ∈ rest.map Prod.fst, i ≠ id :=
      fun i hi he => hidnotin (he ▸ hi)
    have hecid : s.errCount id = s₀.errCount id := by
      unfold WMgr.errCount
      rw [herr id (List.mem_cons_self _ _)]
    have hccid : ilook s.watcherCallCounts id = ilook s₀.watcherCallCounts id :=
      hcall id (List.mem_cons_self _ _)
    rw [notifyGo]
    first
    | dsimp only
    | skip
    split
    case isFalse h1 =>
      rw [List.filter_cons_of_neg (by
        simp only [Bool.not_eq_true] at h1
        simp [h1])]
      exact ih _ _ hnd2 herr2 hcall2 hmax hwin hmaxc
    case isTrue h1 =>
      split
      case isTrue h2 =>
        rw [List.filter_cons_of_neg (by
          rw [hecid, hmax] at h2
          simp [h2])]
        exact ih _ _ hnd2 herr2 hcall2 hmax hwin hmaxc
      case isFalse h2 =>
        rw [hecid, hmax] at h2
        split
        case isTrue h3 =>
          split
          case isTrue h4 =>
            rw [hccid, hwin, hmaxc] at h4
            rw [List.filter_cons_of_neg (by simp [h1, h2, h4])]
            exact ih _ _ hnd2 (by
                intro i hi
                exact herr2 i hi)
              (by
                intro i hi
                first
                | dsimp only
                | skip
                rw [ilook_iset_ne _ _ _ _ (hne i hi)]
                exact hcall2 i hi)
              hmax hwin hmaxc
          case isFalse h4 =>
            rw [hccid, hwin, hmaxc] at h4
            rw [List.filter_cons_of_pos (by simp [h1, h2, h4])]
            first
            | dsimp only
            | skip
            rw [List.map_cons]
            split
            case isTrue h5 =>
              dsimp only
              refine congrArg (List.cons id) (ih _ _ hnd2 ?_ ?_ hmax hwin hmaxc)
              · intro i hi
                dsimp only
                rw [ilook_iset_ne _ _ _ _ (hne i hi)]
                exact herr2 i hi
              · intro i hi
                dsimp only
                rw [ilook_iset_ne _ _ _ _ (hne i hi), ilook_iset_ne _ _ _ _ (hne i hi)]
                exact hcall2 i hi
            case isFalse h5 =>
              dsimp only
              refine congrArg (List.cons id) (ih _ _ hnd2 ?_ ?_ hmax hwin hmaxc)
              · intro i hi
                exact herr2 i hi
              · intro i hi
                dsimp only
                rw [ilook_iset_ne _ _ _ _ (hne i hi), ilook_iset_ne _ _ _ _ (hne i hi)]
                exact hcall2 i hi
        case isFalse h3 =>
          have hnone : ilook s.watcherCallCounts id = none :=
            Option.not_isSome_iff_eq_none.mp (by simpa using h3)
          have hnone0 : ilook s₀.watcherCallCounts id = none := by
            rw [← hccid]
            exact hnone
          split
          case isTrue h4 =>
            rw [ilook_iset_self] at h4
            rw [hwin, hmaxc] at h4
            simp at h4
            rw [List.filter_cons_of_neg (by simp [h1, h2, hnone0, h4])]
            exact ih _ _ hnd2 (by
                intro i hi
                exact herr2 i hi)
              (by
                intro i hi
                first
                | dsimp only
                | skip
                rw [ilook_iset_ne _ _ _ _ (hne i hi), ilook_iset_ne _ _ _ _ (hne i hi)]
                exact hcall2 i hi)
              hmax hwin hmaxc
          case isFalse h4 =>
            rw [ilook_iset_self] at h4
            rw [hwin, hmaxc] at h4
            simp at h4
            rw [List.filter_cons_of_pos (by
              simp [h1, h2, hnone0]
              omega)]
            first
            | dsimp only
            | skip
            rw [List.map_cons]
            split
            case isTrue h5 =>
              dsimp only
              refine congrArg (List.cons id) (ih _ _ hnd2 ?_ ?_ hmax hwin hmaxc)
              · intro i hi
                dsimp only
                rw [ilook_iset_ne _ _ _ _ (hne i hi)]
                exact herr2 i hi
              · intro i hi
                dsimp only
                rw [ilook_iset_ne _ _ _ _ (hne i hi), ilook_iset_ne _ _ _ _ (hne i hi),
                  ilook_iset_ne _ _ _ _ (hne i hi)]
                exact hcall2 i hi
            case isFalse h5 =>
              dsimp only
              refine congrArg (List.cons id) (ih _ _ hnd2 ?_ ?_ hmax hwin hmaxc)
              · intro i hi
                exact herr2 i hi
              · intro i hi
                dsimp only
                rw [ilook_iset_ne _ _ _ _ (hne i hi), ilook_iset_ne _ _ _ _ (hne i hi),
                  ilook_iset_ne _ _ _ _ (hne i hi)]
                exact hcall2 i hi

/-- Claim C6: for every fan-out (with the registered ids distinct, as a
`Map`'s keys are), (1) which watchers get invoked is given by a closed form
that does not mention which callbacks throw — so a throwing callback neither
escapes `notify` nor affects any other watcher's invocation; (2) the
`'error'` events are exactly the throwing invocations, in order; (3) a
throwing invocation bumps exactly its own cumulative error count by one;
(4) a watcher at or past `maxErrorsBeforeDisable` is silently skipped — not
invoked, no event; and (5) error counts never decrease, so once disabled a
watcher stays skipped on all later notifies.  (The code counts cumulative —
not consecutive — errors; 10 consecutive throwing invocations still reach
the threshold, so the claimed skip follows.) -/
theorem c6_watcher_isolation (s : WMgr) (now : ℤ) (key : String)
    (crash : Nat → Bool) (hnd : (s.watchers.map Prod.fst).Nodup) :
    ((s.notify now key crash).2.1 =
      (s.watchers.filter fun p => p.2 key &&
        !(decide (WMgr.errCount s p.1 ≥ s.maxErrorsBeforeDisable)) &&
        !(decide ((((ilook s.watcherCallCounts p.1).getD ⟨[], now⟩).calls.filter
            (fun t => decide (now - t < s.rateLimitWindow))).length
              ≥ s.maxCallsPerWindow))).map Prod.fst) ∧
    (((s.notify now key crash).2.2).map ErrEvent.watcherId =
      ((s.notify now key crash).2.1).filter (fun id => crash id)) ∧
    (∀ j, WMgr.errCount (s.notify now key crash).1 j =
      (if j ∈ (s.notify now key crash).2.1 ∧ crash j = true
       then s.errCount j + 1 else s.errCount j)) ∧
    (∀ j, s.maxErrorsBeforeDisable ≤ s.errCount j →
      j ∉ (s.notify now key crash).2.1 ∧
      ∀ ev ∈ (s.notify now key crash).2.2, ev.watcherId ≠ j) ∧
    (∀ j, s.errCount j ≤ WMgr.errCount (s.notify now key crash).1 j) :=
  ⟨notifyGo_invocations_closed now key crash s.watchers s s hnd
      (fun _ _ => rfl) (fun _ _ => rfl) rfl rfl rfl,
   notifyGo_events now key crash s.watchers s,
   fun j => notifyGo_errCount_eq now key crash s.watchers s j hnd,
   fun j hd => notifyGo_disabled_skip now key crash s.watchers s j hd,
   fun j => notifyGo_errCount_mono now key crash s.watchers s j⟩

theorem c6_watcher_isolation_witness :
    ((WMgr.notify ⟨[(1, fun _ => true)], [], [], 10, 1000, 1000⟩ 0 "k"
        (fun _ => true)).2.2).map ErrEvent.watcherId =
      ((WMgr.notify ⟨[(1, fun _ => true)], [], [], 10, 1000, 1000⟩ 0 "k"
        (fun _ => true)).2.1).filter (fun id => (fun _ => true : Nat → Bool) id) :=
  (c6_watcher_isolation ⟨[(1, fun _ => true)], [], [], 10, 1000, 1000⟩ 0 "k"
    (fun _ => true) (by simp)).2.1

/-! ### Platform built-ins and the value-level operations layer

`src/utils/errors.js` defines the error classes; `src/utils/helpers.js` the
key/value validators; the operations module of `src/quantum.js` the
value-level reads and writes.  The backend (`db.getValue`/`db.setValue`) is
modelled value-level as an association list — the serialisation layer in
between is treated separately with the Serializer.  ECMAScript built-ins the
repository calls but does not define (Unicode NFC, `Number`/object
`toString`, `ToNumber` of strings, `Date` ISO conversion, base64,
`BigInt` decimal text) are fields of `Platform`. -/

/-- The `QuantumError` subclasses of `src/utils/errors.js` that the modelled
operations can raise. -/
inductive JsError where
  | invalidKey (msg : String)
  | invalidValue (msg : String)
  | notArray
  | invalidNumber (msg : String)
  | readError (msg : String)
  | writeError (msg : String)
  | transactionError (msg : String)
deriving DecidableEq

/-- An ECMAScript numeric value (`number`): finite, `NaN` or an infinity. -/
inductive NumV where
  | fin (q : ℚ)
  | nan
  | inf
  | ninf
deriving DecidableEq

/-- The environment-supplied built-ins.  `strToNum` is `ToNumber` on
strings, `objToStr` the `ToPrimitive`+`ToString` path for non-primitive
values (whose exact result can depend on user-defined `toString`). -/
structure Platform where
  nfc : String → String
  numToStr : ℚ → String
  strToNum : String → NumV
  objToStr : JSValue → String
  dateToISO : Int → String
  parseDateMs : String → Option Int
  b64enc : List Nat → String
  b64dec : String → List Nat
  bigToStr : Int → String
  parseBig : String → Option Int

open JSValue

/-- A JavaScript whitespace character (the set `String.prototype.trim`
strips): tab through carriage return, space, NBSP, BOM and the Unicode
space separators. -/
def isJsWs (c : Char) : Bool :=
  (9 ≤ c.toNat && c.toNat ≤ 13) || c.toNat = 32 || c.toNat = 0xA0 ||
  c.toNat = 0xFEFF || c.toNat = 0x1680 ||
  (0x2000 ≤ c.toNat && c.toNat ≤ 0x200A) ||
  c.toNat = 0x2028 || c.toNat = 0x2029 || c.toNat = 0x202F ||
  c.toNat = 0x205F || c.toNat = 0x3000

/-- `validateKey` (`src/utils/helpers.js` lines 3–29).  `!key.trim()` is
the key being all whitespace; the model's strings count code points where
JavaScript's `.length` counts UTF-16 units — the concrete keys used below
are ASCII, where the two agree. -/
def validateKey (P : Platform) (key : String) : Except JsError Unit :=
  if key.data.all isJsWs then
    .error (.invalidKey "Key must be a non-empty string")
  else if P.nfc key ≠ key then
    .error (.invalidKey "Key must be in Unicode NFC normalized form")
  else if key.data.any (fun c => c = '"' || c = '\'' || c = ';' || c = '\\' ||
      c = '/' || c.toNat < 0x20 || c.toNat = 0x7F) then
    .error (.invalidKey
      "Key contains invalid characters (quotes, slashes, null bytes, or control characters)")
  else if key.length > 256 then
    .error (.invalidKey "Key is too long (max 256 chars)")
  else if key.data.any (fun c => (0xFDD0 ≤ c.toNat && c.toNat ≤ 0xFDEF) ||
      (c.toNat &&& 0xFFFF) ≥ 0xFFFE) then
    .error (.invalidKey "Key contains invalid Unicode code points")
  else
    .ok ()

/-- `validateValue` (`src/utils/helpers.js` lines 31–43). -/
def validateValue : JSValue → Except JsError Unit
  | vundef => .error (.invalidValue "Value cannot be undefined")
  | vfunc _ => .error (.invalidValue "Value cannot be a function")
  | vsymbol _ => .error (.invalidValue "Value cannot be a symbol")
  | _ => .ok ()

/-- `v === undefined`, as a boolean. -/
def isUndef : JSValue → Bool
  | JSValue.vundef => true
  | _ => false

/-- `ToNumber` on the modelled values.  A `bigint` operand would throw a
`TypeError` in a numeric `+`/`-` and object operands go through
`ToPrimitive` first; neither fragment is exercised by any theorem below, and
both fall to `nan` here. -/
def toNumber (P : Platform) : JSValue → NumV
  | vnum q => .fin q
  | vnan => .nan
  | vinf => .inf
  | vninf => .ninf
  | vbool b => .fin (if b then 1 else 0)
  | vnull => .fin 0
  | vundef => .nan
  | vstr s => P.strToNum s
  | _ => .nan

/-- `ToString` on primitives; non-primitives defer to the platform. -/
def jsToStr (P : Platform) : JSValue → String
  | vstr s => s
  | vnum q => P.numToStr q
  | vnan => "NaN"
  | vinf => "Infinity"
  | vninf => "-Infinity"
  | vbool b => if b then "true" else "false"
  | vnull => "null"
  | vundef => "undefined"
  | vbigint n => P.bigToStr n
  | v => P.objToStr v

/-- IEEE-ideal addition on `number`s. -/
def numvAdd : NumV → NumV → NumV
  | .fin a, .fin b => .fin (a + b)
  | .nan, _ => .nan
  | _, .nan => .nan
  | .inf, .ninf => .nan
  | .ninf, .inf => .nan
  | .inf, _ => .inf
  | _, .inf => .inf
  | .ninf, _ => .ninf
  | _, .ninf => .ninf

/-- IEEE-ideal subtraction on `number`s. -/
def numvSub : NumV → NumV → NumV
  | .fin a, .fin b => .fin (a - b)
  | .nan, _ => .nan
  | _, .nan => .nan
  | .inf, .inf => .nan
  | .ninf, .ninf => .nan
  | .inf, _ => .inf
  | _, .inf => .ninf
  | .ninf, _ => .ninf
  | _, .ninf => .inf

/-- A `NumV` as a JavaScript value. -/
def NumV.toJS : NumV → JSValue
  | .fin q => vnum q
  | .nan => vnan
  | .inf => vinf
  | .ninf => vninf

/-- ECMAScript `+` on the modelled fragment: a string operand concatenates,
otherwise both operands convert with `ToNumber` and add. -/
def jsAdd (P : Platform) (a b : JSValue) : JSValue :=
  match a, b with
  | vstr s, t => vstr (s ++ jsToStr P t)
  | t, vstr s => vstr (jsToStr P t ++ s)
  | a, b => (numvAdd (toNumber P a) (toNumber P b)).toJS

/-- ECMAScript `-`: always numeric. -/
def jsSub (P : Platform) (a b : JSValue) : JSValue :=
  (numvSub (toNumber P a) (toNumber P b)).toJS

/-- `db.getValue(key)` value-level: `undefined` when the key is absent. -/
def dbget (db : List (String × JSValue)) (key : String) : JSValue :=
  (aget db key).getD vundef

/-- `operations.get(db, key, null)` (`src/quantum.js` lines 1723–1739). -/
def opGet (P : Platform) (db : List (String × JSValue)) (key : String) :
    Except JsError JSValue :=
  (validateKey P key).bind fun _ => .ok (dbget db key)

/-- `operations.set(db, key, value, null)` (lines 1748–1760). -/
def opSet (P : Platform) (db : List (String × JSValue)) (key : String)
    (value : JSValue) : Except JsError (List (String × JSValue)) :=
  (validateKey P key).bind fun _ =>
  (validateValue value).bind fun _ =>
  .ok (aset db key value)

/-- `operations.push(db, key, value, null)` (lines 1769–1781): note the
non-array current value — stored data included — is silently replaced by
`[]` before the append. -/
def opPush (P : Platform) (db : List (String × JSValue)) (key : String)
    (value : JSValue) : Except JsError (List (String × JSValue)) :=
  (validateKey P key).bind fun _ =>
  (validateValue value).bind fun _ =>
  (opGet P db key).bind fun current =>
  let arr := match current with
    | varr l => l
    | _ => []
  opSet P db key (varr (arr ++ [value]))

/-- `operations.add(db, key, amount, null)` (lines 1907–1925), returning the
new value and the new backend. -/
def opAdd (P : Platform) (db : List (String × JSValue)) (key : String)
    (amount : JSValue) : Except JsError (JSValue × List (String × JSValue)) :=
  (validateKey P key).bind fun _ =>
  if isFiniteNumber amount = false then
    .error (.invalidNumber "Amount must be a finite number")
  else
    (opGet P db key).bind fun current =>
    if isUndef current = false ∧ isNumber current = false then
      .error (.invalidNumber "Current value must be a number")
    else
      let newValue := jsAdd P (jsOr current (vnum 0)) amount
      (opSet P db key newValue).bind fun db' => .ok (newValue, db')

/-- `operations.subtract(db, key, amount, null)` (lines 1934–1952). -/
def opSubtract (P : Platform) (db : List (String × JSValue)) (key : String)
    (amount : JSValue) : Except JsError (JSValue × List (String × JSValue)) :=
  (validateKey P key).bind fun _ =>
  if isFiniteNumber amount = false then
    .error (.invalidNumber "Amount must be a finite number")
  else
    (opGet P db key).bind fun current =>
    if isUndef current = false ∧ isNumber current = false then
      .error (.invalidNumber "Current value must be a number")
    else
      let newValue := jsSub P (jsOr current (vnum 0)) amount
      (opSet P db key newValue).bind fun db' => .ok (newValue, db')

/-- `QuantumDB.add` (`src/quantum.js` lines 627–644), cache-disabled
configuration; `batching` selects the `writeBatch` path.  The result is the
returned value, the backend after the write lands, and the watcher event
dispatched.  The batching path performs no validation: it computes
`(current || 0) + amount` with full JavaScript coercion and funnels the
write through `this.set`, whose batch executor calls `db.batchSet`
directly. -/
def qAdd (P : Platform) (batching : Bool) (db : List (String × JSValue))
    (key : String) (amount : JSValue) :
    Except JsError (JSValue × List (String × JSValue) × String) :=
  if batching then
    (opGet P db key).bind fun current =>
    let newValue := jsAdd P (jsOr current (vnum 0)) amount
    .ok (newValue, aset db key newValue, "set")
  else
    (opGet P db key).bind fun _oldValue =>
    (opAdd P db key amount).bind fun r => .ok (r.1, r.2, "add")

/-- `QuantumDB.subtract` (lines 652–669), cache-disabled configuration. -/
def qSubtract (P : Platform) (batching : Bool) (db : List (String × JSValue))
    (key : String) (amount : JSValue) :
    Except JsError (JSValue × List (String × JSValue) × String) :=
  if batching then
    (opGet P db key).bind fun current =>
    let newValue := jsSub P (jsOr current (vnum 0)) amount
    .ok (newValue, aset db key newValue, "set")
  else
    (opGet P db key).bind fun _oldValue =>
    (opSubtract P db key amount).bind fun r => .ok (r.1, r.2, "subtract")

/-- `QuantumDB.push` (`src/quantum.js` lines 507–527), cache-disabled
configuration; the result is the new backend and the watcher event
dispatched. -/
def qPush (P : Platform) (batching : Bool) (db : List (String × JSValue))
    (key : String) (value : JSValue) :
    Except JsError (List (String × JSValue) × String) :=
  (opGet P db key).bind fun oldValue =>
  if batching then
    if isUndef oldValue = false ∧ isArray oldValue = false then
      .error .notArray
    else
      let arr := match oldValue with
        | varr l => l
        | _ => []
      .ok (aset db key (varr (arr ++ [value])), "set")
  else
    (opPush P db key value).bind fun db' => .ok (db', "push")

/-- A concrete platform used to evaluate closed statements: identity NFC
(exact on ASCII), byte-per-character base64, sign-plus-unary decimals.  Only
the properties recorded in `Platform.Faithful` below are ever used in
proofs. -/
def witnessPlatform : Platform where
  nfc := fun s => s
  numToStr := fun _ => ""
  strToNum := fun _ => .nan
  objToStr := fun _ => "[object Object]"
  dateToISO := fun ms => match ms with
    | .ofNat n => "+" ++ String.mk (List.replicate n 'x')
    | .negSucc n => "-" ++ String.mk (List.replicate n 'x')
  parseDateMs := fun s => match s.data with
    | '+' :: rest => some (Int.ofNat rest.length)
    | '-' :: rest => some (Int.negSucc rest.length)
    | _ => none
  b64enc := fun bs => String.mk (bs.map Char.ofNat)
  b64dec := fun s => s.data.map Char.toNat
  bigToStr := fun n => match n with
    | .ofNat m => "+" ++ String.mk (List.replicate m 'x')
    | .negSucc m => "-" ++ String.mk (List.replicate m 'x')
  parseBig := fun s => match s.data with
    | '+' :: rest => some (Int.ofNat rest.length)
    | '-' :: rest => some (Int.negSucc rest.length)
    | _ => none

/-- Claim C7, counterexample: in the batching configuration `add` performs
no validation at all.  With `true` stored at the key (neither a number nor
undefined) the claim demands `InvalidNumberError`; instead the code computes
`(true || 0) + 1`, which JavaScript coerces to `2`, stores it through the
plain `set` path, and dispatches a `set` event rather than `add`. -/
theorem c7_batching_coercion_cex :
    qAdd witnessPlatform true [("k", JSValue.vbool true)] "k" (JSValue.vnum 1) =
      .ok (JSValue.vnum 2, [("k", JSValue.vnum 2)], "set") := by
  have h : (1 : ℚ) + 1 = 2 := by norm_num
  calc qAdd witnessPlatform true [("k", JSValue.vbool true)] "k" (JSValue.vnum 1)
      = .ok (JSValue.vnum (1 + 1), [("k", JSValue.vnum (1 + 1))], "set") := rfl
    _ = .ok (JSValue.vnum 2, [("k", JSValue.vnum 2)], "set") := by rw [h]

/-- Claim C7 (amended): in the non-batching configuration `add` and
`subtract` validate as the claim says — a non-finite amount or a current
value that is neither a number nor undefined raises `InvalidNumberError`
without touching the backend, and otherwise the new number is computed,
stored and returned (with an `add`/`subtract` event).  The batching
configuration skips all of this (see `c7_batching_coercion_cex`). -/
theorem c7_add_validation (P : Platform) (db : List (String × JSValue))
    (key : String) (hk : validateKey P key = .ok ()) :
    (∀ v, isFiniteNumber v = false →
      qAdd P false db key v = .error (.invalidNumber "Amount must be a finite number") ∧
      qSubtract P false db key v =
        .error (.invalidNumber "Amount must be a finite number")) ∧
    (∀ a : ℚ, isUndef (dbget db key) = false → isNumber (dbget db key) = false →
      qAdd P false db key (vnum a) =
        .error (.invalidNumber "Current value must be a number") ∧
      qSubtract P false db key (vnum a) =
        .error (.invalidNumber "Current value must be a number")) ∧
    (∀ a : ℚ, dbget db key = vundef →
      qAdd P false db key (vnum a) =
        .ok (vnum (0 + a), aset db key (vnum (0 + a)), "add") ∧
      qSubtract P false db key (vnum a) =
        .ok (vnum (0 - a), aset db key (vnum (0 - a)), "subtract")) ∧
    (∀ a c : ℚ, dbget db key = vnum c →
      qAdd P false db key (vnum a) =
        .ok (vnum (c + a), aset db key (vnum (c + a)), "add") ∧
      qSubtract P false db key (vnum a) =
        .ok (vnum (c - a), aset db key (vnum (c - a)), "subtract")) := by
  have hfinnum : ∀ a : ℚ, isFiniteNumber (vnum a) = true := fun a => rfl
  refine ⟨?_, ?_, ?_, ?_⟩
  · intro v hfin
    constructor
    · simp [qAdd, opGet, opAdd, hk, hfin, Except.bind]
    · simp [qSubtract, opGet, opSubtract, hk, hfin, Except.bind]
  · intro a hu hn
    constructor
    · simp [qAdd, opGet, opAdd, hk, hfinnum, hu, hn, Except.bind]
    · simp [qSubtract, opGet, opSubtract, hk, hfinnum, hu, hn, Except.bind]
  · intro a hcur
    have hvadd : jsAdd P (jsOr vundef (vnum 0)) (vnum a) = vnum (0 + a) := rfl
    have hvsub : jsSub P (jsOr vundef (vnum 0)) (vnum a) = vnum (0 - a) := rfl
    constructor
    · simp [qAdd, opGet, opAdd, opSet, hk, hfinnum, hcur, hvadd, Except.bind,
        isUndef, isNumber, validateValue]
    · simp [qSubtract, opGet, opSubtract, opSet, hk, hfinnum, hcur, hvsub, Except.bind,
        isUndef, isNumber, validateValue]
  · intro a c hcur
    have hvadd : jsAdd P (jsOr (vnum c) (vnum 0)) (vnum a) = vnum (c + a) := by
      unfold jsOr
      by_cases hc : truthy (vnum c)
      · rw [if_pos hc]
        rfl
      · rw [if_neg hc]
        have hc0 : c = 0 := by
          by_contra hne
          exact hc (by simp [truthy, hne])
        subst hc0
        rfl
    have hvsub : jsSub P (jsOr (vnum c) (vnum 0)) (vnum a) = vnum (c - a) := by
      unfold jsOr
      by_cases hc : truthy (vnum c)
      · rw [if_pos hc]
        rfl
      · rw [if_neg hc]
        have hc0 : c = 0 := by
          by_contra hne
          exact hc (by simp [truthy, hne])
        subst hc0
        rfl
    constructor
    · simp [qAdd, opGet, opAdd, opSet, hk, hfinnum, hcur, hvadd, Except.bind,
        isUndef, isNumber, validateValue]
    · simp [qSubtract, opGet, opSubtract, opSet, hk, hfinnum, hcur, hvsub, Except.bind,
        isUndef, isNumber, validateValue]

theorem c7_add_validation_witness :
    qAdd witnessPlatform false [] "k" (JSValue.vstr "x") =
      .error (.invalidNumber "Amount must be a finite number") ∧
    qAdd witnessPlatform false [] "k" (JSValue.vnum 1) =
      .ok (JSValue.vnum (0 + 1), aset [] "k" (JSValue.vnum (0 + 1)), "add") :=
  ⟨((c7_add_validation witnessPlatform [] "k" rfl).1 (JSValue.vstr "x") rfl).1,
   ((c7_add_validation witnessPlatform [] "k" rfl).2.2.1 1 rfl).1⟩

/-- Claim C8, counterexample: (a) in the non-batching configuration the
operations-layer `push` silently replaces a non-array current value by `[]`
(the claim demands `NotArrayError`): with `5` stored, `push 7` succeeds and
stores `[7]`, discarding the `5`; (b) in the batching configuration the
append is funnelled through `this.set`, so the watcher event dispatched is
`set`, not `push`. -/
theorem c8_push_coercion_cex :
    (qPush witnessPlatform false [("k", JSValue.vnum 5)] "k" (JSValue.vnum 7) =
      .ok ([("k", JSValue.varr [JSValue.vnum 7])], "push")) ∧
    (qPush witnessPlatform true [("k", JSValue.varr [JSValue.vnum 1])] "k"
        (JSValue.vnum 7) =
      .ok ([("k", JSValue.varr [JSValue.vnum 1, JSValue.vnum 7])], "set")) :=
  ⟨rfl, rfl⟩

/-- Claim C8 (amended): the batching path behaves as claimed except for the
event name (it dispatches `set`): non-array, non-undefined current raises
`NotArrayError` before any write, and otherwise the value is appended (to
`[]` when undefined) and stored.  The non-batching path never raises
`NotArrayError`: any non-array current — stored data included — is replaced
by `[]` before the append; it does dispatch `push`. -/
theorem c8_push_validation (P : Platform) (db : List (String × JSValue))
    (key : String) (v : JSValue) (hk : validateKey P key = .ok ())
    (hv : validateValue v = .ok ()) :
    (∀ l, dbget db key = varr l →
      qPush P true db key v = .ok (aset db key (varr (l ++ [v])), "set") ∧
      qPush P false db key v = .ok (aset db key (varr (l ++ [v])), "push")) ∧
    (dbget db key = vundef →
      qPush P true db key v = .ok (aset db key (varr [v]), "set") ∧
      qPush P false db key v = .ok (aset db key (varr [v]), "push")) ∧
    (isArray (dbget db key) = false → isUndef (dbget db key) = false →
      qPush P true db key v = .error .notArray ∧
      qPush P false db key v = .ok (aset db key (varr [v]), "push")) := by
  have hstep : ∀ current arr', dbget db key = current →
      (match current with | varr l => l | _ => ([] : List JSValue)) = arr' →
      qPush P false db key v = .ok (aset db key (varr (arr' ++ [v])), "push") := by
    intro current arr' hcur harr
    have hvv : validateValue (varr (arr' ++ [v])) = .ok () := rfl
    simp [qPush, opGet, opPush, opSet, hk, hv, hcur, harr, hvv, Except.bind]
  refine ⟨?_, ?_, ?_⟩
  · intro l hcur
    refine ⟨?_, hstep _ l hcur rfl⟩
    simp [qPush, opGet, hk, hcur, Except.bind, isArray, isUndef]
  · intro hcur
    refine ⟨?_, hstep _ [] hcur rfl⟩
    simp [qPush, opGet, hk, hcur, Except.bind, isArray, isUndef]
  · intro hna hnu
    have harr : (match dbget db key with
        | varr l => l | _ => ([] : List JSValue)) = [] := by
      cases hdb : dbget db key <;> simp_all [isArray]
    refine ⟨?_, hstep _ [] rfl harr⟩
    simp [qPush, opGet, hk, Except.bind, hna, hnu]

theorem c8_push_validation_witness :
    qPush witnessPlatform true [] "k" (JSValue.vnum 7) =
      .ok (aset [] "k" (JSValue.varr [JSValue.vnum 7]), "set") ∧
    qPush witnessPlatform false [] "k" (JSValue.vnum 7) =
      .ok (aset [] "k" (JSValue.varr [JSValue.vnum 7]), "push") :=
  (c8_push_validation witnessPlatform [] "k" (JSValue.vnum 7) rfl rfl).2.1 rfl

/-! ### The Serializer (src/unnamed/part_001)

`serialize` emits JSON text and `deserialize` begins with `JSON.parse`;
since `JSON.parse ∘ JSON.stringify` is the identity on JSON documents, the
wire form is represented by its JSON tree (`Json`).  `JSON.stringify` of a
plain value is `stringifyVal` (`none` = the call returned `undefined`, an
`error` = it threw on a `bigint`); `JSON.parse`'s reading of a tree as a
value is `parseVal`.  In the `JSValue` tree model a cyclic object graph is
not representable, so `hasCircularReference` is constantly false and the
circular-reference throws are unreachable. -/

/-- A JSON document. -/
inductive Json where
  | jnull
  | jbool (b : Bool)
  | jnum (q : ℚ)
  | jstr (s : String)
  | jarr (elems : List Json)
  | jobj (fields : List (String × Json))

open Json

/-- Array-element collection inside `JSON.stringify`: a thrown error
propagates, an `undefined` element becomes `null`. -/
def exCombineArr : List (Except Unit (Option Json)) → Except Unit (List Json)
  | [] => .ok []
  | .error e :: _ => .error e
  | .ok o :: rest => (exCombineArr rest).map fun js => o.getD jnull :: js

/-- Object-field collection inside `JSON.stringify`: a thrown error
propagates, a field whose value stringifies to `undefined` is dropped. -/
def exCombineObj : List (String × Except Unit (Option Json)) →
    Except Unit (List (String × Json))
  | [] => .ok []
  | (_, .error e) :: _ => .error e
  | (_, .ok none) :: rest => exCombineObj rest
  | (k, .ok (some j)) :: rest => (exCombineObj rest).map fun fs => (k, j) :: fs

/-- `JSON.stringify(v)` as a tree: `toJSON` fires for `Date` (ISO string;
`null` for an invalid date) and `Buffer` (`{type, data}`); `RegExp`, `Set`,
`Map`, `DataView` and `Error` have no own enumerable properties and become
`{}`; numeric typed arrays become index objects; `NaN` and the infinities
become `null`; functions and symbols are `undefined` (dropped in objects,
`null` in arrays); a `bigint` anywhere throws. -/
def stringifyVal (P : Platform) : JSValue → Except Unit (Option Json)
  | vnull => .ok (some jnull)
  | vundef => .ok none
  | vbool b => .ok (some (jbool b))
  | vnum q => .ok (some (jnum q))
  | vnan => .ok (some jnull)
  | vinf => .ok (some jnull)
  | vninf => .ok (some jnull)
  | vstr s => .ok (some (jstr s))
  | vdate (some t) => .ok (some (jstr (P.dateToISO t)))
  | vdate none => .ok (some jnull)
  | vregex _ _ => .ok (some (jobj []))
  | vset _ => .ok (some (jobj []))
  | vmap _ => .ok (some (jobj []))
  | vbuf bytes => .ok (some (jobj [("type", jstr "Buffer"),
      ("data", jarr (bytes.map fun b => jnum b))]))
  | vdataview _ => .ok (some (jobj []))
  | vtyped _ elems => .ok (some (jobj (elems.enum.map fun p =>
      (toString p.1, jnum p.2))))
  | vtypedBig _ elems =>
    if elems.isEmpty then .ok (some (jobj [])) else .error ()
  | vbigint _ => .error ()
  | verror _ _ _ => .ok (some (jobj []))
  | vfunc _ => .ok none
  | vsymbol _ => .ok none
  | varr l =>
    (exCombineArr (l.attach.map fun p => stringifyVal P p.1)).map
      fun js => some (jarr js)
  | vobj fields =>
    (exCombineObj (fields.attach.map fun p => (p.1.1, stringifyVal P p.1.2))).map
      fun fs => some (jobj fs)
termination_by v => sizeOf v
decreasing_by
  · have := List.sizeOf_lt_of_mem p.2
    simp only [JSValue.varr.sizeOf_spec]
    omega
  · have h1 := List.sizeOf_lt_of_mem p.2
    have h2 : sizeOf p.1.2 < sizeOf p.1 := by
      obtain ⟨a, b⟩ := p.1
      simp only [Prod.mk.sizeOf_spec]
      omega
    simp only [JSValue.vobj.sizeOf_spec]
    omega

/-- `JSON.parse`'s reading of a document as a value. -/
def parseVal : Json → JSValue
  | jnull => vnull
  | jbool b => vbool b
  | jnum q => vnum q
  | jstr s => vstr s
  | jarr l => varr (l.attach.map fun p => parseVal p.1)
  | jobj fields => vobj (fields.attach.map fun p => (p.1.1, parseVal p.1.2))
termination_by j => sizeOf j
decreasing_by
  · have := List.sizeOf_lt_of_mem p.2
    simp only [Json.jarr.sizeOf_spec]
    omega
  · have h1 := List.sizeOf_lt_of_mem p.2
    have h2 : sizeOf p.1.2 < sizeOf p.1 := by
      obtain ⟨a, b⟩ := p.1
      simp only [Prod.mk.sizeOf_spec]
      omega
    simp only [Json.jobj.sizeOf_spec]
    omega

/-- The JSON text of a document (quote and backslash escaped; no theorem
inspects this text — it only stands in for the raw string the lenient
`deserialize` catch branch returns). -/
def jsonPrint (P : Platform) : Json → String
  | jnull => "null"
  | jbool b => if b then "true" else "false"
  | jnum q => P.numToStr q
  | jstr s => "\"" ++ String.mk (s.data.flatMap fun c =>
      if c = '"' then ['\\', '"'] else if c = '\\' then ['\\', '\\'] else [c]) ++ "\""
  | jarr l => "[" ++ String.intercalate ","
      (l.attach.map fun p => jsonPrint P p.1) ++ "]"
  | jobj fields => "\x7b" ++ String.intercalate ","
      (fields.attach.map fun p =>
        "\"" ++ p.1.1 ++ "\":" ++ jsonPrint P p.1.2) ++ "\x7d"
termination_by j => sizeOf j
decreasing_by
  · have := List.sizeOf_lt_of_mem p.2
    simp only [Json.jarr.sizeOf_spec]
    omega
  · have h1 := List.sizeOf_lt_of_mem p.2
    have h2 : sizeOf p.1.2 < sizeOf p.1 := by
      obtain ⟨a, b⟩ := p.1
      simp only [Prod.mk.sizeOf_spec]
      omega
    simp only [Json.jobj.sizeOf_spec]
    omega

/-- The `constructor.name` of each numeric typed-array kind. -/
def TypedKind.jsName : TypedKind → String
  | .int8 => "Int8Array"
  | .uint8 => "Uint8Array"
  | .uint8c => "Uint8ClampedArray"
  | .int16 => "Int16Array"
  | .uint16 => "Uint16Array"
  | .int32 => "Int32Array"
  | .uint32 => "Uint32Array"
  | .float32 => "Float32Array"
  | .float64 => "Float64Array"

/-- The numeric entries of `deserialize`'s `typedArrayMap`. -/
def kindOfName (s : String) : Option TypedKind :=
  if s = "Int8Array" then some .int8
  else if s = "Uint8Array" then some .uint8
  else if s = "Uint8ClampedArray" then some .uint8c
  else if s = "Int16Array" then some .int16
  else if s = "Uint16Array" then some .uint16
  else if s = "Int32Array" then some .int32
  else if s = "Uint32Array" then some .uint32
  else if s = "Float32Array" then some .float32
  else if s = "Float64Array" then some .float64
  else none

/-- `Serializer.serialize` (src/unnamed/part_001 lines 7–102), producing the
wire document.  Top-level recognized types get a `__type` wrapper; anything
else falls through to plain `JSON.stringify`, so recognized values *nested*
inside plain arrays/objects (or inside a `Set`/`Map` wrapper's contents) are
flattened by JSON with no tag.  A nested `bigint` makes `JSON.stringify`
throw a `TypeError`, which `serialize` does not convert. -/
def serialize (P : Platform) : JSValue → Except String Json
  | vnull => .ok (jobj [("__type", jstr "null")])
  | vundef => .ok (jobj [("__type", jstr "undefined")])
  | vfunc _ => .error "Functions cannot be serialized"
  | vsymbol _ => .error "Symbols cannot be serialized"
  | verror n m st => .ok (jobj [("__type", jstr "Error"), ("name", jstr n),
      ("message", jstr m), ("stack", jstr st)])
  | vdate none => .error "Invalid Date object"
  | vdate (some t) => .ok (jobj [("__type", jstr "Date"),
      ("value", jstr (P.dateToISO t))])
  | vnan => .ok (jobj [("__type", jstr "NaN")])
  | vinf => .ok (jobj [("__type", jstr "Infinity")])
  | vninf => .ok (jobj [("__type", jstr "-Infinity")])
  | vregex src flags => .ok (jobj [("__type", jstr "RegExp"),
      ("source", jstr src), ("flags", jstr flags)])
  | vset elems =>
    match exCombineArr (elems.map (stringifyVal P)) with
    | .ok js => .ok (jobj [("__type", jstr "Set"), ("value", jarr js)])
    | .error _ => .error "Do not know how to serialize a BigInt"
  | vmap entries =>
    match exCombineArr (entries.map fun p =>
        (stringifyVal P p.1).bind fun ko =>
        (stringifyVal P p.2).map fun vo =>
          some (jarr [ko.getD jnull, vo.getD jnull])) with
    | .ok js => .ok (jobj [("__type", jstr "Map"), ("value", jarr js)])
    | .error _ => .error "Do not know how to serialize a BigInt"
  | vbuf bytes => .ok (jobj [("__type", jstr "Buffer"),
      ("value", jstr (P.b64enc bytes))])
  | vdataview bytes => .ok (jobj [("__type", jstr "DataView"),
      ("value", jstr (P.b64enc bytes))])
  | vtyped kind elems => .ok (jobj [("__type", jstr "TypedArray"),
      ("arrayType", jstr kind.jsName), ("value", jarr (elems.map fun q => jnum q))])
  | vtypedBig sg elems =>
    if elems.isEmpty then
      .ok (jobj [("__type", jstr "TypedArray"),
        ("arrayType", jstr (if sg then "BigInt64Array" else "BigUint64Array")),
        ("value", jarr [])])
    else .error "Do not know how to serialize a BigInt"
  | vbigint n => .ok (jobj [("__type", jstr "BigInt"),
      ("value", jstr (P.bigToStr n))])
  | v =>
    match stringifyVal P v with
    | .ok (some j) => .ok j
    | .ok none => .ok jnull
    | .error _ => .error "Do not know how to serialize a BigInt"

/-- A field as a string, `""` standing in for an absent or non-string
property (only ever hit on hand-crafted wires, never on `serialize`
output). -/
def getStr (fields : List (String × Json)) (k : String) : String :=
  match aget fields k with
  | some (jstr s) => s
  | _ => ""

/-- One `Map` entry from its wire form (`[k, v]`; JavaScript tolerates
missing components, and throws — caught upstream — on a non-object
entry). -/
def mapEntryParse : Json → Option (JSValue × JSValue)
  | jarr [] => some (vundef, vundef)
  | jarr [a] => some (parseVal a, vundef)
  | jarr (a :: b :: _) => some (parseVal a, parseVal b)
  | _ => none

def mapEntriesParse : List Json → Option (List (JSValue × JSValue))
  | [] => some []
  | j :: rest => (mapEntryParse j).bind fun p =>
      (mapEntriesParse rest).map fun ps => p :: ps

/-- `Serializer.deserialize` (src/unnamed/part_001 lines 139–206) on a
parsed document; the catch branch that returns the raw input string is
`vstr (jsonPrint P j)`.  Only the top-level object's `__type` is
interpreted; nested objects pass through `parseVal` untouched.  In-range
element conversion of a reconstructed typed array is the identity and
modelled as such (out-of-range wrapping only arises on hand-crafted
wires). -/
def deserialize (P : Platform) (j : Json) : JSValue :=
  match j with
  | jobj fields =>
    match aget fields "__type" with
    | some (jstr tag) =>
      if tag = "null" then vnull
      else if tag = "undefined" then vundef
      else if tag = "NaN" then vnan
      else if tag = "Infinity" then vinf
      else if tag = "-Infinity" then vninf
      else if tag = "Error" then
        verror (getStr fields "name") (getStr fields "message") (getStr fields "stack")
      else if tag = "Date" then
        match aget fields "value" with
        | some (jstr s) => vdate (P.parseDateMs s)
        | _ => vdate none
      else if tag = "RegExp" then
        vregex (getStr fields "source") (getStr fields "flags")
      else if tag = "Set" then
        match aget fields "value" with
        | some (jarr l) => vset (l.map parseVal)
        | some (jstr s) => vset (s.data.map fun c => vstr (String.mk [c]))
        | none => vset []
        | _ => vstr (jsonPrint P j)
      else if tag = "Map" then
        match aget fields "value" with
        | some (jarr l) =>
          match mapEntriesParse l with
          | some entries => vmap entries
          | none => vstr (jsonPrint P j)
        | none => vmap []
        | _ => vstr (jsonPrint P j)
      else if tag = "Buffer" then
        match aget fields "value" with
        | some (jstr s) => vbuf (P.b64dec s)
        | _ => vstr (jsonPrint P j)
      else if tag = "DataView" then
        match aget fields "value" with
        | some (jstr s) => vdataview (P.b64dec s)
        | _ => vstr (jsonPrint P j)
      else if tag = "TypedArray" then
        match aget fields "arrayType" with
        | some (jstr name) =>
          if name = "BigInt64Array" ∨ name = "BigUint64Array" then
            match aget fields "value" with
            | some (jarr []) => vtypedBig (name = "BigInt64Array") []
            | _ => vstr (jsonPrint P j)
          else
            match kindOfName name with
            | some kind =>
              match aget fields "value" with
              | some (jarr l) => vtyped kind (l.map fun x =>
                  match x with
                  | jnum q => q
                  | _ => 0)
              | _ => vstr (jsonPrint P j)
            | none =>
              match aget fields "value" with
              | some w => parseVal w
              | none => vundef
        | _ =>
          match aget fields "value" with
          | some w => parseVal w
          | none => vundef
      else if tag = "BigInt" then
        match aget fields "value" with
        | some (jstr s) =>
          match P.parseBig s with
          | some n => vbigint n
          | none => vstr (jsonPrint P j)
        | some (jnum q) =>
          if q.den = 1 then vbigint q.num else vstr (jsonPrint P j)
        | _ => vstr (jsonPrint P j)
      else parseVal j
    | some _ => parseVal j
    | none => parseVal j
  | _ => parseVal j

/-- Values on which `JSON.stringify` / `JSON.parse` is the identity: the
JSON-native constructors, recursively.  Everything the serializer special
cases (`undefined`, dates, sets, …) is impure: nested under a plain array or
object it is flattened by `JSON.stringify` and will not round-trip. -/
def JsonPure : JSValue → Bool
  | vnull => true
  | vbool _ => true
  | vnum _ => true
  | vstr _ => true
  | varr l => l.attach.all fun p => JsonPure p.1
  | vobj fields => fields.attach.all fun p => JsonPure p.1.2
  | _ => false
termination_by v => sizeOf v
decreasing_by
  · have := List.sizeOf_lt_of_mem p.2
    simp only [JSValue.varr.sizeOf_spec]
    omega
  · have h1 := List.sizeOf_lt_of_mem p.2
    have h2 : sizeOf p.1.2 < sizeOf p.1 := by
      obtain ⟨a, b⟩ := p.1
      simp only [Prod.mk.sizeOf_spec]
      omega
    simp only [JSValue.vobj.sizeOf_spec]
    omega

theorem all_attach {α : Type} (l : List α) (f : α → Bool) :
    (l.attach.all fun p => f p.1) = l.all f := by
  rw [Bool.eq_iff_iff, List.all_eq_true, List.all_eq_true]
  constructor
  · intro h x hx
    exact h ⟨x, hx⟩ (List.mem_attach _ _)
  · intro h p _
    exact h p.1 p.2

theorem JsonPure_varr (l : List JSValue) :
    JsonPure (varr l) = l.all JsonPure := by
  rw [JsonPure, all_attach]

theorem JsonPure_vobj (fields : List (String × JSValue)) :
    JsonPure (vobj fields) = fields.all fun p => JsonPure p.2 := by
  rw [JsonPure, Bool.eq_iff_iff, List.all_eq_true, List.all_eq_true]
  constructor
  · intro h p hp
    exact h ⟨p, hp⟩ (List.mem_attach _ _)
  · intro h q _
    exact h q.1 q.2

/-- The element constraint a numeric typed array imposes: integer kinds hold
integers in the kind's range (values outside it could not occur in an actual
typed array); the float kinds are modelled as exact. -/
def kindRangeOk : TypedKind → ℚ → Bool
  | .int8, q => q.den = 1 && -128 ≤ q.num && q.num ≤ 127
  | .uint8, q => q.den = 1 && 0 ≤ q.num && q.num ≤ 255
  | .uint8c, q => q.den = 1 && 0 ≤ q.num && q.num ≤ 255
  | .int16, q => q.den = 1 && -32768 ≤ q.num && q.num ≤ 32767
  | .uint16, q => q.den = 1 && 0 ≤ q.num && q.num ≤ 65535
  | .int32, q => q.den = 1 && -2147483648 ≤ q.num && q.num ≤ 2147483647
  | .uint32, q => q.den = 1 && 0 ≤ q.num && q.num ≤ 4294967295
  | .float32, _ => true
  | .float64, _ => true

def typedElemsOk (k : TypedKind) (elems : List ℚ) : Bool :=
  elems.all (kindRangeOk k)

/-- The top-level values the serializer round-trips.  Each recognized type is
admissible when its *contents* are JSON-pure (contents pass through plain
`JSON.stringify`), dates carry an actual time value (integral milliseconds
within ECMAScript's ±8,640,000,000,000,000 range), byte carriers hold bytes,
numeric typed arrays hold in-range elements, big-int typed arrays are empty
(a nonempty one makes `JSON.stringify` throw on a `BigInt`), and a plain
object does not itself use the reserved `__type` key. -/
def admissibleTop : JSValue → Bool
  | vnull => true
  | vundef => true
  | vbool _ => true
  | vnum _ => true
  | vnan => true
  | vinf => true
  | vninf => true
  | vstr _ => true
  | varr l => l.all JsonPure
  | vobj fields => fields.all fun p => p.1 ≠ "__type" && JsonPure p.2
  | vdate (some t) => -8640000000000000 ≤ t && t ≤ 8640000000000000
  | vdate none => false
  | vregex _ _ => true
  | vset elems => elems.all JsonPure
  | vmap entries => entries.all fun p => JsonPure p.1 && JsonPure p.2
  | vbuf bytes => bytes.all fun b => b < 256
  | vtyped k elems => typedElemsOk k elems
  | vtypedBig _ elems => elems.isEmpty
  | vdataview bytes => bytes.all fun b => b < 256
  | vbigint _ => true
  | verror _ _ _ => true
  | vfunc _ => false
  | vsymbol _ => false

/-- The platform round-trip facts the actual Node.js built-ins satisfy:
`new Date(d.toISOString())` recovers an in-range time value,
base64 decoding undoes encoding of genuine bytes, and `BigInt(n.toString())`
recovers any integer. -/
structure Platform.Faithful (P : Platform) : Prop where
  date_roundtrip : ∀ t : Int, -8640000000000000 ≤ t → t ≤ 8640000000000000 →
    P.parseDateMs (P.dateToISO t) = some t
  b64_roundtrip : ∀ bs : List Nat, (∀ b ∈ bs, b < 256) →
    P.b64dec (P.b64enc bs) = bs
  big_roundtrip : ∀ n : Int, P.parseBig (P.bigToStr n) = some n

theorem char_toNat_ofNat_of_lt (n : Nat) (h : n < 256) :
    (Char.ofNat n).toNat = n := by
  have hv : n.isValidChar := Or.inl (by omega)
  rw [Char.ofNat, dif_pos hv]
  simp [Char.ofNatAux, Char.toNat, UInt32.toNat]

theorem witnessPlatform_faithful : witnessPlatform.Faithful := by
  refine ⟨?_, ?_, ?_⟩
  · intro t _ _
    cases t with
    | ofNat n =>
      show witnessPlatform.parseDateMs ("+" ++ String.mk (List.replicate n 'x')) = _
      simp [witnessPlatform]
    | negSucc n =>
      show witnessPlatform.parseDateMs ("-" ++ String.mk (List.replicate n 'x')) = _
      simp [witnessPlatform]
  · intro bs h
    show (String.mk (bs.map Char.ofNat)).data.map Char.toNat = bs
    induction bs with
    | nil => rfl
    | cons b rest ih =>
      have hb := char_toNat_ofNat_of_lt b (h b (by simp))
      have hrest : List.map Char.toNat (List.map Char.ofNat rest) = rest :=
        ih fun x hx => h x (by simp [hx])
      show List.map Char.toNat (List.map Char.ofNat (b :: rest)) = b :: rest
      simp only [List.map_cons, hb, hrest]
  · intro n
    cases n with
    | ofNat m =>
      show witnessPlatform.parseBig ("+" ++ String.mk (List.replicate m 'x')) = _
      simp [witnessPlatform]
    | negSucc m =>
      show witnessPlatform.parseBig ("-" ++ String.mk (List.replicate m 'x')) = _
      simp [witnessPlatform]

theorem aget_eq_none_of_all {β : Type} (l : List (String × β)) (k : String)
    (h : ∀ p ∈ l, p.1 ≠ k) : aget l k = none := by
  induction l with
  | nil => rfl
  | cons p rest ih =>
    obtain ⟨k', v⟩ := p
    rw [aget, if_neg (h (k', v) (by simp))]
    exact ih fun q hq => h q (by simp [hq])

theorem kindOfName_jsName (k : TypedKind) :
    kindOfName k.jsName = some k ∧ k.jsName ≠ "BigInt64Array" ∧
      k.jsName ≠ "BigUint64Array" := by
  cases k <;> exact ⟨rfl, by decide, by decide⟩

theorem exCombineArr_of_all (P : Platform) (l : List JSValue)
    (h : ∀ x ∈ l, ∃ j, stringifyVal P x = .ok (some j) ∧ parseVal j = x) :
    ∃ js, exCombineArr (l.map (stringifyVal P)) = .ok js ∧ js.map parseVal = l := by
  induction l with
  | nil => exact ⟨[], rfl, rfl⟩
  | cons x rest ih =>
    obtain ⟨j, hx, hpj⟩ := h x (by simp)
    obtain ⟨js, hrest, hp⟩ := ih fun y hy => h y (by simp [hy])
    refine ⟨j :: js, ?_, by simp [hp, hpj]⟩
    rw [List.map_cons, hx, exCombineArr, hrest]
    rfl

theorem exCombineObj_of_all (P : Platform) (fields : List (String × JSValue))
    (h : ∀ p ∈ fields, ∃ j, stringifyVal P p.2 = .ok (some j) ∧ parseVal j = p.2) :
    ∃ fs, exCombineObj (fields.map fun p => (p.1, stringifyVal P p.2)) = .ok fs ∧
      (fs.map fun q => (q.1, parseVal q.2)) = fields ∧
      fs.map Prod.fst = fields.map Prod.fst := by
  induction fields with
  | nil => exact ⟨[], rfl, rfl, rfl⟩
  | cons p rest ih =>
    obtain ⟨k, v⟩ := p
    obtain ⟨j, hx, hpj⟩ := h (k, v) (by simp)
    obtain ⟨fs, hrest, hp, hkeys⟩ := ih fun q hq => h q (by simp [hq])
    refine ⟨(k, j) :: fs, ?_, by simp [hp, hpj], by simp [hkeys]⟩
    rw [List.map_cons]
    dsimp only at hx ⊢
    rw [hx, exCombineObj, hrest]
    rfl

/-- On JSON-pure values `JSON.stringify` succeeds and `JSON.parse` undoes
it. -/
theorem pure_roundtrip (P : Platform) :
    ∀ n (v : JSValue), sizeOf v = n → JsonPure v = true →
      ∃ j, stringifyVal P v = .ok (some j) ∧ parseVal j = v := by
  intro n
  induction n using Nat.strong_induction_on with
  | _ n ih =>
    intro v hn hv
    cases v with
    | vnull => exact ⟨.jnull, by rw [stringifyVal], by rw [parseVal]⟩
    | vbool b => exact ⟨.jbool b, by rw [stringifyVal], by rw [parseVal]⟩
    | vnum q => exact ⟨.jnum q, by rw [stringifyVal], by rw [parseVal]⟩
    | vstr s => exact ⟨.jstr s, by rw [stringifyVal], by rw [parseVal]⟩
    | varr l =>
      rw [JsonPure_varr, List.all_eq_true] at hv
      obtain ⟨js, hc, hp⟩ := exCombineArr_of_all P l fun x hx =>
        ih (sizeOf x) (by
          subst hn
          have := List.sizeOf_lt_of_mem hx
          simp only [JSValue.varr.sizeOf_spec]
          omega) x rfl (hv x hx)
      refine ⟨.jarr js, ?_, ?_⟩
      · rw [stringifyVal]
        rw [show (l.attach.map fun p => stringifyVal P p.1) =
          l.map (stringifyVal P) from List.attach_map_val l (stringifyVal P)]
        rw [hc]
        rfl
      · rw [parseVal]
        rw [show (js.attach.map fun p => parseVal p.1) =
          js.map parseVal from List.attach_map_val js parseVal]
        rw [hp]
    | vobj fields =>
      rw [JsonPure_vobj, List.all_eq_true] at hv
      obtain ⟨fs, hc, hp, _⟩ := exCombineObj_of_all P fields fun p hp =>
        ih (sizeOf p.2) (by
          subst hn
          have h1 := List.sizeOf_lt_of_mem hp
          have h2 : sizeOf p.2 < sizeOf p := by
            obtain ⟨a, b⟩ := p
            simp only [Prod.mk.sizeOf_spec]
            omega
          simp only [JSValue.vobj.sizeOf_spec]
          omega) p.2 rfl (hv p hp)
      refine ⟨.jobj fs, ?_, ?_⟩
      · rw [stringifyVal]
        rw [show (fields.attach.map fun p => (p.1.1, stringifyVal P p.1.2)) =
          fields.map fun p => (p.1, stringifyVal P p.2) from
          List.attach_map_val fields fun p => (p.1, stringifyVal P p.2)]
        rw [hc]
        rfl
      · rw [parseVal]
        rw [show (fs.attach.map fun p => (p.1.1, parseVal p.1.2)) =
          fs.map fun q => (q.1, parseVal q.2) from
          List.attach_map_val fs fun q => (q.1, parseVal q.2)]
        rw [hp]
    | vundef => simp [JsonPure] at hv
    | vnan => simp [JsonPure] at hv
    | vinf => simp [JsonPure] at hv
    | vninf => simp [JsonPure] at hv
    | vdate ms => simp [JsonPure] at hv
    | vregex s f => simp [JsonPure] at hv
    | vset es => simp [JsonPure] at hv
    | vmap es => simp [JsonPure] at hv
    | vbuf bs => simp [JsonPure] at hv
    | vtyped k es => simp [JsonPure] at hv
    | vtypedBig s es => simp [JsonPure] at hv
    | vdataview bs => simp [JsonPure] at hv
    | vbigint m => simp [JsonPure] at hv
    | verror a b c => simp [JsonPure] at hv
    | vfunc i => simp [JsonPure] at hv
    | vsymbol i => simp [JsonPure] at hv

theorem exCombineMapEntries (P : Platform) (entries : List (JSValue × JSValue))
    (h : ∀ p ∈ entries, JsonPure p.1 = true ∧ JsonPure p.2 = true) :
    ∃ js, exCombineArr (entries.map fun p =>
        (stringifyVal P p.1).bind fun ko =>
        (stringifyVal P p.2).map fun vo =>
          some (jarr [ko.getD jnull, vo.getD jnull])) = .ok js ∧
      mapEntriesParse js = some entries := by
  induction entries with
  | nil => exact ⟨[], rfl, rfl⟩
  | cons p rest ih =>
    obtain ⟨k, v⟩ := p
    obtain ⟨hk, hv⟩ := h (k, v) (by simp)
    obtain ⟨jk, hjk, hpk⟩ := pure_roundtrip P (sizeOf k) k rfl hk
    obtain ⟨jv, hjv, hpv⟩ := pure_roundtrip P (sizeOf v) v rfl hv
    obtain ⟨js, hrest, hp⟩ := ih fun q hq => h q (by simp [hq])
    refine ⟨jarr [jk, jv] :: js, ?_, ?_⟩
    · rw [List.map_cons]
      dsimp only
      rw [hjk, hjv]
      rw [show ((Except.ok (some jk) : Except Unit (Option Json)).bind fun ko =>
          (Except.ok (some jv) : Except Unit (Option Json)).map fun vo =>
            some (jarr [ko.getD jnull, vo.getD jnull])) =
          Except.ok (some (jarr [jk, jv])) from rfl]
      rw [exCombineArr, hrest]
      rfl
    · rw [mapEntriesParse]
      rw [show mapEntryParse (jarr [jk, jv]) =
        some (parseVal jk, parseVal jv) from rfl]
      rw [hpk, hpv, hp]
      rfl

theorem jnum_proj_map (es : List ℚ) :
    ((es.map fun q => jnum q).map fun x =>
      match x with
      | jnum q => q
      | _ => 0) = es := by
  rw [List.map_map]
  have h : es.map ((fun x =>
      match x with
      | jnum q => q
      | _ => 0) ∘ fun q => jnum q) = es.map fun q => q :=
    List.map_congr_left fun a _ => rfl
  rw [h]
  exact List.map_id' es

/-- The stuck normal form of `deserialize` on a `TypedArray` wire whose
constructor name is symbolic. -/
theorem deserialize_typedarr (P : Platform) (name : String) (l : List Json) :
    deserialize P (jobj [("__type", jstr "TypedArray"), ("arrayType", jstr name),
        ("value", jarr l)]) =
      if name = "BigInt64Array" ∨ name = "BigUint64Array" then
        (match aget [(("__type" : String), jstr "TypedArray"), ("arrayType", jstr name),
            ("value", jarr l)] "value" with
         | some (jarr []) => vtypedBig (name = "BigInt64Array") []
         | _ => vstr (jsonPrint P (jobj [("__type", jstr "TypedArray"),
             ("arrayType", jstr name), ("value", jarr l)])))
      else
        match kindOfName name with
        | some kind =>
          (match aget [(("__type" : String), jstr "TypedArray"), ("arrayType", jstr name),
              ("value", jarr l)] "value" with
           | some (jarr l2) => vtyped kind (l2.map fun x =>
               match x with
               | jnum q => q
               | _ => 0)
           | _ => vstr (jsonPrint P (jobj [("__type", jstr "TypedArray"),
               ("arrayType", jstr name), ("value", jarr l)])))
        | none =>
          match aget [(("__type" : String), jstr "TypedArray"), ("arrayType", jstr name),
              ("value", jarr l)] "value" with
          | some w => parseVal w
          | none => vundef := by rfl

theorem deserialize_typed (P : Platform) (k : TypedKind) (elems : List ℚ) :
    deserialize P (jobj [("__type", jstr "TypedArray"),
      ("arrayType", jstr k.jsName),
      ("value", jarr (elems.map fun q => jnum q))]) = vtyped k elems := by
  obtain ⟨h1, h2, h3⟩ := kindOfName_jsName k
  rw [deserialize_typedarr, if_neg (not_or.mpr ⟨h2, h3⟩), h1]
  show vtyped k ((elems.map fun q => jnum q).map fun x =>
    match x with
    | jnum q => q
    | _ => 0) = vtyped k elems
  rw [jnum_proj_map]

/-- Claim C2 (amended): the serializer round-trips every *top-level*
recognized value whose contents are JSON-pure (`admissibleTop`): null,
undefined, NaN, ±Infinity, Error, in-range Date, RegExp, Set/Map of
JSON-pure elements, Buffer, DataView, numeric TypedArray, empty BigInt
typed arrays, BigInt, and plain JSON data without a reserved `__type` key.
Functions, symbols and invalid dates make `serialize` throw — but with
generic `Error` messages, not an `InvalidValue` error class.  Recognized
values *nested* inside plain arrays/objects are not restored (see
`c2_nested_cex`), so the claim's "including such values nested inside
objects and arrays" does not hold, and nested callables do not make
encoding fail. -/
theorem c2_serializer_roundtrip (P : Platform) (hP : P.Faithful) :
    (∀ v, admissibleTop v = true →
      ∃ j, serialize P v = .ok j ∧ deserialize P j = v) ∧
    (∀ i, serialize P (vfunc i) = .error "Functions cannot be serialized") ∧
    (∀ i, serialize P (vsymbol i) = .error "Symbols cannot be serialized") ∧
    serialize P (vdate none) = .error "Invalid Date object" := by
  refine ⟨?_, fun i => rfl, fun i => rfl, rfl⟩
  intro v hv
  cases v with
  | vnull => exact ⟨jobj [("__type", jstr "null")], by rfl, by rfl⟩
  | vundef => exact ⟨jobj [("__type", jstr "undefined")], by rfl, by rfl⟩
  | vnan => exact ⟨jobj [("__type", jstr "NaN")], by rfl, by rfl⟩
  | vinf => exact ⟨jobj [("__type", jstr "Infinity")], by rfl, by rfl⟩
  | vninf => exact ⟨jobj [("__type", jstr "-Infinity")], by rfl, by rfl⟩
  | vregex s f =>
    exact ⟨jobj [("__type", jstr "RegExp"), ("source", jstr s), ("flags", jstr f)],
      by rfl, by rfl⟩
  | verror nm m st =>
    exact ⟨jobj [("__type", jstr "Error"), ("name", jstr nm), ("message", jstr m),
      ("stack", jstr st)], by rfl, by rfl⟩
  | vbool b =>
    refine ⟨jbool b, ?_, ?_⟩
    · rw [serialize, show stringifyVal P (vbool b) = .ok (some (jbool b)) from by
        rw [stringifyVal]]
      all_goals simp
    · show parseVal (jbool b) = vbool b
      rw [parseVal]
  | vnum q =>
    refine ⟨jnum q, ?_, ?_⟩
    · rw [serialize, show stringifyVal P (vnum q) = .ok (some (jnum q)) from by
        rw [stringifyVal]]
      all_goals simp
    · show parseVal (jnum q) = vnum q
      rw [parseVal]
  | vstr s =>
    refine ⟨jstr s, ?_, ?_⟩
    · rw [serialize, show stringifyVal P (vstr s) = .ok (some (jstr s)) from by
        rw [stringifyVal]]
      all_goals simp
    · show parseVal (jstr s) = vstr s
      rw [parseVal]
  | vdate ms =>
    cases ms with
    | none => simp [admissibleTop] at hv
    | some t =>
      simp only [admissibleTop, Bool.and_eq_true, decide_eq_true_eq] at hv
      refine ⟨jobj [("__type", jstr "Date"), ("value", jstr (P.dateToISO t))],
        by rfl, ?_⟩
      have h : deserialize P (jobj [("__type", jstr "Date"),
          ("value", jstr (P.dateToISO t))]) =
          vdate (P.parseDateMs (P.dateToISO t)) := by rfl
      rw [h, hP.date_roundtrip t hv.1 hv.2]
  | vbuf bytes =>
    simp only [admissibleTop, List.all_eq_true, decide_eq_true_eq] at hv
    refine ⟨jobj [("__type", jstr "Buffer"), ("value", jstr (P.b64enc bytes))],
      by rfl, ?_⟩
    have h : deserialize P (jobj [("__type", jstr "Buffer"),
        ("value", jstr (P.b64enc bytes))]) =
        vbuf (P.b64dec (P.b64enc bytes)) := by rfl
    rw [h, hP.b64_roundtrip bytes hv]
  | vdataview bytes =>
    simp only [admissibleTop, List.all_eq_true, decide_eq_true_eq] at hv
    refine ⟨jobj [("__type", jstr "DataView"), ("value", jstr (P.b64enc bytes))],
      by rfl, ?_⟩
    have h : deserialize P (jobj [("__type", jstr "DataView"),
        ("value", jstr (P.b64enc bytes))]) =
        vdataview (P.b64dec (P.b64enc bytes)) := by rfl
    rw [h, hP.b64_roundtrip bytes hv]
  | vbigint n =>
    refine ⟨jobj [("__type", jstr "BigInt"), ("value", jstr (P.bigToStr n))],
      by rfl, ?_⟩
    have h : deserialize P (jobj [("__type", jstr "BigInt"),
        ("value", jstr (P.bigToStr n))]) =
        (match P.parseBig (P.bigToStr n) with
         | some m => vbigint m
         | none => vstr (jsonPrint P (jobj [("__type", jstr "BigInt"),
             ("value", jstr (P.bigToStr n))]))) := by rfl
    rw [hP.big_roundtrip n] at h
    exact h
  | vtyped k elems =>
    exact ⟨jobj [("__type", jstr "TypedArray"), ("arrayType", jstr k.jsName),
      ("value", jarr (elems.map fun q => jnum q))], by rfl,
      deserialize_typed P k elems⟩
  | vtypedBig sg elems =>
    have he : elems = [] := by
      simpa [admissibleTop, List.isEmpty_iff] using hv
    subst he
    cases sg with
    | true =>
      exact ⟨jobj [("__type", jstr "TypedArray"), ("arrayType", jstr "BigInt64Array"),
        ("value", jarr [])], by rfl, by rfl⟩
    | false =>
      exact ⟨jobj [("__type", jstr "TypedArray"), ("arrayType", jstr "BigUint64Array"),
        ("value", jarr [])], by rfl, by rfl⟩
  | vset elems =>
    rw [show admissibleTop (vset elems) = elems.all JsonPure from rfl,
      List.all_eq_true] at hv
    obtain ⟨js, hc, hp⟩ := exCombineArr_of_all P elems fun x hx =>
      pure_roundtrip P (sizeOf x) x rfl (hv x hx)
    refine ⟨jobj [("__type", jstr "Set"), ("value", jarr js)], ?_, ?_⟩
    · rw [serialize, hc]
    · have h : deserialize P (jobj [("__type", jstr "Set"), ("value", jarr js)]) =
        vset (js.map parseVal) := by rfl
      rw [h, hp]
  | vmap entries =>
    have hv' : ∀ p ∈ entries, JsonPure p.1 = true ∧ JsonPure p.2 = true := by
      rw [show admissibleTop (vmap entries) =
        entries.all (fun p => JsonPure p.1 && JsonPure p.2) from rfl,
        List.all_eq_true] at hv
      intro p hp
      have := hv p hp
      simpa only [Bool.and_eq_true] using this
    obtain ⟨js, hc, hp⟩ := exCombineMapEntries P entries hv'
    refine ⟨jobj [("__type", jstr "Map"), ("value", jarr js)], ?_, ?_⟩
    · rw [serialize, hc]
    · have h : deserialize P (jobj [("__type", jstr "Map"), ("value", jarr js)]) =
        (match mapEntriesParse js with
         | some es => vmap es
         | none => vstr (jsonPrint P (jobj [("__type", jstr "Map"),
             ("value", jarr js)]))) := by rfl
      rw [hp] at h
      exact h
  | varr l =>
    rw [show admissibleTop (varr l) = l.all JsonPure from rfl,
      List.all_eq_true] at hv
    obtain ⟨js, hc, hp⟩ := exCombineArr_of_all P l fun x hx =>
      pure_roundtrip P (sizeOf x) x rfl (hv x hx)
    have hs : stringifyVal P (varr l) = .ok (some (jarr js)) := by
      rw [stringifyVal]
      rw [show (l.attach.map fun p => stringifyVal P p.1) =
        l.map (stringifyVal P) from List.attach_map_val l (stringifyVal P)]
      rw [hc]
      rfl
    refine ⟨jarr js, ?_, ?_⟩
    · rw [serialize, hs]
      all_goals simp
    · show parseVal (jarr js) = varr l
      rw [parseVal]
      rw [show (js.attach.map fun p => parseVal p.1) =
        js.map parseVal from List.attach_map_val js parseVal]
      rw [hp]
  | vobj fields =>
    have hv2 : ∀ p ∈ fields, p.1 ≠ "__type" ∧ JsonPure p.2 = true := by
      rw [show admissibleTop (vobj fields) =
        fields.all (fun p => p.1 ≠ "__type" && JsonPure p.2) from rfl,
        List.all_eq_true] at hv
      intro p hp
      have := hv p hp
      simpa only [Bool.and_eq_true, decide_eq_true_eq] using this
    obtain ⟨fs, hc, hp, hkeys⟩ := exCombineObj_of_all P fields fun p hp =>
      pure_roundtrip P (sizeOf p.2) p.2 rfl (hv2 p hp).2
    have hs : stringifyVal P (vobj fields) = .ok (some (jobj fs)) := by
      rw [stringifyVal]
      rw [show (fields.attach.map fun p => (p.1.1, stringifyVal P p.1.2)) =
        fields.map (fun p => (p.1, stringifyVal P p.2)) from
        List.attach_map_val fields fun p => (p.1, stringifyVal P p.2)]
      rw [hc]
      rfl
    have hnone : aget fs "__type" = none := by
      apply aget_eq_none_of_all
      intro q hq
      have hq1 : q.1 ∈ fields.map Prod.fst := by
        rw [← hkeys]
        exact List.mem_map_of_mem Prod.fst hq
      obtain ⟨p, hpm, hpe⟩ := List.mem_map.mp hq1
      rw [← hpe]
      exact (hv2 p hpm).1
    refine ⟨jobj fs, ?_, ?_⟩
    · rw [serialize, hs]
      all_goals simp
    · rw [deserialize, hnone]
      show parseVal (jobj fs) = vobj fields
      rw [parseVal]
      rw [show (fs.attach.map fun p => (p.1.1, parseVal p.1.2)) =
        fs.map (fun q => (q.1, parseVal q.2)) from
        List.attach_map_val fs fun q => (q.1, parseVal q.2)]
      rw [hp]
  | vfunc i => simp [admissibleTop] at hv
  | vsymbol i => simp [admissibleTop] at hv

/-- Claim C2, witness: the round-trip theorem instantiated at the witness
platform on a concrete in-range date. -/
theorem c2_serializer_roundtrip_witness :
    admissibleTop (vdate (some 5)) = true ∧
    ∃ j, serialize witnessPlatform (vdate (some 5)) = .ok j ∧
      deserialize witnessPlatform j = vdate (some 5) :=
  ⟨by decide,
    (c2_serializer_roundtrip witnessPlatform witnessPlatform_faithful).1
      (vdate (some 5)) (by decide)⟩

/-- Claim C2, counterexample to the nested clauses: `[undefined]` encodes
to `[null]` and decodes to `[null]`, not `[undefined]` (no type fidelity for
recognized values nested in a plain array); an array or object holding a
function encodes *without* error (the function is flattened away by
`JSON.stringify`), contradicting "encode fails for every value containing a
callable"; and a plain object that itself uses the reserved `__type` key is
admissible under the claim yet decodes to `null`. -/
theorem c2_nested_cex :
    serialize witnessPlatform (varr [vundef]) = .ok (jarr [jnull]) ∧
    deserialize witnessPlatform (jarr [jnull]) = varr [vnull] ∧
    varr [vnull] ≠ varr [vundef] ∧
    serialize witnessPlatform (varr [vfunc 0]) = .ok (jarr [jnull]) ∧
    serialize witnessPlatform (vobj [("a", vfunc 0)]) = .ok (jobj []) ∧
    serialize witnessPlatform (vobj [("__type", vstr "null")]) =
      .ok (jobj [("__type", jstr "null")]) ∧
    deserialize witnessPlatform (jobj [("__type", jstr "null")]) = vnull := by
  have hundef : stringifyVal witnessPlatform vundef = .ok none := by
    rw [stringifyVal]
  have hfunc : stringifyVal witnessPlatform (vfunc 0) = .ok none := by
    rw [stringifyVal]
  have hnullstr : stringifyVal witnessPlatform (vstr "null") =
      .ok (some (jstr "null")) := by
    rw [stringifyVal]
  refine ⟨?_, ?_, ?_, ?_, ?_, ?_, by rfl⟩
  · have hs : stringifyVal witnessPlatform (varr [vundef]) =
        .ok (some (jarr [jnull])) := by
      rw [stringifyVal]
      rw [show ([vundef].attach.map fun p => stringifyVal witnessPlatform p.1) =
        [vundef].map (stringifyVal witnessPlatform) from List.attach_map_val _ _]
      rw [List.map_cons, List.map_nil, hundef, exCombineArr, exCombineArr]
      rfl
    rw [serialize, hs]
    all_goals simp
  · show parseVal (jarr [jnull]) = varr [vnull]
    rw [parseVal]
    rw [show ([jnull].attach.map fun p => parseVal p.1) =
      [jnull].map parseVal from List.attach_map_val _ _]
    rw [List.map_cons, List.map_nil, show parseVal jnull = vnull from by rw [parseVal]]
  · intro h
    injection h with h1
    injection h1 with h2 h3
    exact JSValue.noConfusion h2
  · have hs : stringifyVal witnessPlatform (varr [vfunc 0]) =
        .ok (some (jarr [jnull])) := by
      rw [stringifyVal]
      rw [show ([vfunc 0].attach.map fun p => stringifyVal witnessPlatform p.1) =
        [vfunc 0].map (stringifyVal witnessPlatform) from List.attach_map_val _ _]
      rw [List.map_cons, List.map_nil, hfunc, exCombineArr, exCombineArr]
      rfl
    rw [serialize, hs]
    all_goals simp
  · have hs : stringifyVal witnessPlatform (vobj [("a", vfunc 0)]) =
        .ok (some (jobj [])) := by
      rw [stringifyVal]
      rw [show ([("a", vfunc 0)].attach.map fun p =>
        (p.1.1, stringifyVal witnessPlatform p.1.2)) =
        [("a", vfunc 0)].map (fun p => (p.1, stringifyVal witnessPlatform p.2)) from
        List.attach_map_val [("a", vfunc 0)]
          fun p => (p.1, stringifyVal witnessPlatform p.2)]
      rw [List.map_cons, List.map_nil]
      dsimp only
      rw [hfunc, exCombineObj, exCombineObj]
      rfl
    rw [serialize, hs]
    all_goals simp
  · have hs : stringifyVal witnessPlatform (vobj [("__type", vstr "null")]) =
        .ok (some (jobj [("__type", jstr "null")])) := by
      rw [stringifyVal]
      rw [show ([("__type", vstr "null")].attach.map fun p =>
        (p.1.1, stringifyVal witnessPlatform p.1.2)) =
        [("__type", vstr "null")].map
          (fun p => (p.1, stringifyVal witnessPlatform p.2)) from
        List.attach_map_val [("__type", vstr "null")]
          fun p => (p.1, stringifyVal witnessPlatform p.2)]
      rw [List.map_cons, List.map_nil]
      dsimp only
      rw [hnullstr, exCombineObj, exCombineObj]
      rfl
    rw [serialize, hs]
    all_goals simp

/-
QueryBuilder (src/unnamed/part_002, first version, lines 1–448).  Both
executions are modelled over the same row list: `db.stream()` and an
unordered SQLite scan enumerate the same table, so the list order stands
for the backend's row order in both.  `getSQLOptimized`'s fallback branches
(no SQL handle, thrown SQL errors) re-enter the streaming path and are not
modelled; the theorems compare the SQL success path against streaming. -/

/-- `where` / `whereMultiple` operator set (`validOperators`). -/
inductive FOp where
  | feq | feq2 | fne | fgt | fge | flt | fle
  | fcontains | fstarts | fends | fin | fnotin
deriving DecidableEq

structure Filt where
  field : String
  op : FOp
  value : JSValue

/-- JavaScript `===` on the modelled universe.  Object-typed operands
compare by reference; two values of reference type are modelled as distinct
objects, hence `false`.  `NaN === NaN` is `false`. -/
def strictEq : JSValue → JSValue → Bool
  | vnull, vnull => true
  | vundef, vundef => true
  | vbool a, vbool b => a = b
  | vnum a, vnum b => a = b
  | vinf, vinf => true
  | vninf, vninf => true
  | vstr a, vstr b => a = b
  | vbigint a, vbigint b => a = b
  | _, _ => false

/-- SameValueZero (`Array.prototype.includes`): like `===` but
`NaN` matches `NaN`. -/
def svzEq : JSValue → JSValue → Bool
  | vnan, vnan => true
  | a, b => strictEq a b

def cmpv {α : Type} [LinearOrder α] (x y : α) : Ordering :=
  if x < y then .lt else if x = y then .eq else .gt

/-- The abstract relational comparison behind `<`, `>`, `<=`, `>=`:
`none` when `NaN` is involved (every relational then yields `false`),
otherwise the ordering after string/number coercion. -/
def jsRel (P : Platform) (a b : JSValue) : Option Ordering :=
  match a, b with
  | vstr x, vstr y => some (cmpv x y)
  | a, b =>
    match toNumber P a, toNumber P b with
    | .nan, _ => none
    | _, .nan => none
    | .fin x, .fin y => some (cmpv x y)
    | .fin _, .inf => some .lt
    | .fin _, .ninf => some .gt
    | .inf, .fin _ => some .gt
    | .inf, .inf => some .eq
    | .inf, .ninf => some .gt
    | .ninf, .fin _ => some .lt
    | .ninf, .inf => some .lt
    | .ninf, .ninf => some .eq

def isNullOrUndef : JSValue → Bool
  | vnull => true
  | vundef => true
  | _ => false

/-- `obj[key]` for property reads in this module: an own property of a
plain object, `undefined` otherwise (indexed access into exotic objects is
not exercised by any query below). -/
def oget (v : JSValue) (k : String) : JSValue :=
  match v with
  | vobj fields => (aget fields k).getD vundef
  | _ => vundef

def getNestedGo : List String → JSValue → JSValue
  | [], cur => cur
  | p :: rest, cur =>
    if isNullOrUndef cur then vundef else getNestedGo rest (oget cur p)

/-- `getNestedValue` (lines 202–218). -/
def getNested (v : JSValue) (path : String) : JSValue :=
  if ¬ path.data.contains '.' then oget v path
  else getNestedGo (path.splitOn ".") v

/-- `matchesFilter` (lines 155–196). -/
def matchesFilter (P : Platform) (data : JSValue) (f : Filt) : Bool :=
  let fieldValue := getNested data f.field
  match f.op with
  | .feq => strictEq fieldValue f.value
  | .feq2 => strictEq fieldValue f.value
  | .fne => ! strictEq fieldValue f.value
  | .fgt => jsRel P fieldValue f.value = some .gt
  | .fge => jsRel P fieldValue f.value = some .gt ∨ jsRel P fieldValue f.value = some .eq
  | .flt => jsRel P fieldValue f.value = some .lt
  | .fle => jsRel P fieldValue f.value = some .lt ∨ jsRel P fieldValue f.value = some .eq
  | .fcontains => decide ((jsToStr P f.value).data <:+: (jsToStr P fieldValue).data)
  | .fstarts => (jsToStr P f.value).data.isPrefixOf (jsToStr P fieldValue).data
  | .fends => (jsToStr P f.value).data.isSuffixOf (jsToStr P fieldValue).data
  | .fin =>
    match f.value with
    | varr l => l.any (svzEq fieldValue)
    | _ => false
  | .fnotin =>
    match f.value with
    | varr l => ! l.any (svzEq fieldValue)
    | _ => false

/-- `sortComparator` (lines 220–230). -/
def sortComparator (P : Platform) (a b : JSValue) (field : String)
    (asc : Bool) : Int :=
  let aVal := getNested a field
  let bVal := getNested b field
  if strictEq aVal bVal then 0
  else if isNullOrUndef aVal then 1
  else if isNullOrUndef bVal then -1
  else
    let comparison : Int := if jsRel P aVal bVal = some .lt then -1 else 1
    if asc then comparison else -comparison

/-- Stable insertion of `x` after every element `y` with `c y x ≤ 0`. -/
def insAfter {α : Type} (c : α → α → Int) (x : α) : List α → List α
  | [] => [x]
  | y :: t => if c y x ≤ 0 then y :: insAfter c x t else x :: y :: t

/-- A stable comparator sort (`Array.prototype.sort` is stable). -/
def csort {α : Type} (c : α → α → Int) (l : List α) : List α :=
  l.foldl (fun acc x => insAfter c x acc) []

/-- `parseValue` (lines 236–246): strings go through `JSON.parse` with a
catch; `pv` abstracts that parse (identical on both execution paths). -/
def parseValueQ (pv : String → JSValue) : JSValue → JSValue
  | vstr s => pv s
  | v => v

/-- `typeof data === 'object' && data !== null && !Array.isArray(data)`. -/
def isObjLike : JSValue → Bool
  | vobj _ => true
  | vdate _ => true
  | vregex _ _ => true
  | vset _ => true
  | vmap _ => true
  | vbuf _ => true
  | vtyped _ _ => true
  | vtypedBig _ _ => true
  | vdataview _ => true
  | verror _ _ _ => true
  | _ => false

/-- The own enumerable properties object spread copies. -/
def spreadFields : JSValue → List (String × JSValue)
  | vobj fields => fields
  | vtyped _ es => es.enum.map fun p => (toString p.1, vnum p.2)
  | vbuf bs => bs.enum.map fun p => (toString p.1, vnum (p.2 : ℚ))
  | _ => []

/-- The per-row result shape (`{ key, ...data }` or `{ key, value: data }`,
lines 279–281): the `key` slot is created first and keeps its position, but
a `key` property spread from the data overrides its value. -/
def shapeRes (key : String) (data : JSValue) : JSValue :=
  if isObjLike data then
    let fs := spreadFields data
    vobj (("key", (aget fs "key").getD (vstr key)) ::
      fs.filter fun p => p.1 ≠ "key")
  else vobj [("key", vstr key), ("value", data)]

structure QB where
  filters : List Filt
  prefixFilter : Option String
  regexFilter : Option (String → Bool)
  limitValue : Option Nat
  offsetValue : Nat
  sortField : Option String
  sortAsc : Bool
  selectFields : Option (List String)

/-- The key-level skips of the scan loop (prefix and regex guards, with
JavaScript truthiness on the stored filters). -/
def keepKey (q : QB) (key : String) : Bool :=
  (match q.prefixFilter with
   | some p => if p = "" then true else p.data.isPrefixOf key.data
   | none => true) &&
  (match q.regexFilter with
   | some r => r key
   | none => true)

def hasSort (q : QB) : Bool :=
  match q.sortField with
  | some f => decide (f ≠ "")
  | none => false

/-- `this.sortField && this.limitValue && this.limitValue <
limitedSortThreshold` (line 255). -/
def useLimitedSort (q : QB) : Bool :=
  hasSort q &&
  (match q.limitValue with
   | some n => decide (0 < n ∧ n < 1000)
   | none => false)

/-- `this.sortField || this.limitValue === null || (this.limitValue +
this.offsetValue) > limitedSortThreshold` (line 256). -/
def needsFullScan (q : QB) : Bool :=
  hasSort q ||
  (match q.limitValue with
   | none => true
   | some n => decide (1000 < n + q.offsetValue))

def limOff (q : QB) : Nat := q.limitValue.getD 0 + q.offsetValue

/-- `canUseSQLOptimization` (lines 324–335); `backendSQL` stands for
`!db.db.isJSON && db.db.db && db.db.isConnected`. -/
def canUseSQL (backendSQL : Bool) (q : QB) : Bool :=
  backendSQL &&
  (match q.prefixFilter with
   | some p => decide (p ≠ "")
   | none => false) &&
  q.regexFilter.isNone &&
  q.filters.isEmpty

/-- The `for await` loop of `get` (lines 258–297): `results` and
`processed` thread through; the early `break` of the non-full-scan branch
returns the accumulated list. -/
def scanLoop (P : Platform) (pv : String → JSValue) (q : QB) :
    List (String × JSValue) → List JSValue → Nat → List JSValue
  | [], results, _ => results
  | (key, value) :: rest, results, processed =>
    if ¬ keepKey q key then scanLoop P pv q rest results processed
    else
      let data := parseValueQ pv value
      if ¬ (q.filters.all fun f => matchesFilter P data f) then
        scanLoop P pv q rest results processed
      else
        let result := shapeRes key data
        if useLimitedSort q then
          let results2 := results ++ [result]
          if limOff q < results2.length then
            scanLoop P pv q rest
              ((csort (fun a b =>
                sortComparator P a b (q.sortField.getD "") q.sortAsc)
                results2).take (limOff q)) processed
          else scanLoop P pv q rest results2 processed
        else
          let results2 := results ++ [result]
          if ¬ needsFullScan q ∧ limOff q ≤ processed + 1 then results2
          else scanLoop P pv q rest results2 (processed + 1)

/-- `get` without the SQL dispatch (lines 253–321): scan, then sort,
offset, limit and projection. -/
def streamGet (P : Platform) (pv : String → JSValue) (q : QB)
    (rows : List (String × JSValue)) : List JSValue :=
  let r0 := scanLoop P pv q rows [] 0
  let r1 := if hasSort q then
      csort (fun a b => sortComparator P a b (q.sortField.getD "") q.sortAsc) r0
    else r0
  let r2 := if 0 < q.offsetValue then r1.drop q.offsetValue else r1
  let r3 := match q.limitValue with
    | some n => r2.take n
    | none => r2
  match q.selectFields with
  | some fields => r3.map fun item =>
      vobj (("key", oget item "key") :: fields.map fun f => (f, getNested item f))
  | none => r3

/-- ASCII lower-casing, the folding SQLite's default `LIKE` applies (only
`A`–`Z` fold; `database.js` sets no `case_sensitive_like` pragma). -/
def asciiLower (c : Char) : Char :=
  if 'A' ≤ c ∧ c ≤ 'Z' then Char.ofNat (c.toNat + 32) else c

/-- `getSQLOptimized`'s success path (lines 337–373): `LIKE prefix%` (ASCII
case-insensitive — unlike the streaming path's `key.startsWith`),
`ORDER BY key` only when `sortField === 'key'`, `LIMIT` only when the limit
is truthy and `OFFSET` only inside `LIMIT`; no projection.  The prefix is
wildcard-free (`prefix()` rejects `%`, `_` and `\`), so `LIKE prefix%` is a
folded prefix match. -/
def sqlGet (P : Platform) (pv : String → JSValue) (q : QB)
    (rows : List (String × JSValue)) : List JSValue :=
  let rows1 := rows.filter fun r =>
    ((q.prefixFilter.getD "").data.map asciiLower).isPrefixOf
      (r.1.data.map asciiLower)
  let rows2 := if q.sortField = some "key" then
      csort (fun r1 r2 =>
        let c : Int := match cmpv r1.1 r2.1 with
          | .lt => -1
          | .eq => 0
          | .gt => 1
        if q.sortAsc then c else -c) rows1
    else rows1
  let rows3 := match q.limitValue with
    | some n =>
      if n ≠ 0 then
        (if q.offsetValue ≠ 0 then (rows2.drop q.offsetValue).take n
         else rows2.take n)
      else rows2
    | none => rows2
  rows3.map fun r => shapeRes r.1 (parseValueQ pv r.2)

/-- `get`'s dispatch (lines 248–251). -/
def qbGet (P : Platform) (pv : String → JSValue) (backendSQL : Bool) (q : QB)
    (rows : List (String × JSValue)) : List JSValue :=
  if canUseSQL backendSQL q then sqlGet P pv q rows else streamGet P pv q rows

def rowKeep (P : Platform) (pv : String → JSValue) (q : QB)
    (r : String × JSValue) : Bool :=
  keepKey q r.1 && (q.filters.all fun f => matchesFilter P (parseValueQ pv r.2) f)

def rowRes (pv : String → JSValue) (r : String × JSValue) : JSValue :=
  shapeRes r.1 (parseValueQ pv r.2)

/-- The accepted rows of a scan, in stream order, already shaped. -/
def acceptedRes (P : Platform) (pv : String → JSValue) (q : QB)
    (rows : List (String × JSValue)) : List JSValue :=
  (rows.filter (rowKeep P pv q)).map (rowRes pv)

/-- With the limited-sort buffer off and a full scan required, the loop
collects every accepted row in stream order. -/
theorem scanLoop_full (P : Platform) (pv : String → JSValue) (q : QB)
    (huls : useLimitedSort q = false) (hnfs : needsFullScan q = true) :
    ∀ (rows : List (String × JSValue)) (acc : List JSValue) (proc : Nat),
      scanLoop P pv q rows acc proc = acc ++ acceptedRes P pv q rows := by
  intro rows
  induction rows with
  | nil =>
    intro acc proc
    simp [scanLoop, acceptedRes]
  | cons r rest ih =>
    intro acc proc
    obtain ⟨key, value⟩ := r
    by_cases hk : keepKey q key = true
    · rw [scanLoop, if_neg (by simp [hk])]
      by_cases hf : (q.filters.all fun f => matchesFilter P (parseValueQ pv value) f) = true
      · rw [if_neg (by simp [hf]), if_neg (by simp [huls]),
          if_neg (fun h => by simp [hnfs] at h)]
        rw [ih]
        simp [acceptedRes, rowKeep, rowRes, List.filter_cons, hk, hf]
      · rw [if_pos (by simpa using hf), ih]
        simp [acceptedRes, rowKeep, List.filter_cons, hk, hf]
    · rw [scanLoop, if_pos (by simpa using hk), ih]
      simp [acceptedRes, rowKeep, List.filter_cons, hk]

/-- With the limited-sort buffer off and no full scan required, the loop
stops as soon as `limit + offset` accepted rows are in hand: it returns the
accepted prefix. -/
theorem scanLoop_cap (P : Platform) (pv : String → JSValue) (q : QB)
    (huls : useLimitedSort q = false) (hnfs : needsFullScan q = false) :
    ∀ (rows : List (String × JSValue)) (acc : List JSValue) (proc : Nat),
      proc < limOff q →
      scanLoop P pv q rows acc proc =
        acc ++ (acceptedRes P pv q rows).take (limOff q - proc) := by
  intro rows
  induction rows with
  | nil =>
    intro acc proc _
    simp [scanLoop, acceptedRes]
  | cons r rest ih =>
    intro acc proc hproc
    obtain ⟨key, value⟩ := r
    by_cases hk : keepKey q key = true
    · rw [scanLoop, if_neg (by simp [hk])]
      by_cases hf : (q.filters.all fun f => matchesFilter P (parseValueQ pv value) f) = true
      · rw [if_neg (by simp [hf]), if_neg (by simp [huls])]
        have hacc : acceptedRes P pv q ((key, value) :: rest) =
            rowRes pv (key, value) :: acceptedRes P pv q rest := by
          simp [acceptedRes, rowKeep, rowRes, List.filter_cons, hk, hf]
        by_cases hstop : limOff q ≤ proc + 1
        · rw [if_pos ⟨by simp [hnfs], hstop⟩]
          have : limOff q - proc = 1 := by omega
          rw [hacc, this]
          simp [rowRes]
        · rw [if_neg (fun h => hstop h.2), ih _ (proc + 1) (by omega), hacc]
          have : limOff q - proc = (limOff q - (proc + 1)) + 1 := by omega
          rw [this]
          simp [rowRes, List.take_succ_cons]
      · rw [if_pos (by simpa using hf), ih _ proc hproc]
        simp [acceptedRes, rowKeep, List.filter_cons, hk, hf]
    · rw [scanLoop, if_pos (by simpa using hk), ih _ proc hproc]
      simp [acceptedRes, rowKeep, List.filter_cons, hk]

/-- Claim C9 (amended): the SQL push-down agrees with the fused streaming
execution on the push-down-eligible builder states that configure no sort,
no projection, and an offset only alongside a limit — provided no row key
matches the prefix only up to ASCII case (`hcase`), since `LIKE` folds case
while `key.startsWith` does not.  (With a sort field the SQL path ignores
any non-`key` sort and applies `LIMIT` before the sort semantics; an offset
without a limit is dropped by the SQL path; a `select` projection is never
applied there; a case-variant key is accepted by SQL only — see
`c9_pushdown_cex`.) -/
theorem c9_pushdown_equiv (P : Platform) (pv : String → JSValue) (q : QB)
    (rows : List (String × JSValue)) (p : String)
    (hp : q.prefixFilter = some p) (hpne : p ≠ "")
    (hreg : q.regexFilter = none) (hfil : q.filters = [])
    (hsort : q.sortField = none) (hsel : q.selectFields = none)
    (hoff : q.offsetValue = 0 ∨ q.limitValue.isSome)
    (hlim : ∀ n, q.limitValue = some n → 1 ≤ n)
    (hcase : ∀ r ∈ rows,
      ((p.data.map asciiLower).isPrefixOf (r.1.data.map asciiLower)) =
        p.data.isPrefixOf r.1.data) :
    sqlGet P pv q rows = streamGet P pv q rows := by
  have hhs : hasSort q = false := by rw [hasSort, hsort]
  have huls : useLimitedSort q = false := by rw [useLimitedSort, hhs]; rfl
  have hkeep : ∀ r : String × JSValue, rowKeep P pv q r = p.data.isPrefixOf r.1.data := by
    intro r
    rw [rowKeep, hfil, keepKey, hp, hreg]
    simp [hpne]
  have hacc : acceptedRes P pv q rows =
      (rows.filter fun r => p.data.isPrefixOf r.1.data).map (rowRes pv) := by
    rw [acceptedRes]
    congr 1
    exact List.filter_congr fun a _ => hkeep a
  have hmapeq : ∀ l : List (String × JSValue),
      (l.map fun r => shapeRes r.1 (parseValueQ pv r.2)) = l.map (rowRes pv) :=
    fun l => List.map_congr_left fun a _ => rfl
  have hfilt : (rows.filter fun r =>
      (p.data.map asciiLower).isPrefixOf (r.1.data.map asciiLower)) =
      rows.filter fun r => p.data.isPrefixOf r.1.data :=
    List.filter_congr fun a ha => hcase a ha
  rcases hq : q.limitValue with _ | n
  · have hoff0 : q.offsetValue = 0 := by
      rcases hoff with h | h
      · exact h
      · rw [hq] at h
        simp at h
    have hnfs : needsFullScan q = true := by
      rw [needsFullScan, hq]
      simp
    have hscan := scanLoop_full P pv q huls hnfs rows [] 0
    have hstream : streamGet P pv q rows =
        (rows.filter fun r => p.data.isPrefixOf r.1.data).map (rowRes pv) := by
      rw [streamGet]
      simp only [hscan, hacc, hhs, hq, hsel, hoff0, List.nil_append]
      simp
    have hsql : sqlGet P pv q rows =
        (rows.filter fun r => p.data.isPrefixOf r.1.data).map (rowRes pv) := by
      rw [sqlGet]
      simp only [hq, hsort, hp]
      simp only [Option.getD_some]
      rw [hfilt]
      simp [hmapeq]
    rw [hstream, hsql]
  · have h1n : 1 ≤ n := hlim n hq
    by_cases hbig : 1000 < n + q.offsetValue
    · have hnfs : needsFullScan q = true := by
        rw [needsFullScan, hq]
        simp [hbig]
      have hscan := scanLoop_full P pv q huls hnfs rows [] 0
      have hstream : streamGet P pv q rows =
          ((((rows.filter fun r => p.data.isPrefixOf r.1.data).map (rowRes pv)).drop
            q.offsetValue).take n) := by
        rw [streamGet]
        simp only [hscan, hacc, hhs, hq, hsel, List.nil_append]
        by_cases ho : 0 < q.offsetValue
        · simp [ho]
        · have h0 : q.offsetValue = 0 := by omega
          simp [h0]
      have hsql : sqlGet P pv q rows =
          ((((rows.filter fun r => p.data.isPrefixOf r.1.data).map (rowRes pv)).drop
            q.offsetValue).take n) := by
        rw [sqlGet]
        simp only [hq, hsort, hp, Option.getD_some]
        rw [hfilt]
        have hn0 : n ≠ 0 := by omega
        by_cases ho : q.offsetValue ≠ 0
        · simp [hn0, ho, hmapeq]
        · have h0 : q.offsetValue = 0 := by omega
          simp [hn0, h0, hmapeq]
      rw [hstream, hsql]
    · have hnfs : needsFullScan q = false := by
        rw [needsFullScan, hq, hhs]
        simp
        omega
      have hlo : 0 < limOff q := by
        rw [limOff, hq]
        simp
        omega
      have hscan := scanLoop_cap P pv q huls hnfs rows [] 0 hlo
      have hlimoff : limOff q - 0 = n + q.offsetValue := by
        rw [limOff, hq]
        rfl
      rw [hlimoff] at hscan
      have hstream : streamGet P pv q rows =
          ((((rows.filter fun r => p.data.isPrefixOf r.1.data).map (rowRes pv)).drop
            q.offsetValue).take n) := by
        rw [streamGet]
        simp only [hscan, hacc, hhs, hq, hsel, List.nil_append]
        have hdt : ∀ l : List JSValue,
            (l.take (n + q.offsetValue)).drop q.offsetValue =
              (l.drop q.offsetValue).take n := by
          intro l
          rw [Nat.add_comm n q.offsetValue]
          exact (List.take_drop q.offsetValue n l).symm
        by_cases ho : 0 < q.offsetValue
        · simp [ho, hdt, List.take_take]
        · have h0 : q.offsetValue = 0 := by omega
          simp [h0, List.take_take]
      have hsql : sqlGet P pv q rows =
          ((((rows.filter fun r => p.data.isPrefixOf r.1.data).map (rowRes pv)).drop
            q.offsetValue).take n) := by
        rw [sqlGet]
        simp only [hq, hsort, hp, Option.getD_some]
        rw [hfilt]
        have hn0 : n ≠ 0 := by omega
        by_cases ho : q.offsetValue ≠ 0
        · simp [hn0, ho, hmapeq]
        · have h0 : q.offsetValue = 0 := by omega
          simp [hn0, h0, hmapeq]
      rw [hstream, hsql]

/-- Claim C9, witness: a concrete eligible builder (prefix `"a"`, limit 2,
offset 1, no sort/select) on four rows. -/
theorem c9_pushdown_equiv_witness :
    sqlGet witnessPlatform vstr
        ⟨[], some "a", none, some 2, 1, none, true, none⟩
        [("ab", vnull), ("b", vnum 1), ("ac", vstr "x"), ("ad", vnull)] =
      streamGet witnessPlatform vstr
        ⟨[], some "a", none, some 2, 1, none, true, none⟩
        [("ab", vnull), ("b", vnum 1), ("ac", vstr "x"), ("ad", vnull)] :=
  c9_pushdown_equiv witnessPlatform vstr _ _ "a" rfl (by decide) rfl rfl rfl rfl
    (Or.inr rfl) (fun n h => by injection h with h2; omega) (by decide)

/-- Claim C9, counterexample: three push-down-eligible builder states where
the SQL path and the streaming path disagree.  (1) `sort('v').limit(1)`:
the SQL query has no ORDER BY (the sort field is not `key`) and applies
`LIMIT 1` to unsorted rows, returning the first row, while streaming sorts
by `v` and returns the smallest.  (2) `offset(1)` without a limit: the SQL
text only gains `OFFSET` inside a `LIMIT` clause, so the offset is ignored.
(3) `select(['v'])`: the SQL path returns whole documents, streaming
projects.  (4) prefix `"a"` against key `"Ab"`: `LIKE 'a%'` folds ASCII
case and accepts the row, `key.startsWith('a')` rejects it. -/
theorem c9_pushdown_cex :
    canUseSQL true ⟨[], some "a", none, some 1, 0, some "v", true, none⟩ = true ∧
    sqlGet witnessPlatform vstr
        ⟨[], some "a", none, some 1, 0, some "v", true, none⟩
        [("a1", vobj [("v", vnum 2)]), ("a2", vobj [("v", vnum 1)])] =
      [vobj [("key", vstr "a1"), ("v", vnum 2)]] ∧
    streamGet witnessPlatform vstr
        ⟨[], some "a", none, some 1, 0, some "v", true, none⟩
        [("a1", vobj [("v", vnum 2)]), ("a2", vobj [("v", vnum 1)])] =
      [vobj [("key", vstr "a2"), ("v", vnum 1)]] ∧
    ([vobj [("key", vstr "a1"), ("v", vnum 2)]] : List JSValue) ≠
      [vobj [("key", vstr "a2"), ("v", vnum 1)]] ∧
    sqlGet witnessPlatform vstr
        ⟨[], some "a", none, none, 1, none, true, none⟩
        [("a1", vnull), ("a2", vnull)] =
      [vobj [("key", vstr "a1"), ("value", vnull)],
       vobj [("key", vstr "a2"), ("value", vnull)]] ∧
    streamGet witnessPlatform vstr
        ⟨[], some "a", none, none, 1, none, true, none⟩
        [("a1", vnull), ("a2", vnull)] =
      [vobj [("key", vstr "a2"), ("value", vnull)]] ∧
    sqlGet witnessPlatform vstr
        ⟨[], some "a", none, none, 0, none, true, some ["v"]⟩
        [("a1", vobj [("v", vnum 2), ("w", vnum 3)])] =
      [vobj [("key", vstr "a1"), ("v", vnum 2), ("w", vnum 3)]] ∧
    streamGet witnessPlatform vstr
        ⟨[], some "a", none, none, 0, none, true, some ["v"]⟩
        [("a1", vobj [("v", vnum 2), ("w", vnum 3)])] =
      [vobj [("key", vstr "a1"), ("v", vnum 2)]] ∧
    sqlGet witnessPlatform vstr
        ⟨[], some "a", none, none, 0, none, true, none⟩
        [("Ab", vnull)] =
      [vobj [("key", vstr "Ab"), ("value", vnull)]] ∧
    streamGet witnessPlatform vstr
        ⟨[], some "a", none, none, 0, none, true, none⟩
        [("Ab", vnull)] = ([] : List JSValue) := by
  refine ⟨rfl, by rfl, by rfl, ?_, by rfl, by rfl, by rfl, by rfl, by rfl, by rfl⟩
  simp

/-
`QuantumDB.transaction` (src/src/quantum.js lines 708–817).  The backend is
the SQL `data` table as a key-value map; `BEGIN IMMEDIATE` / `COMMIT` /
`ROLLBACK` give the all-or-nothing backend semantics (rollback restores the
pre-transaction table).  The cache is modelled by its key→value content:
`CacheManager`'s LRU/TTL bookkeeping is studied in the cache section, and
`cache.get`/`cache.set`/`cache.delete` act on the content as map
operations.  The proxy's `set`/`delete` validate the key (and value) first,
snapshot the cache entry on first touch (lines 771–774, 784–787), write
through to the table, and journal the operation in `modifiedKeys` (a `Map`,
so the last write per key wins). -/

/-- One operation the transaction callback performs through the proxy;
`tfail` is the callback throwing its own error. -/
inductive TxOp where
  | tset (key : String) (value : JSValue)
  | tdel (key : String)
  | tfail (msg : String)

/-- A `modifiedKeys` journal entry (`{operation: 'set', value}` /
`{operation: 'delete'}`). -/
inductive JEntry where
  | jset (value : JSValue)
  | jdel

/-- `error.message` of a modelled error. -/
def JsError.message : JsError → String
  | .invalidKey m => m
  | .invalidValue m => m
  | .notArray => "Target is not an array"
  | .invalidNumber m => m
  | .readError m => m
  | .writeError m => m
  | .transactionError m => m

/-- One proxy call (lines 766–791): validations throw out of the callback;
otherwise the backup gains a first-touch snapshot of the cache entry, the
table is written, and the journal updated. -/
def txApply (P : Platform) (cache db : List (String × JSValue))
    (jr : List (String × JEntry)) (bk : List (String × Option JSValue)) :
    TxOp → Except String
      (List (String × JSValue) × List (String × JEntry) ×
        List (String × Option JSValue))
  | .tset k v =>
    match validateKey P k with
    | .error e => .error e.message
    | .ok _ =>
      match validateValue v with
      | .error e => .error e.message
      | .ok _ =>
        let bk' := if (aget bk k).isSome then bk else aset bk k (aget cache k)
        .ok (aset db k v, aset jr k (.jset v), bk')
  | .tdel k =>
    match validateKey P k with
    | .error e => .error e.message
    | .ok _ =>
      let bk' := if (aget bk k).isSome then bk else aset bk k (aget cache k)
      .ok (adel db k, aset jr k .jdel, bk')
  | .tfail m => .error m

/-- The callback run: proxy calls in order, stopping at the first thrown
error (whose message is returned with the state at the throw). -/
def txRun (P : Platform) (cache : List (String × JSValue)) :
    List TxOp → List (String × JSValue) → List (String × JEntry) →
    List (String × Option JSValue) →
    Option String × List (String × JSValue) × List (String × JEntry) ×
      List (String × Option JSValue)
  | [], db, jr, bk => (none, db, jr, bk)
  | op :: rest, db, jr, bk =>
    match txApply P cache db jr bk op with
    | .error m => (some m, db, jr, bk)
    | .ok (d, j, b) => txRun P cache rest d j b

/-- `applyCacheUpdates` (lines 795–805). -/
def applyCacheUpdates (jr : List (String × JEntry))
    (cache : List (String × JSValue)) : List (String × JSValue) :=
  jr.foldl (fun c p =>
    match p.2 with
    | .jset v => aset c p.1 v
    | .jdel => adel c p.1) cache

/-- `restoreCacheBackup` (lines 807–817). -/
def restoreCacheBackup (bk : List (String × Option JSValue))
    (cache : List (String × JSValue)) : List (String × JSValue) :=
  bk.foldl (fun c p =>
    match p.2 with
    | some v => aset c p.1 v
    | none => adel c p.1) cache

structure TxResult where
  backend : List (String × JSValue)
  cache : List (String × JSValue)
  error : Option JsError

/-- `transaction` (lines 708–748) on a connected SQLite backend: run the
callback; on success commit and apply the journal to the cache; on a
callback throw (or a failing commit, whose SQLite message is `cmsg`)
rollback, restore the cache backup, and wrap the message in a
`TransactionError`. -/
def transaction (P : Platform) (cmsg : String) (ops : List TxOp)
    (commitOk : Bool) (db cache : List (String × JSValue)) : TxResult :=
  match txRun P cache ops db [] [] with
  | (some m, _, _, bk) =>
    ⟨db, restoreCacheBackup bk cache, some (.transactionError m)⟩
  | (none, db', jr, bk) =>
    if commitOk then ⟨db', applyCacheUpdates jr cache, none⟩
    else ⟨db, restoreCacheBackup bk cache, some (.transactionError cmsg)⟩

/-- Journal–backend agreement: the table reflects the last journaled
operation per key, and untouched keys keep their original rows. -/
def JB (db0 db : List (String × JSValue)) (jr : List (String × JEntry)) : Prop :=
  ∀ k, (∀ v, aget jr k = some (.jset v) → aget db k = some v) ∧
       (aget jr k = some .jdel → aget db k = none) ∧
       (aget jr k = none → aget db k = aget db0 k)

/-- Backup faithfulness: every snapshot records the cache's actual
pre-transaction entry (the cache is not written during the run). -/
def BK (cache : List (String × JSValue))
    (bk : List (String × Option JSValue)) : Prop :=
  ∀ k o, aget bk k = some o → o = aget cache k

theorem map_fst_aset_nodup {β : Type} (l : List (String × β)) (k : String)
    (v : β) (hnd : (l.map Prod.fst).Nodup) :
    ((aset l k v).map Prod.fst).Nodup := by
  rw [map_fst_aset]
  by_cases h : k ∈ l.map Prod.fst
  · simpa [h] using hnd
  · simp [h, List.nodup_append, hnd]

theorem txApply_ok (P : Platform) (cache db0 db : List (String × JSValue))
    (jr : List (String × JEntry)) (bk : List (String × Option JSValue))
    (op : TxOp) (d : List (String × JSValue)) (j : List (String × JEntry))
    (b : List (String × Option JSValue))
    (hap : txApply P cache db jr bk op = .ok (d, j, b))
    (hjb : JB db0 db jr) (hbk : BK cache bk)
    (hdn : (db.map Prod.fst).Nodup) (hjn : (jr.map Prod.fst).Nodup)
    (hbn : (bk.map Prod.fst).Nodup) :
    JB db0 d j ∧ BK cache b ∧ (d.map Prod.fst).Nodup ∧
      (j.map Prod.fst).Nodup ∧ (b.map Prod.fst).Nodup := by
  have hbk' : ∀ k : String,
      BK cache (if (aget bk k).isSome then bk else aset bk k (aget cache k)) ∧
      ((if (aget bk k).isSome then bk
        else aset bk k (aget cache k)).map Prod.fst).Nodup := by
    intro k
    split
    · exact ⟨hbk, hbn⟩
    · refine ⟨?_, map_fst_aset_nodup bk k _ hbn⟩
      intro k' o h'
      by_cases he : k = k'
      · subst he
        rw [aget_aset_self] at h'
        injection h' with h2
        exact h2.symm
      · rw [aget_aset_ne bk k k' _ he] at h'
        exact hbk k' o h'
  cases op with
  | tset k v =>
    rw [txApply] at hap
    cases hvk : validateKey P k with
    | error e => rw [hvk] at hap; exact absurd hap (by simp)
    | ok u =>
      rw [hvk] at hap
      cases hvv : validateValue v with
      | error e => rw [hvv] at hap; exact absurd hap (by simp)
      | ok u2 =>
        rw [hvv] at hap
        dsimp only at hap
        injection hap with hap2
        simp only [Prod.mk.injEq] at hap2
        obtain ⟨rfl, rfl, rfl⟩ := hap2
        refine ⟨?_, (hbk' k).1, map_fst_aset_nodup db k v hdn,
          map_fst_aset_nodup jr k _ hjn, (hbk' k).2⟩
        intro k'
        by_cases he : k = k'
        · subst he
          refine ⟨?_, ?_, ?_⟩
          · intro v' hv'
            rw [aget_aset_self] at hv'
            injection hv' with h2
            injection h2 with h3
            rw [← h3, aget_aset_self]
          · intro hv'
            rw [aget_aset_self] at hv'
            injection hv' with h2
            exact absurd h2 (by simp)
          · intro hv'
            rw [aget_aset_self] at hv'
            exact absurd hv' (by simp)
        · refine ⟨?_, ?_, ?_⟩ <;>
            rw [aget_aset_ne jr k k' _ he, aget_aset_ne db k k' _ he]
          · exact (hjb k').1
          · exact (hjb k').2.1
          · exact (hjb k').2.2
  | tdel k =>
    rw [txApply] at hap
    cases hvk : validateKey P k with
    | error e => rw [hvk] at hap; exact absurd hap (by simp)
    | ok u =>
      rw [hvk] at hap
      dsimp only at hap
      injection hap with hap2
      simp only [Prod.mk.injEq] at hap2
      obtain ⟨rfl, rfl, rfl⟩ := hap2
      refine ⟨?_, (hbk' k).1, map_fst_adel_nodup db k hdn,
        map_fst_aset_nodup jr k _ hjn, (hbk' k).2⟩
      intro k'
      by_cases he : k = k'
      · subst he
        refine ⟨?_, ?_, ?_⟩
        · intro v' hv'
          rw [aget_aset_self] at hv'
          injection hv' with h2
          exact absurd h2 (by simp)
        · intro _
          exact aget_adel_self db k hdn
        · intro hv'
          rw [aget_aset_self] at hv'
          exact absurd hv' (by simp)
      · refine ⟨?_, ?_, ?_⟩ <;>
          rw [aget_aset_ne jr k k' _ he, aget_adel_ne db k k' he]
        · exact (hjb k').1
        · exact (hjb k').2.1
        · exact (hjb k').2.2
  | tfail m =>
    rw [txApply] at hap
    exact absurd hap (by simp)

theorem txApply_ok_bk (P : Platform) (cache db : List (String × JSValue))
    (jr : List (String × JEntry)) (bk : List (String × Option JSValue))
    (op : TxOp) (d : List (String × JSValue)) (j : List (String × JEntry))
    (b : List (String × Option JSValue))
    (hap : txApply P cache db jr bk op = .ok (d, j, b))
    (hbk : BK cache bk) (hbn : (bk.map Prod.fst).Nodup) :
    BK cache b ∧ (b.map Prod.fst).Nodup := by
  have hbk' : ∀ k : String,
      BK cache (if (aget bk k).isSome then bk else aset bk k (aget cache k)) ∧
      ((if (aget bk k).isSome then bk
        else aset bk k (aget cache k)).map Prod.fst).Nodup := by
    intro k
    split
    · exact ⟨hbk, hbn⟩
    · refine ⟨?_, map_fst_aset_nodup bk k _ hbn⟩
      intro k' o h'
      by_cases he : k = k'
      · subst he
        rw [aget_aset_self] at h'
        injection h' with h2
        exact h2.symm
      · rw [aget_aset_ne bk k k' _ he] at h'
        exact hbk k' o h'
  cases op with
  | tset k v =>
    rw [txApply] at hap
    cases hvk : validateKey P k with
    | error e => rw [hvk] at hap; exact absurd hap (by simp)
    | ok u =>
      rw [hvk] at hap
      cases hvv : validateValue v with
      | error e => rw [hvv] at hap; exact absurd hap (by simp)
      | ok u2 =>
        rw [hvv] at hap
        dsimp only at hap
        injection hap with hap2
        simp only [Prod.mk.injEq] at hap2
        obtain ⟨rfl, rfl, rfl⟩ := hap2
        exact hbk' k
  | tdel k =>
    rw [txApply] at hap
    cases hvk : validateKey P k with
    | error e => rw [hvk] at hap; exact absurd hap (by simp)
    | ok u =>
      rw [hvk] at hap
      dsimp only at hap
      injection hap with hap2
      simp only [Prod.mk.injEq] at hap2
      obtain ⟨rfl, rfl, rfl⟩ := hap2
      exact hbk' k
  | tfail m =>
    rw [txApply] at hap
    exact absurd hap (by simp)

theorem txRun_ok (P : Platform) (cache db0 : List (String × JSValue)) :
    ∀ (ops : List TxOp) (db : List (String × JSValue))
      (jr : List (String × JEntry)) (bk : List (String × Option JSValue))
      (db' : List (String × JSValue)) (jr' : List (String × JEntry))
      (bk' : List (String × Option JSValue)),
      txRun P cache ops db jr bk = (none, db', jr', bk') →
      JB db0 db jr → BK cache bk →
      (db.map Prod.fst).Nodup → (jr.map Prod.fst).Nodup →
      (bk.map Prod.fst).Nodup →
      JB db0 db' jr' ∧ BK cache bk' ∧ (db'.map Prod.fst).Nodup ∧
        (jr'.map Prod.fst).Nodup ∧ (bk'.map Prod.fst).Nodup := by
  intro ops
  induction ops with
  | nil =>
    intro db jr bk db' jr' bk' h hjb hbk hdn hjn hbn
    rw [txRun] at h
    simp only [Prod.mk.injEq] at h
    obtain ⟨_, rfl, rfl, rfl⟩ := h
    exact ⟨hjb, hbk, hdn, hjn, hbn⟩
  | cons op rest ih =>
    intro db jr bk db' jr' bk' h hjb hbk hdn hjn hbn
    rw [txRun] at h
    cases hap : txApply P cache db jr bk op with
    | error m =>
      rw [hap] at h
      simp at h
    | ok t =>
      obtain ⟨d, j, b⟩ := t
      rw [hap] at h
      dsimp only at h
      obtain ⟨hjb2, hbk2, hdn2, hjn2, hbn2⟩ :=
        txApply_ok P cache db0 db jr bk op d j b hap hjb hbk hdn hjn hbn
      exact ih d j b db' jr' bk' h hjb2 hbk2 hdn2 hjn2 hbn2

theorem txRun_err (P : Platform) (cache : List (String × JSValue)) :
    ∀ (ops : List TxOp) (db : List (String × JSValue))
      (jr : List (String × JEntry)) (bk : List (String × Option JSValue))
      (m : String) (db' : List (String × JSValue))
      (jr' : List (String × JEntry)) (bk' : List (String × Option JSValue)),
      txRun P cache ops db jr bk = (some m, db', jr', bk') →
      BK cache bk → (bk.map Prod.fst).Nodup →
      BK cache bk' ∧ (bk'.map Prod.fst).Nodup := by
  intro ops
  induction ops with
  | nil =>
    intro db jr bk m db' jr' bk' h _ _
    rw [txRun] at h
    simp at h
  | cons op rest ih =>
    intro db jr bk m db' jr' bk' h hbk hbn
    rw [txRun] at h
    cases hap : txApply P cache db jr bk op with
    | error m2 =>
      rw [hap] at h
      dsimp only at h
      simp only [Prod.mk.injEq] at h
      obtain ⟨_, _, _, rfl⟩ := h
      exact ⟨hbk, hbn⟩
    | ok t =>
      obtain ⟨d, j, b⟩ := t
      rw [hap] at h
      dsimp only at h
      obtain ⟨hbk2, hbn2⟩ := txApply_ok_bk P cache db jr bk op d j b hap hbk hbn
      exact ih d j b m db' jr' bk' h hbk2 hbn2

/-- Restoring a faithful backup puts every cache entry back to its
pre-transaction content. -/
theorem restore_pointwise (cache0 : List (String × JSValue)) :
    ∀ (bk : List (String × Option JSValue)) (c : List (String × JSValue)),
      BK cache0 bk → (bk.map Prod.fst).Nodup →
      (∀ k, aget c k = aget cache0 k) → (c.map Prod.fst).Nodup →
      ∀ k, aget (restoreCacheBackup bk c) k = aget cache0 k := by
  intro bk
  induction bk with
  | nil =>
    intro c _ _ hc _ k
    exact hc k
  | cons p rest ih =>
    intro c hbk hbn hc hcn k
    obtain ⟨k0, o⟩ := p
    simp only [List.map_cons, List.nodup_cons] at hbn
    have hbk2 : BK cache0 rest := by
      intro k' o' h'
      by_cases he : k0 = k'
      · subst he
        rw [aget_eq_none rest k0 hbn.1] at h'
        exact absurd h' (by simp)
      · exact hbk k' o' (by simp [aget, if_neg he, h'])
    cases o with
    | some v =>
      have ho : some v = aget cache0 k0 := hbk k0 _ (by simp [aget])
      have hstep : restoreCacheBackup ((k0, some v) :: rest) c =
          restoreCacheBackup rest (aset c k0 v) := rfl
      rw [hstep]
      refine ih (aset c k0 v) hbk2 hbn.2 ?_ (map_fst_aset_nodup c k0 v hcn) k
      intro k'
      by_cases he : k0 = k'
      · subst he
        rw [aget_aset_self, ho]
      · rw [aget_aset_ne c k0 k' v he]
        exact hc k'
    | none =>
      have ho : none = aget cache0 k0 := hbk k0 _ (by simp [aget])
      have hstep : restoreCacheBackup ((k0, none) :: rest) c =
          restoreCacheBackup rest (adel c k0) := rfl
      rw [hstep]
      refine ih (adel c k0) hbk2 hbn.2 ?_ (map_fst_adel_nodup c k0 hcn) k
      intro k'
      by_cases he : k0 = k'
      · subst he
        rw [aget_adel_self c k0 hcn, ho]
      · rw [aget_adel_ne c k0 k' he]
        exact hc k'

/-- Applying the journal to the cache realises exactly the journaled
operations and leaves every other entry untouched. -/
theorem applyCU_pointwise :
    ∀ (jr : List (String × JEntry)) (c : List (String × JSValue)),
      (jr.map Prod.fst).Nodup → (c.map Prod.fst).Nodup →
      (∀ k v, aget jr k = some (.jset v) →
        aget (applyCacheUpdates jr c) k = some v) ∧
      (∀ k, aget jr k = some .jdel → aget (applyCacheUpdates jr c) k = none) ∧
      (∀ k, aget jr k = none → aget (applyCacheUpdates jr c) k = aget c k) := by
  intro jr
  induction jr with
  | nil =>
    intro c _ _
    refine ⟨?_, ?_, fun k _ => rfl⟩
    · intro k v h
      simp [aget] at h
    · intro k h
      simp [aget] at h
  | cons p rest ih =>
    intro c hjn hcn
    obtain ⟨k0, e⟩ := p
    simp only [List.map_cons, List.nodup_cons] at hjn
    cases e with
    | jset v0 =>
      have hstep : applyCacheUpdates ((k0, .jset v0) :: rest) c =
          applyCacheUpdates rest (aset c k0 v0) := rfl
      obtain ⟨ih1, ih2, ih3⟩ := ih (aset c k0 v0) hjn.2
        (map_fst_aset_nodup c k0 v0 hcn)
      refine ⟨?_, ?_, ?_⟩
      · intro k v h
        rw [hstep]
        by_cases he : k0 = k
        · subst he
          have hv : v0 = v := by
            simp only [aget, if_pos rfl, if_true, Option.some.injEq, JEntry.jset.injEq] at h
            exact h
          subst hv
          rw [ih3 k0 (aget_eq_none rest k0 hjn.1)]
          exact aget_aset_self c k0 v0
        · exact ih1 k v (by simpa [aget, if_neg he] using h)
      · intro k h
        rw [hstep]
        by_cases he : k0 = k
        · subst he
          simp [aget] at h
        · exact ih2 k (by simpa [aget, if_neg he] using h)
      · intro k h
        rw [hstep]
        have he : k0 ≠ k := by
          intro hk
          subst hk
          simp [aget] at h
        rw [ih3 k (by simpa [aget, if_neg he] using h)]
        exact aget_aset_ne c k0 k v0 he
    | jdel =>
      have hstep : applyCacheUpdates ((k0, .jdel) :: rest) c =
          applyCacheUpdates rest (adel c k0) := rfl
      obtain ⟨ih1, ih2, ih3⟩ := ih (adel c k0) hjn.2 (map_fst_adel_nodup c k0 hcn)
      refine ⟨?_, ?_, ?_⟩
      · intro k v h
        rw [hstep]
        by_cases he : k0 = k
        · subst he
          simp [aget] at h
        · exact ih1 k v (by simpa [aget, if_neg he] using h)
      · intro k h
        rw [hstep]
        by_cases he : k0 = k
        · subst he
          rw [ih3 k0 (aget_eq_none rest k0 hjn.1)]
          exact aget_adel_self c k0 hcn
        · exact ih2 k (by simpa [aget, if_neg he] using h)
      · intro k h
        rw [hstep]
        have he : k0 ≠ k := by
          intro hk
          subst hk
          simp [aget] at h
        rw [ih3 k (by simpa [aget, if_neg he] using h)]
        exact aget_adel_ne c k0 k he

/-- Claim C1: transactions are all-or-nothing in backend and cache.  If the
callback completes and the commit succeeds, the committed table is the one
the proxy built and both table and cache reflect every journaled
set/delete (and nothing else).  If the callback throws or the commit fails,
the table is rolled back to its pre-transaction state, restoring the backup
leaves the cache content pointwise unchanged, and the error surfaces as a
`TransactionError` wrapping the original message. -/
theorem c1_tx_atomic (P : Platform) (cmsg : String) (ops : List TxOp)
    (db cache : List (String × JSValue))
    (hdb : (db.map Prod.fst).Nodup) (hcache : (cache.map Prod.fst).Nodup) :
    (∀ db' jr bk, txRun P cache ops db [] [] = (none, db', jr, bk) →
      (transaction P cmsg ops true db cache).backend = db' ∧
      (transaction P cmsg ops true db cache).error = none ∧
      (∀ k v, aget jr k = some (.jset v) →
        aget db' k = some v ∧
        aget (transaction P cmsg ops true db cache).cache k = some v) ∧
      (∀ k, aget jr k = some .jdel →
        aget db' k = none ∧
        aget (transaction P cmsg ops true db cache).cache k = none) ∧
      (∀ k, aget jr k = none →
        aget db' k = aget db k ∧
        aget (transaction P cmsg ops true db cache).cache k = aget cache k)) ∧
    (∀ db' jr bk, txRun P cache ops db [] [] = (none, db', jr, bk) →
      (transaction P cmsg ops false db cache).backend = db ∧
      (∀ k, aget (transaction P cmsg ops false db cache).cache k = aget cache k) ∧
      (transaction P cmsg ops false db cache).error =
        some (.transactionError cmsg)) ∧
    (∀ m db' jr bk commitOk, txRun P cache ops db [] [] = (some m, db', jr, bk) →
      (transaction P cmsg ops commitOk db cache).backend = db ∧
      (∀ k, aget (transaction P cmsg ops commitOk db cache).cache k =
        aget cache k) ∧
      (transaction P cmsg ops commitOk db cache).error =
        some (.transactionError m)) := by
  have hjb0 : JB db db [] := fun k =>
    ⟨fun v hv => by simp [aget] at hv, fun hv => by simp [aget] at hv,
      fun _ => rfl⟩
  have hbk0 : BK cache [] := fun k o h => by simp [aget] at h
  refine ⟨?_, ?_, ?_⟩
  · intro db' jr bk h
    obtain ⟨hjb, hbk, hdn, hjn, hbn⟩ := txRun_ok P cache db ops db [] [] db' jr bk
      h hjb0 hbk0 hdb (by simp) (by simp)
    obtain ⟨ha1, ha2, ha3⟩ := applyCU_pointwise jr cache hjn hcache
    have htx : transaction P cmsg ops true db cache =
        ⟨db', applyCacheUpdates jr cache, none⟩ := by
      rw [transaction, h]
      rfl
    rw [htx]
    refine ⟨rfl, rfl, ?_, ?_, ?_⟩
    · intro k v hk
      exact ⟨(hjb k).1 v hk, ha1 k v hk⟩
    · intro k hk
      exact ⟨(hjb k).2.1 hk, ha2 k hk⟩
    · intro k hk
      exact ⟨(hjb k).2.2 hk, ha3 k hk⟩
  · intro db' jr bk h
    obtain ⟨hjb, hbk, hdn, hjn, hbn⟩ := txRun_ok P cache db ops db [] [] db' jr bk
      h hjb0 hbk0 hdb (by simp) (by simp)
    have htx : transaction P cmsg ops false db cache =
        ⟨db, restoreCacheBackup bk cache, some (.transactionError cmsg)⟩ := by
      rw [transaction, h]
      rfl
    rw [htx]
    exact ⟨rfl,
      restore_pointwise cache bk cache hbk hbn (fun _ => rfl) hcache, rfl⟩
  · intro m db' jr bk commitOk h
    obtain ⟨hbk, hbn⟩ := txRun_err P cache ops db [] [] m db' jr bk h hbk0 (by simp)
    have htx : transaction P cmsg ops commitOk db cache =
        ⟨db, restoreCacheBackup bk cache, some (.transactionError m)⟩ := by
      rw [transaction, h]
    rw [htx]
    exact ⟨rfl,
      restore_pointwise cache bk cache hbk hbn (fun _ => rfl) hcache, rfl⟩

/-- Claim C1, witness: one committed and one rolled-back run of
`tx.set('k', true)` against a backend with an empty table and a cache
holding `k ↦ 1`. -/
theorem c1_tx_atomic_witness :
    (transaction witnessPlatform "SQLITE_BUSY" [.tset "k" (JSValue.vbool true)]
      true [] [("k", JSValue.vnum 1)]).error = none ∧
    aget (transaction witnessPlatform "SQLITE_BUSY"
      [.tset "k" (JSValue.vbool true)] true [] [("k", JSValue.vnum 1)]).backend
      "k" = some (JSValue.vbool true) ∧
    aget (transaction witnessPlatform "SQLITE_BUSY"
      [.tset "k" (JSValue.vbool true)] true [] [("k", JSValue.vnum 1)]).cache
      "k" = some (JSValue.vbool true) ∧
    (transaction witnessPlatform "SQLITE_BUSY" [.tset "k" (JSValue.vbool true)]
      false [] [("k", JSValue.vnum 1)]).backend = [] ∧
    aget (transaction witnessPlatform "SQLITE_BUSY"
      [.tset "k" (JSValue.vbool true)] false [] [("k", JSValue.vnum 1)]).cache
      "k" = some (JSValue.vnum 1) ∧
    (transaction witnessPlatform "SQLITE_BUSY" [.tset "k" (JSValue.vbool true)]
      false [] [("k", JSValue.vnum 1)]).error =
      some (.transactionError "SQLITE_BUSY") := by
  have h := c1_tx_atomic witnessPlatform "SQLITE_BUSY"
    [.tset "k" (JSValue.vbool true)] [] [("k", JSValue.vnum 1)]
    (by simp) (by simp)
  have h1 := h.1 [("k", JSValue.vbool true)]
    [("k", JEntry.jset (JSValue.vbool true))]
    [("k", some (JSValue.vnum 1))] rfl
  have h2 := h.2.1 [("k", JSValue.vbool true)]
    [("k", JEntry.jset (JSValue.vbool true))]
    [("k", some (JSValue.vnum 1))] rfl
  refine ⟨h1.2.1, ?_, (h1.2.2.1 "k" (JSValue.vbool true) rfl).2,
    h2.1, h2.2.1 "k", h2.2.2⟩
  rw [h1.1]
  rfl

end QDB
